import Mathlib

/-!
# fermat: the simplification engine of `source/simplify.cpp`

A shallow embedding of the expression tree (`operand.hpp`), the canonical hash,
the hash distance, the structural comparison, unfold / fold, the factor
matchers, the term gatherer and the memoised `simplify` recursion, followed by
theorems about them.

Conventions of the embedding.

* `Integer` is `long long int`: an `Int` in the range `[-2^63, 2^63)`; machine
  arithmetic is written with an explicit `wrap64`.
* `Real` is held as IEEE-754 binary64 fields (the precision `hash` observes
  through `std::bit_cast <int64_t, double>`); only comparisons, the sign flip
  and the bit pattern are modelled.  Real arithmetic is left to the evaluator
  parameter.
* A C++ exception, a null dereference or a division by zero is `Fault.fatal`,
  a failing `assert` is `Fault.assertion`, and a loop or recursion that used up
  the step budget of the embedding is `Fault.fuel`.
* Log output (`lout`) is not modelled.
* `operation_impl.hpp` and `simplify.hpp` are not among the sources: the registry
  entries, the inverse map with its transforms, the numeric evaluator `opftn` and
  `simplification_context::find` are modelled from the spec, each under a doc comment
  that says so.
-/

namespace fermat

set_option maxRecDepth 100000

/-- Ways in which a call can end without a value. -/
inductive Fault where
  | fatal
  | assertion
  | fuel
deriving DecidableEq

deriving instance DecidableEq for Except

/-- Two's complement reduction of an integer to the `int64_t` range. -/
def wrap64 (x : Int) : Int := (x + 2 ^ 63) % 2 ^ 64 - 2 ^ 63

/-- The value `std::abs` yields on an `int64_t` (the minimum maps to itself). -/
def abs64 (x : Int) : Int := wrap64 (if x < 0 then -x else x)

/-- Precedence tiers of `operation.hpp`. -/
inductive Priority where
  | ePriorityAdditive
  | ePriorityMultiplicative
  | ePriorityExponential
deriving DecidableEq

/-- Modelled from the spec: the operation descriptor of `operation.hpp`
(identifier, display symbol, precedence tier, commutative flag). -/
structure Operation where
  id : Int
  lexicon : String
  priority : Priority
  commutative : Bool
deriving DecidableEq

/-- Real constants as binary64 data: sign bit, biased exponent, fraction. -/
structure Real where
  sign : Bool
  exponent : Nat
  fraction : Nat
deriving DecidableEq

namespace Real

/-- Not-a-number data. -/
def isNaN (r : Real) : Bool := r.exponent == 2047 && r.fraction != 0

/-- Either of the two zeros. -/
def isZero (r : Real) : Bool := r.exponent == 0 && r.fraction == 0

/-- The comparison `a == b` of two floating point values. -/
def eq (a b : Real) : Bool :=
  !a.isNaN && !b.isNaN && ((a.isZero && b.isZero) || decide (a = b))

/-- The comparison `r == 1.0`. -/
def isOne (r : Real) : Bool := !r.sign && r.exponent == 1023 && r.fraction == 0

/-- The comparison `r == 0.5`. -/
def isHalf (r : Real) : Bool := !r.sign && r.exponent == 1022 && r.fraction == 0

/-- The comparison `r < 0`. -/
def ltZero (r : Real) : Bool := r.sign && !r.isNaN && !r.isZero

/-- Unary minus. -/
def neg (r : Real) : Real := { r with sign := !r.sign }

/-- The value of `std::bit_cast <int64_t, double>`. -/
def bits (r : Real) : Int :=
  wrap64 ((if r.sign then 2 ^ 63 else 0) + (r.exponent : Int) * 2 ^ 52 + (r.fraction : Int))

end Real

/-- Operands of `operand.hpp`: a blank, an `Integer`, a `Real`, a variable with
its `lexicon`, or a binary grouping `{ op, opda, opdb }`; `op = none` is the
null operation of a degenerate grouping. -/
inductive Operand where
  | blank
  | integer (i : Int)
  | real (r : Real)
  | var (lexicon : String)
  | grouping (op : Option Operation) (opda opdb : Operand)
deriving DecidableEq

namespace Operand

def is_constant : Operand → Bool
  | integer _ => true
  | real _ => true
  | _ => false

def is_blank : Operand → Bool
  | blank => true
  | _ => false

def is_real : Operand → Bool
  | real _ => true
  | _ => false

def is_variable : Operand → Bool
  | var _ => true
  | _ => false

def is_binary_grouping : Operand → Bool
  | grouping _ _ _ => true
  | _ => false

def is_zero : Operand → Bool
  | integer i => i == 0
  | real r => r.isZero
  | _ => false

def is_one : Operand → Bool
  | integer i => i == 1
  | real r => r.isOne
  | _ => false

end Operand

/-- The token sequence `ExpressionHash::linear`. -/
abbrev ExpressionHash := List Int

/-- Tokens of a variable name: one per character, `hash.push_back(c)`. -/
def lexicon_tokens (lexicon : String) : ExpressionHash :=
  lexicon.toList.map (fun c => (c.toNat : Int))

/-- The canonical hash `detail::hash`.  A blank operand raises
`hash: unknown operand type`; a degenerate grouping hashes its blank right
operand and dereferences its null operation. -/
def hash : Operand → Except Fault ExpressionHash
  | Operand.integer i => Except.ok [i]
  | Operand.real r => Except.ok [r.bits]
  | Operand.var lexicon => Except.ok (lexicon_tokens lexicon)
  | Operand.grouping (some o) opda opdb => do
    let hash_a ← hash opda
    let hash_b ← hash opdb
    Except.ok (o.id :: (hash_a ++ hash_b))
  | Operand.grouping none _ _ => Except.error Fault.fatal
  | Operand.blank => Except.error Fault.fatal

/-- The two trailing loops of the hash distance: the tokens beyond the shared prefix. -/
def cmp_hash_rest : List Int → Int → Int
  | [], min => min
  | x :: xs, min => cmp_hash_rest xs (wrap64 (min + abs64 x))

/-- The accumulation loops of `cmp(const ExpressionHash &, const ExpressionHash &)`
(the spec's `distance`), with the running `int64_t` total `min`. -/
def cmp_hash_loop : List Int → List Int → Int → Int
  | x :: xs, y :: ys, min => cmp_hash_loop xs ys (wrap64 (min + abs64 (wrap64 (x - y))))
  | xs, [], min => cmp_hash_rest xs min
  | [], ys, min => cmp_hash_rest ys min

/-- The hash distance `cmp(const ExpressionHash &, const ExpressionHash &)`. -/
def cmp_hash (a b : ExpressionHash) : Int := cmp_hash_loop a b 0

/-- The structural comparison `cmp(const Operand &, const Operand &)` (the
spec's `structural_equal`).  The entry assertion rejects blank operands, and
the operation of a degenerate grouping is a null pointer. -/
def cmp : Operand → Operand → Except Fault Bool
  | Operand.blank, _ => Except.error Fault.assertion
  | _, Operand.blank => Except.error Fault.assertion
  | Operand.integer i, Operand.integer j => Except.ok (i == j)
  | Operand.real r, Operand.real s => Except.ok (Real.eq r s)
  | Operand.var a, Operand.var b => Except.ok (a == b)
  | Operand.grouping opa a1 b1, Operand.grouping opb a2 b2 =>
    match opa, opb with
    | some oa, some ob =>
      if oa.id == ob.id then
        match cmp a1 a2 with
        | Except.ok true => cmp b1 b2
        | r => r
      else Except.ok false
    | _, _ => Except.error Fault.fatal
  | _, _ => Except.ok false

/-! ## The operation registry -/

/-- Modelled from the spec: the registry entry of addition (`operation_impl.hpp` is not
part of the sources; identifiers are the positions in `g_operations`). -/
def op_add : Operation := ⟨0, "+", Priority.ePriorityAdditive, true⟩

/-- Modelled from the spec: the registry entry of subtraction. -/
def op_sub : Operation := ⟨1, "-", Priority.ePriorityAdditive, false⟩

/-- Modelled from the spec: the registry entry of multiplication. -/
def op_mul : Operation := ⟨2, "*", Priority.ePriorityMultiplicative, true⟩

/-- Modelled from the spec: the registry entry of division. -/
def op_div : Operation := ⟨3, "/", Priority.ePriorityMultiplicative, false⟩

/-- Modelled from the spec: the registry entry of exponentiation. -/
def op_exp : Operation := ⟨4, "^", Priority.ePriorityExponential, false⟩

/-- Modelled from the spec: the operation table, indexed by identifier. -/
def g_operations : List Operation := [op_add, op_sub, op_mul, op_div, op_exp]

/-- A registered inverse: the identifier of the inverse operation and the value
transform applied to its right operand. -/
structure CommutativeInverse where
  id : Int
  transformation : Operand → Operand

/-- Modelled from the spec: the transform registered with subtraction, "negate": a
constant is negated, any other operand is multiplied by `-1`. -/
def negate : Operand → Operand
  | Operand.integer i => Operand.integer (wrap64 (-i))
  | Operand.real r => Operand.real r.neg
  | opd => Operand.grouping (some op_mul) (Operand.integer (-1)) opd

/-- Modelled from the spec: the transform registered with division, the operand raised
to the power `-1`. -/
def reciprocal (opd : Operand) : Operand :=
  Operand.grouping (some op_exp) opd (Operand.integer (-1))

/-- Modelled from the spec: the inverse map, subtraction registered as the inverse of
addition and division as the inverse of multiplication. -/
def commutative_inverses : List (Int × CommutativeInverse) :=
  [(op_add.id, ⟨op_sub.id, negate⟩), (op_mul.id, ⟨op_div.id, reciprocal⟩)]

/-- The lookup `commutative_inverses.find(id)`. -/
def find_inverse (id : Int) : List (Int × CommutativeInverse) → Option CommutativeInverse
  | [] => none
  | pr :: rest => if pr.1 == id then some pr.2 else find_inverse id rest

/-- The loop of `simplify` over `commutative_inverses`: the operation that `op` is the
registered inverse of, `g_operations[pr.first]`. -/
def find_base (op : Operation) : List (Int × CommutativeInverse) → Option Operation
  | [] => none
  | pr :: rest => if pr.2.id == op.id then g_operations.get? pr.1.toNat else find_base op rest

/-- Modelled from the spec: the part of the numeric evaluator that the spec leaves to
the registry (division, exponentiation, `Real` operands, operands that are not
constants). -/
abbrev Evaluator := Operation → Operand → Operand → Except Fault Operand

/-- Modelled from the spec: the numeric evaluator `opftn`; on two `Integer` constants
addition, subtraction and multiplication are `long long` arithmetic. -/
def opftn (ev : Evaluator) (op : Operation) (a b : Operand) : Except Fault Operand :=
  match a, b with
  | Operand.integer x, Operand.integer y =>
    if op.id == op_add.id then Except.ok (Operand.integer (wrap64 (x + y)))
    else if op.id == op_sub.id then Except.ok (Operand.integer (wrap64 (x - y)))
    else if op.id == op_mul.id then Except.ok (Operand.integer (wrap64 (x * y)))
    else ev op a b
  | _, _ => ev op a b

/-! ## The simplification cache -/

/-- The cache of one simplification call: buckets `{ hash, results }` in insertion order. -/
structure simplification_context where
  cache : List (ExpressionHash × List Operand)
deriving DecidableEq

/-- Position of the first bucket whose key is `hash`, counted from `index`. -/
def find_from (hash : ExpressionHash) : List (ExpressionHash × List Operand) → Nat → Option Nat
  | [], _ => none
  | entry :: rest, index => if entry.1 == hash then some index else find_from hash rest (index + 1)

/-- Modelled from the spec: `simplification_context::find`, the index of the bucket
stored under `hash`; `none` stands for `-1`. -/
def simplification_context.find (sctx : simplification_context) (hash : ExpressionHash) :
    Option Nat :=
  find_from hash sctx.cache 0

/-- The statement `sctx.cache[index].second.push_back(opd)`. -/
def push_at (opd : Operand) : List (ExpressionHash × List Operand) → Nat →
    List (ExpressionHash × List Operand)
  | [], _ => []
  | entry :: rest, 0 => (entry.1, entry.2 ++ [opd]) :: rest
  | entry :: rest, index + 1 => entry :: push_at opd rest index

/-- The cache insertion of `simplify`: a new bucket when `find` gives `-1`, otherwise the
operand is appended to the bucket found. -/
def simplification_context.insert (sctx : simplification_context) (hash : ExpressionHash)
    (opd : Operand) : simplification_context :=
  match sctx.find hash with
  | none => ⟨sctx.cache ++ [(hash, [opd])]⟩
  | some index => ⟨push_at opd sctx.cache index⟩

/-! ## The engine -/

/-- The free function `is_constant`: a constant, a blank, or a grouping of such. -/
def is_constant : Operand → Bool
  | Operand.integer _ => true
  | Operand.real _ => true
  | Operand.blank => true
  | Operand.var _ => false
  | Operand.grouping none opda _ => is_constant opda
  | Operand.grouping (some _) opda opdb => is_constant opda && is_constant opdb

/-- One entry of the explicit stack of `unfold`. -/
structure stack_item where
  opd : Operand
  canon_inverse : Bool

/-- The `while (!stack.empty())` loop of `unfold`; the head of the list is the top of
the stack and `fuel` bounds the number of iterations. -/
def unfold_loop (focus : Operation) (ci : Option CommutativeInverse) :
    Nat → List stack_item → List Operand → Except Fault (List Operand)
  | _, [], items => Except.ok items
  | 0, _ :: _, _ => Except.error Fault.fuel
  | fuel + 1, si :: stack, items =>
    match si.opd with
    | Operand.integer i => unfold_loop focus ci fuel stack (items ++ [Operand.integer i])
    | Operand.real r => unfold_loop focus ci fuel stack (items ++ [Operand.real r])
    | Operand.var v => unfold_loop focus ci fuel stack (items ++ [Operand.var v])
    | Operand.blank => unfold_loop focus ci fuel stack items
    | Operand.grouping none opda _ =>
      unfold_loop focus ci fuel (⟨opda, si.canon_inverse⟩ :: stack) items
    | Operand.grouping (some op) opda opdb =>
      if op.id == focus.id then
        unfold_loop focus ci fuel
          (⟨opdb, si.canon_inverse⟩ :: ⟨opda, si.canon_inverse⟩ :: stack) items
      else
        match ci with
        | some inv =>
          if op.id == inv.id then
            let a := if si.canon_inverse then opda else opdb
            let b := if si.canon_inverse then opdb else opda
            unfold_loop focus ci fuel
              (⟨inv.transformation b, !si.canon_inverse⟩ :: ⟨a, si.canon_inverse⟩ :: stack) items
          else unfold_loop focus ci fuel stack (items ++ [Operand.grouping (some op) opda opdb])
        | none => unfold_loop focus ci fuel stack (items ++ [Operand.grouping (some op) opda opdb])

/-- The function `unfold(focus, bg)`, `bg` given as the operand that wraps it. -/
def unfold (fuel : Nat) (focus : Operation) (bg : Operand) : Except Fault (List Operand) :=
  if focus.commutative then
    unfold_loop focus (find_inverse focus.id commutative_inverses) fuel [⟨bg, true⟩] []
  else Except.error Fault.assertion

/-- One pass of the `for` loop of `fold` over adjacent pairs. -/
def fold_round (ev : Evaluator) (op : Operation) : List Operand → Except Fault (List Operand)
  | a :: b :: rest => do
    let res ← if a.is_constant && b.is_constant then opftn ev op a b
      else Except.ok (Operand.grouping (some op) a b)
    let next ← fold_round ev op rest
    Except.ok (res :: next)
  | [a] => Except.ok [a]
  | [] => Except.ok []

/-- The `while (current.size() > 1)` loop of `fold`. -/
def fold_loop (ev : Evaluator) (op : Operation) : Nat → List Operand → Except Fault Operand
  | _, [] => Except.error Fault.fatal
  | _, [a] => Except.ok a
  | 0, _ :: _ :: _ => Except.error Fault.fuel
  | fuel + 1, a :: b :: rest => do
    let next ← fold_round ev op (a :: b :: rest)
    fold_loop ev op fuel next

/-- The function `fold(op, opds)`. -/
def fold (ev : Evaluator) (op : Operation) (opds : List Operand) : Except Fault Operand :=
  match opds with
  | [] => Except.error Fault.fatal
  | _ :: _ =>
    if op.commutative then fold_loop ev op opds.length opds
    else Except.error Fault.assertion

/-- The search loop of `additive_constant_factor_match`: the items with the first one
structurally equal to `base` erased, or `none` when there is no such item. -/
def erase_first (base : Operand) : List Operand → Except Fault (Option (List Operand))
  | [] => Except.ok none
  | it :: rest => do
    if (← cmp base it) then Except.ok (some rest)
    else
      match (← erase_first base rest) with
      | some items => Except.ok (some (it :: items))
      | none => Except.ok none

/-- The function `additive_constant_factor_match`; a blank result means no match. -/
def additive_constant_factor_match (ev : Evaluator) (fuel : Nat) (prop : Operation)
    (base target : Operand) : Except Fault Operand :=
  if prop.id == op_mul.id then
    if !target.is_binary_grouping then do
      let hash_base ← hash base
      let hash_target ← hash target
      if cmp_hash hash_base hash_target == 0 then Except.ok (Operand.integer 1)
      else Except.ok Operand.blank
    else do
      let items ← unfold fuel prop target
      match (← erase_first base items) with
      | none => Except.ok Operand.blank
      | some [] => Except.ok (Operand.integer 1)
      | some [item] => Except.ok item
      | some items => fold ev prop items
  else Except.error Fault.assertion

/-- The lambda `base_of` of `multiplicative_constant_factor_match`. -/
def base_of : Operand → Operand × Operand
  | Operand.grouping (some op) opda opdb =>
    if op.id == op_exp.id then (opda, opdb)
    else (Operand.grouping (some op) opda opdb, Operand.integer 1)
  | opd => (opd, Operand.integer 1)

/-- The exponent selection of `multiplicative_constant_factor_match`; the remainder
`e2.i % e1.i` is undefined for a zero divisor and for `INT64_MIN % -1`. -/
def exponent_match (e1 e2 : Operand) : Except Fault Operand :=
  if e1.is_one then Except.ok e2
  else
    match e1, e2 with
    | Operand.integer i1, Operand.integer i2 =>
      if i1 == 0 then Except.error Fault.fatal
      else if i1 == -1 && i2 == -(2 ^ 63) then Except.error Fault.fatal
      else if Int.tmod i2 i1 == 0 then Except.ok (Operand.integer (Int.tdiv i2 i1))
      else Except.ok Operand.blank
    | _, _ => Except.ok Operand.blank

/-- The recursive calls `simplify(opd, sctx)` made by the helpers of the engine. -/
abbrev Simplifier :=
  Operand → simplification_context → Except Fault (Operand × simplification_context)

/-- The function `multiplicative_constant_factor_match`; a blank result means no match. -/
def multiplicative_constant_factor_match (S : Simplifier) (prop : Operation)
    (base target : Operand) (sctx : simplification_context) :
    Except Fault (Operand × simplification_context) :=
  if prop.id == op_exp.id then do
    let be1 := base_of base
    let be2 := base_of target
    if !(← cmp be1.1 be2.1) then Except.ok (Operand.blank, sctx)
    else do
      let exp ← exponent_match be1.2 be2.2
      if exp.is_blank then Except.ok (Operand.blank, sctx)
      else S exp sctx
  else Except.error Fault.assertion

/-- The dispatch `constant_factor_match`. -/
def constant_factor_match (ev : Evaluator) (fuel : Nat) (S : Simplifier) (prop : Operation)
    (base target : Operand) (sctx : simplification_context) :
    Except Fault (Operand × simplification_context) :=
  if prop.id == op_mul.id then do
    let factor ← additive_constant_factor_match ev fuel prop base target
    Except.ok (factor, sctx)
  else if prop.id == op_exp.id then
    multiplicative_constant_factor_match S prop base target sctx
  else Except.ok (Operand.blank, sctx)

/-- The promotion chain `promote`: add to mul, mul to exp. -/
def promote (op : Operation) : Except Fault Operation :=
  if op.commutative then
    if op.id == op_add.id then Except.ok op_mul
    else if op.id == op_mul.id then Except.ok op_exp
    else Except.ok op
  else Except.error Fault.assertion

/-- The identity element `identity`: `0` for add, `1` for mul, otherwise a blank. -/
def identity (op : Operation) : Except Fault Operand :=
  if op.commutative then
    if op.id == op_add.id then Except.ok (Operand.integer 0)
    else if op.id == op_mul.id then Except.ok (Operand.integer 1)
    else Except.ok Operand.blank
  else Except.error Fault.assertion

/-- The hash lengths computed at the start of `simplification_gather`. -/
def hash_lengths : List Operand → Except Fault (List (Operand × Nat))
  | [] => Except.ok []
  | opd :: rest => do
    let h ← hash opd
    let hs ← hash_lengths rest
    Except.ok ((opd, h.length) :: hs)

/-- Insertion of one item into a list ordered by hash length, before the items that are
not shorter. -/
def sort_insert (x : Operand × Nat) : List (Operand × Nat) → List (Operand × Nat)
  | [] => [x]
  | y :: ys => if x.2 ≤ y.2 then x :: y :: ys else y :: sort_insert x ys

/-- The call `std::sort` of `simplification_gather`, ascending in hash length.  The C++
standard leaves the order of items of equal length open; the embedding keeps their
order, which is the stable sort the spec asks for. -/
def sort_by_hash_length : List (Operand × Nat) → List (Operand × Nat)
  | [] => []
  | x :: xs => sort_insert x (sort_by_hash_length xs)

/-- The inner loop of `simplification_gather` for the item `base` at index `i`: every
later item `j` is offered to the factor matcher; a match adds its factor to the
accumulator `gathered[i]` and sets `ticked[j]`. -/
def gather_scan (ev : Evaluator) (fuel : Nat) (S : Simplifier) (prop : Operation)
    (base : Operand) : List Operand → List Bool → Operand → simplification_context →
    Except Fault (Operand × List Bool × simplification_context)
  | [], _, acc, sctx => Except.ok (acc, [], sctx)
  | item :: rest, ticked, acc, sctx => do
    let fm ← constant_factor_match ev fuel S prop base item sctx
    if fm.1.is_blank then do
      let r ← gather_scan ev fuel S prop base rest ticked.tail acc fm.2
      Except.ok (r.1, ticked.headD false :: r.2.1, r.2.2)
    else do
      let acc1 ← opftn ev op_add acc fm.1
      let r ← gather_scan ev fuel S prop base rest ticked.tail acc1 fm.2
      Except.ok (r.1, true :: r.2.1, r.2.2)

/-- The outer loop of `simplification_gather`: the factor `gathered[i]` of every item,
a blank for the items that were ticked before their turn. -/
def gather_sweep (ev : Evaluator) (fuel : Nat) (S : Simplifier) (prop : Operation) :
    List Operand → List Bool → simplification_context →
    Except Fault (List Operand × simplification_context)
  | [], _, sctx => Except.ok ([], sctx)
  | item :: rest, ticked, sctx =>
    if ticked.headD false then do
      let r ← gather_sweep ev fuel S prop rest ticked.tail sctx
      Except.ok (Operand.blank :: r.1, r.2)
    else do
      let sc ← gather_scan ev fuel S prop item rest ticked.tail (Operand.integer 1) sctx
      let r ← gather_sweep ev fuel S prop rest sc.2.1 sc.2.2
      Except.ok (sc.1 :: r.1, r.2)

/-- The emission loop of `simplification_gather` over the map `gathered`.  The map is a
`std::unordered_map`, whose iteration order the C++ standard leaves open; the embedding
visits the indices in ascending order, the order of the sweep in the spec. -/
def gather_emit (op : Operation) : List Operand → List Operand → List Operand
  | item :: items, factor :: gathered =>
    if factor.is_blank || factor.is_zero then gather_emit op items gathered
    else if !factor.is_one then
      Operand.grouping (some op) item factor :: gather_emit op items gathered
    else item :: gather_emit op items gathered
  | _, _ => []

/-- The function `simplification_gather`. -/
def simplification_gather (ev : Evaluator) (fuel : Nat) (S : Simplifier) (focus : Operation)
    (unordered_items : List Operand) (sctx : simplification_context) :
    Except Fault (List Operand × simplification_context) :=
  match unordered_items with
  | [] => Except.error Fault.assertion
  | _ :: _ => do
    let hashed ← hash_lengths unordered_items
    let items := (sort_by_hash_length hashed).map Prod.fst
    let prop ← promote focus
    let sw ← gather_sweep ev fuel S prop items [] sctx
    let gathered_items := gather_emit prop items sw.1
    match gathered_items with
    | [] => do
      let e ← identity focus
      Except.ok ([e], sw.2)
    | _ :: _ => Except.ok (gathered_items, sw.2)

/-- The loop of `simplification_fold` over `constants[1 ..]`. -/
def fold_constants (ev : Evaluator) (S : Simplifier) (focus : Operation) :
    List Operand → Operand → simplification_context →
    Except Fault (Operand × simplification_context)
  | [], constant, sctx => Except.ok (constant, sctx)
  | c :: rest, constant, sctx => do
    let r ← S c sctx
    if r.1.is_constant then do
      let constant1 ← opftn ev focus constant r.1
      fold_constants ev S focus rest constant1 r.2
    else Except.error Fault.assertion

/-- The function `simplification_fold`. -/
def simplification_fold (ev : Evaluator) (fuel : Nat) (S : Simplifier) (focus : Operation)
    (bg : Operand) (sctx : simplification_context) :
    Except Fault (Operand × simplification_context) :=
  if focus.commutative then do
    let items ← unfold fuel focus bg
    let constants := items.filter is_constant
    let unresolved := items.filter (fun opd => !is_constant opd)
    let u ← (match unresolved with
      | [] => Except.ok (Operand.blank, constants, sctx)
      | [opd] => do
        let r ← S opd sctx
        Except.ok (r.1, constants, r.2)
      | _ :: _ :: _ => do
        let g ← simplification_gather ev fuel S focus unresolved sctx
        let folded ← fold ev focus g.1
        if is_constant folded then Except.ok (Operand.blank, constants ++ [folded], g.2)
        else Except.ok (folded, constants, g.2) :
      Except Fault (Operand × List Operand × simplification_context))
    let unresolved_folded := u.1
    let c ← (match u.2.1 with
      | [] => Except.ok (Operand.blank, u.2.2)
      | c0 :: rest => do
        let r ← S c0 u.2.2
        if r.1.is_constant then fold_constants ev S focus rest r.1 r.2
        else Except.error Fault.assertion :
      Except Fault (Operand × simplification_context))
    let constant := c.1
    if constant.is_blank && unresolved_folded.is_blank then Except.error Fault.assertion
    else if constant.is_blank then Except.ok (unresolved_folded, c.2)
    else if unresolved_folded.is_blank then Except.ok (constant, c.2)
    else Except.ok (Operand.grouping (some focus) constant unresolved_folded, c.2)
  else Except.error Fault.assertion

/-- Modelled from the spec: the operand built by `1/(opda^n)` in
`simplification_aggressive` (the operand operators are not part of the sources). -/
def one_over_power (opda n : Operand) : Operand :=
  Operand.grouping (some op_div) (Operand.integer 1) (Operand.grouping (some op_exp) opda n)

/-- The operation-specific rules of `simplification_aggressive`, before the operands of
the outcome are simplified. -/
def aggressive_rules (op : Operation) (opda opdb : Operand) : Operand :=
  let out := Operand.grouping (some op) opda opdb
  if op.commutative then
    if op.id == op_add.id then
      if opda.is_zero then opdb
      else if opdb.is_zero then opda
      else out
    else if op.id == op_mul.id then
      if opda.is_one then opdb
      else if opda.is_zero then Operand.integer 0
      else if opdb.is_one then opda
      else if opdb.is_zero then Operand.integer 0
      else out
    else out
  else if op.id == op_exp.id then
    let out1 := if opda.is_zero then Operand.integer 0
      else if opda.is_one then Operand.integer 1
      else out
    if opdb.is_zero then Operand.integer 1
    else if opdb.is_one then opda
    else
      match opdb with
      | Operand.integer i =>
        if i < 0 then one_over_power opda (Operand.integer (wrap64 (-i))) else out1
      | Operand.real r =>
        if r.isHalf then out1
        else if r.ltZero then one_over_power opda (Operand.real r.neg)
        else out1
      | _ => out1
  else out

/-- The function `simplification_aggressive` on the grouping `{ op, opda, opdb }`. -/
def simplification_aggressive (S : Simplifier) (op : Operation) (opda opdb : Operand)
    (sctx : simplification_context) : Except Fault (Operand × simplification_context) :=
  match aggressive_rules op opda opdb with
  | Operand.grouping nop na nb => do
    let ra ← if na.is_binary_grouping then S na sctx else Except.ok (na, sctx)
    let rb ← if nb.is_binary_grouping then S nb ra.2 else Except.ok (nb, ra.2)
    Except.ok (Operand.grouping nop ra.1 rb.1, rb.2)
  | out => Except.ok (out, sctx)

/-- The first loop of `simplify` over a bucket: the first cached operand whose hash is
at distance `0` from `hash`. -/
def cached_result (hash_bg : ExpressionHash) : List Operand → Except Fault (Option Operand)
  | [] => Except.ok none
  | opd :: results => do
    let h ← hash opd
    if cmp_hash hash_bg h == 0 then Except.ok (some opd)
    else cached_result hash_bg results

/-- The second loop of `simplify` over a bucket: whether a cached operand is
structurally equal to `result`. -/
def seen_result (result : Operand) : List Operand → Except Fault Bool
  | [] => Except.ok false
  | res :: results => do
    if (← cmp res result) then Except.ok true
    else seen_result result results

/-- The cache lookup at the entry of `simplify`: when a bucket is stored under the hash
of the grouping, the first entry at hash distance `0`, otherwise the first entry of the
bucket; `none` when there is no bucket. -/
def cache_lookup (hash_bg : ExpressionHash) (sctx : simplification_context) :
    Except Fault (Option Operand) :=
  match sctx.find hash_bg with
  | none => Except.ok none
  | some index =>
    match sctx.cache.get? index with
    | none => Except.error Fault.fatal
    | some entry =>
      match cached_result hash_bg entry.2 with
      | Except.error e => Except.error e
      | Except.ok (some opd) => Except.ok (some opd)
      | Except.ok none =>
        match entry.2 with
        | [] => Except.error Fault.fatal
        | opd :: _ => Except.ok (some opd)

/-- The branch of `simplify` on the focus operation: either the value of an early
`return`, or the rebuilt grouping `out` with the context reached. -/
def simplify_branches (ev : Evaluator) (fuel : Nat) (S : Simplifier) (focus op : Operation)
    (opda opdb : Operand) (sctx : simplification_context) :
    Except Fault ((Operand × simplification_context) ⊕
      (Operation × Operand × Operand × simplification_context)) :=
  if focus.commutative then do
    let sf ← simplification_fold ev fuel S focus (Operand.grouping (some op) opda opdb) sctx
    match sf.1 with
    | Operand.grouping none a _ => do
      let r ← S a sf.2
      Except.ok (Sum.inl r)
    | Operand.grouping (some bop) a b => do
      let ra ← S a sf.2
      let rb ← S b ra.2
      Except.ok (Sum.inr (bop, ra.1, rb.1, rb.2))
    | simplified => do
      let r ← S simplified sf.2
      Except.ok (Sum.inl r)
  else do
    let ra ← S opda sctx
    let rb ← S opdb ra.2
    Except.ok (Sum.inr (op, ra.1, rb.1, rb.2))

/-- The end of `simplify`, after the aggressive rules gave `result`: when the hashes of
its operands moved away from the initial ones, the result is looked up under its own
hash, stored if it has no bucket, and simplified again on a copy of the cache. -/
def resimplify (S : Simplifier) (ihasha ihashb : ExpressionHash) (result : Operand)
    (sctx : simplification_context) : Except Fault (Operand × simplification_context) :=
  match result with
  | Operand.grouping nop na nb => do
    let fhasha ← hash na
    let fhashb ← hash nb
    if wrap64 (cmp_hash fhasha ihasha + cmp_hash fhashb ihashb) != 0 then do
      let hash_new ← hash (Operand.grouping nop na nb)
      match sctx.find hash_new with
      | some index =>
        match sctx.cache.get? index with
        | none => Except.error Fault.fatal
        | some entry =>
          if (← seen_result result entry.2) then Except.ok (result, sctx)
          else do
            let r ← S result sctx
            Except.ok (r.1, sctx)
      | none => do
        let sctx_new : simplification_context :=
          ⟨sctx.cache ++ [(hash_new, [Operand.grouping nop na nb])]⟩
        let r ← S result sctx_new
        Except.ok (r.1, sctx_new)
    else Except.ok (result, sctx)
  | _ => Except.ok (result, sctx)

/-- The function `simplify(const BinaryGrouping &, simplification_context &)` on the
grouping `{ op, opda, opdb }` with a non-null operation; the value returned with the
operand is the context of the caller after the call. -/
def simplify_grouping (ev : Evaluator) (fuel : Nat) (S : Simplifier) (op : Operation)
    (opda opdb : Operand) (sctx : simplification_context) :
    Except Fault (Operand × simplification_context) := do
  let hash_bg ← hash (Operand.grouping (some op) opda opdb)
  match (← cache_lookup hash_bg sctx) with
  | some opd => Except.ok (opd, sctx)
  | none =>
    let focus := (find_base op commutative_inverses).getD op
    let ihasha ← hash opda
    let ihashb ← hash opdb
    match (← simplify_branches ev fuel S focus op opda opdb sctx) with
    | Sum.inl r => Except.ok r
    | Sum.inr (oop, a, b, sctx1) =>
      if a.is_constant && b.is_constant then do
        let res ← opftn ev oop a b
        Except.ok (res, sctx1)
      else do
        let ag ← simplification_aggressive S oop a b
          (sctx1.insert hash_bg (Operand.grouping (some oop) a b))
        resimplify S ihasha ihashb ag.1 ag.2

/-- The function `simplify(const Operand &, simplification_context &)`, given the
recursive calls `S`. -/
def simplify_operand (ev : Evaluator) (fuel : Nat) (S : Simplifier) (opd : Operand)
    (sctx : simplification_context) : Except Fault (Operand × simplification_context) :=
  match opd with
  | Operand.grouping none opda _ => S opda sctx
  | Operand.grouping (some op) opda opdb => simplify_grouping ev fuel S op opda opdb sctx
  | _ => Except.ok (opd, sctx)

/-- The mutual recursion of `simplify` and its helpers, cut off at depth `fuel`; the
same budget bounds the loop of `unfold`. -/
def simplify (ev : Evaluator) : Nat → Simplifier
  | 0 => fun _ _ => Except.error Fault.fuel
  | fuel + 1 => fun opd sctx => simplify_operand ev fuel (simplify ev fuel) opd sctx

/-- Modelled from the spec: the top-level call, which creates the cache empty. -/
def simplify_top (ev : Evaluator) (fuel : Nat) (opd : Operand) : Except Fault Operand :=
  match simplify ev fuel opd ⟨[]⟩ with
  | Except.ok r => Except.ok r.1
  | Except.error e => Except.error e

/-- An evaluator that rejects every case left to it. -/
def no_evaluator : Evaluator := fun _ _ _ => Except.error Fault.fatal

/-- No blank operand and no degenerate grouping anywhere in the tree. -/
def proper : Operand → Bool
  | Operand.blank => false
  | Operand.grouping none _ _ => false
  | Operand.grouping (some _) opda opdb => proper opda && proper opdb
  | _ => true

/-- The hash as the data model words it: a constant contributes one token (its
bit pattern), a variable one token per character of its name, a grouping
`[operation.id] ++ hash(left) ++ hash(right)`. -/
def hash_reference : Operand → ExpressionHash
  | Operand.integer i => [i]
  | Operand.real r => [r.bits]
  | Operand.var lexicon => lexicon.toList.map (fun c => (c.toNat : Int))
  | Operand.grouping (some o) opda opdb => [o.id] ++ hash_reference opda ++ hash_reference opdb
  | _ => []

/-- Number of groupings of a tree. -/
def count_groupings : Operand → Nat
  | Operand.grouping _ opda opdb => 1 + count_groupings opda + count_groupings opdb
  | _ => 0

/-- An operand that `unfold` emits or drops in one step whatever the parity flag. -/
def inert (focus : Operation) (inv_id : Int) : Operand → Bool
  | Operand.grouping none _ _ => false
  | Operand.grouping (some op) _ _ => op.id != focus.id && op.id != inv_id
  | _ => true

/-- The items `unfold` appends for an inert operand. -/
def emitted : Operand → List Operand
  | Operand.blank => []
  | opd => [opd]

/-- The items of `unfold`, by recursion on the tree. -/
def flat (focus : Operation) (ci : Option CommutativeInverse) : Operand → List Operand
  | Operand.blank => []
  | Operand.grouping none opda _ => flat focus ci opda
  | Operand.grouping (some op) opda opdb =>
    if op.id == focus.id then flat focus ci opdb ++ flat focus ci opda
    else
      match ci with
      | some inv =>
        if op.id == inv.id then emitted (inv.transformation opdb) ++ flat focus ci opda
        else [Operand.grouping (some op) opda opdb]
      | none => [Operand.grouping (some op) opda opdb]
  | opd => [opd]

/-- The number of iterations `unfold` spends on a tree. -/
def unfold_cost (focus : Operation) (ci : Option CommutativeInverse) : Operand → Nat
  | Operand.grouping none opda _ => 1 + unfold_cost focus ci opda
  | Operand.grouping (some op) opda opdb =>
    if op.id == focus.id then 1 + unfold_cost focus ci opdb + unfold_cost focus ci opda
    else
      match ci with
      | some inv =>
        if op.id == inv.id then 2 + unfold_cost focus ci opda
        else 1
      | none => 1
  | _ => 1

/-- Trees built only from `Integer` constants of the `long long` range, combined with
the registry operations add, sub and mul. -/
def integer_tree : Operand → Bool
  | Operand.integer i => decide (-(2 ^ 63) ≤ i) && decide (i < 2 ^ 63)
  | Operand.grouping (some op) opda opdb =>
    (op == op_add || op == op_sub || op == op_mul) && integer_tree opda && integer_tree opdb
  | _ => false

/-- The arithmetic value of a tree of `Integer` constants, in exact integers. -/
def arithmetic_value : Operand → Int
  | Operand.integer i => i
  | Operand.grouping (some op) opda opdb =>
    if op.id == op_add.id then arithmetic_value opda + arithmetic_value opdb
    else if op.id == op_sub.id then arithmetic_value opda - arithmetic_value opdb
    else if op.id == op_mul.id then arithmetic_value opda * arithmetic_value opdb
    else 0
  | _ => 0

/-- A size measure under which the transform of a subtrahend is smaller than the
subtraction it comes from. -/
def weight : Operand → Nat
  | Operand.grouping (some op) opda opdb =>
    if op.id == op_sub.id then weight opda + weight opdb + 3
    else weight opda + weight opdb + 1
  | _ => 1

/-- The combination of a list of values under a commutative focus: the sum for add, the
product otherwise. -/
def combine (focus : Operation) (values : List Int) : Int :=
  if focus.id == op_add.id then values.sum else values.prod

/-- The hash distance as the spec words it, in exact integers: the sum of the absolute
token-wise differences over the shared prefix, plus the sum of the absolute values of
the tokens of the longer sequence beyond the length of the shorter. -/
def distance_reference (h1 h2 : ExpressionHash) : Int :=
  (List.zipWith (fun x y => |x - y|) h1 h2).sum
    + (((if h2.length ≤ h1.length then h1 else h2).drop (min h1.length h2.length)).map
        (fun t => |t|)).sum

/-- The trailing loops of the hash distance, carried out in exact integers. -/
def cmp_hash_rest_exact : List Int → Int → Int
  | [], min => min
  | x :: xs, min => cmp_hash_rest_exact xs (min + |x|)

/-- The loops of the hash distance, carried out in exact integers. -/
def cmp_hash_loop_exact : List Int → List Int → Int → Int
  | x :: xs, y :: ys, min => cmp_hash_loop_exact xs ys (min + |x - y|)
  | xs, [], min => cmp_hash_rest_exact xs min
  | [], ys, min => cmp_hash_rest_exact ys min

/-- The hash distance `cmp(const ExpressionHash &, const ExpressionHash &)` when no
operation leaves the integers. -/
def cmp_hash_exact (a b : ExpressionHash) : Int := cmp_hash_loop_exact a b 0

/-- Operands made of `Integer` constants, variables and non-degenerate groupings. -/
def plain_tree : Operand → Bool
  | Operand.integer _ => true
  | Operand.var _ => true
  | Operand.grouping (some _) opda opdb => plain_tree opda && plain_tree opdb
  | _ => false

/-- The tag of an operand: `type`, refined by `uo.type` for an unresolved operand. -/
def Operand.tag : Operand → Nat
  | Operand.blank => 0
  | Operand.integer _ => 1
  | Operand.real _ => 2
  | Operand.var _ => 3
  | Operand.grouping _ _ _ => 4

/-- Structural equality as the spec words it: the same tag and, recursively, the same
numeric value bit for bit, the same variable name, or the same operation id with
structurally equal children. -/
def structural_equal_reference : Operand → Operand → Bool
  | Operand.integer i, Operand.integer j => decide (i = j)
  | Operand.real r, Operand.real s => decide (r = s)
  | Operand.var a, Operand.var b => decide (a = b)
  | Operand.grouping (some oa) a1 b1, Operand.grouping (some ob) a2 b2 =>
    decide (oa.id = ob.id) && structural_equal_reference a1 a2
      && structural_equal_reference b1 b2
  | _, _ => false

/-- Trees whose internal nodes are non-degenerate groupings with the focus operation and
whose leaves are constants or variables. -/
def pure_chain (focus : Operation) : Operand → Bool
  | Operand.integer _ => true
  | Operand.real _ => true
  | Operand.var _ => true
  | Operand.grouping (some op) opda opdb =>
    op.id == focus.id && pure_chain focus opda && pure_chain focus opdb
  | _ => false

/-- The leaves of a tree, read from left to right. -/
def leaves : Operand → List Operand
  | Operand.grouping _ opda opdb => leaves opda ++ leaves opdb
  | opd => [opd]

/-- What `unfold` may emit: a constant, a variable, or a grouping whose operation is
neither the focus operation nor its registered inverse. -/
def unfold_item (focus : Operation) (ci : Option CommutativeInverse) : Operand → Bool
  | Operand.integer _ => true
  | Operand.real _ => true
  | Operand.var _ => true
  | Operand.grouping (some op) _ _ =>
    op.id != focus.id &&
      (match ci with
       | some inv => op.id != inv.id
       | none => true)
  | _ => false

/-- The stack invariant of `unfold`: an entry with the parity flag cleared holds a
transform, which the loop emits or drops in one step. -/
def stack_entry_ok (focus : Operation) (ci : Option CommutativeInverse) (si : stack_item) :
    Prop :=
  si.canon_inverse = true ∨ ∃ inv, ci = some inv ∧ inert focus inv.id si.opd = true

/-- One round of `fold` as the spec words it, on a list without constants: adjacent
pairs become groupings, an odd trailing element is carried over. -/
def pair_round (op : Operation) : List Operand → List Operand
  | a :: b :: rest => Operand.grouping (some op) a b :: pair_round op rest
  | rest => rest

/-- The rounds of `fold` as the spec words it, repeated until one element remains. -/
def fold_reference (op : Operation) : Nat → List Operand → Operand
  | _, [] => Operand.blank
  | _, [a] => a
  | 0, a :: _ :: _ => a
  | rounds + 1, a :: b :: rest => fold_reference op rounds (pair_round op (a :: b :: rest))

/-- A tree over `op` whose leaves, read from left to right, are the given terms. -/
inductive fold_tree (op : Operation) : Operand → List Operand → Prop
  | leaf (t : Operand) : fold_tree op t [t]
  | node (l r : Operand) (ls rs : List Operand) :
      fold_tree op l ls → fold_tree op r rs →
      fold_tree op (Operand.grouping (some op) l r) (ls ++ rs)

/-- A list of trees over `op` whose leaves, concatenated in order, are the given terms. -/
def fold_trees (op : Operation) (l terms : List Operand) : Prop :=
  ∃ segments : List (List Operand),
    List.Forall₂ (fold_tree op) l segments ∧ segments.flatten = terms

/-- Trees made of constants, variables among `names` and non-degenerate groupings over
operations of the registry. -/
def well_formed (names : List String) : Operand → Bool
  | Operand.integer _ => true
  | Operand.real _ => true
  | Operand.var v => decide (v ∈ names)
  | Operand.grouping (some op) opda opdb =>
    decide (op ∈ g_operations) && well_formed names opda && well_formed names opdb
  | _ => false

/-- The names of the variables that occur in a tree. -/
def variable_names : Operand → List String
  | Operand.var v => [v]
  | Operand.grouping _ opda opdb => variable_names opda ++ variable_names opdb
  | _ => []

/-- Whether a blank operand occurs in a tree. -/
def has_blank : Operand → Bool
  | Operand.blank => true
  | Operand.grouping _ opda opdb => has_blank opda || has_blank opdb
  | _ => false

/-- Trees made of constants, variables and non-degenerate groupings over operations of
the registry. -/
def registry_tree : Operand → Bool
  | Operand.integer _ => true
  | Operand.real _ => true
  | Operand.var _ => true
  | Operand.grouping (some op) opda opdb =>
    decide (op ∈ g_operations) && registry_tree opda && registry_tree opdb
  | _ => false

/-- A well-formed operand or the blank that the engine uses for "no value". -/
def blank_or_well_formed (names : List String) (opd : Operand) : Bool :=
  opd.is_blank || well_formed names opd

/-- Every operand stored in the cache is well formed. -/
def cache_well_formed (names : List String) (sctx : simplification_context) : Prop :=
  ∀ entry ∈ sctx.cache, ∀ opd ∈ entry.2, well_formed names opd = true

/-- The evaluator returns well-formed operands on well-formed operands. -/
def evaluator_closed (ev : Evaluator) : Prop :=
  ∀ (names : List String) (op : Operation) (a b r : Operand),
    well_formed names a = true → well_formed names b = true →
    ev op a b = Except.ok r → well_formed names r = true

/-- The recursive calls keep operands and cache well formed. -/
def simplifier_closed (names : List String) (S : Simplifier) : Prop :=
  ∀ (e : Operand) (sctx : simplification_context) (r : Operand × simplification_context),
    well_formed names e = true → cache_well_formed names sctx →
    S e sctx = Except.ok r → well_formed names r.1 = true ∧ cache_well_formed names r.2

/-- Whether the hash of a cached operand is at distance `0` from `hash_bg`. -/
def at_distance_zero (hash_bg : ExpressionHash) (opd : Operand) : Bool :=
  match hash opd with
  | Except.ok h => cmp_hash hash_bg h == 0
  | Except.error _ => false

/-- The operand that the lookup at the entry of `simplify` takes from a bucket: the first
one whose hash is at distance `0` from the hash of the grouping, otherwise the first one
of the bucket. -/
def lookup_reference (hash_bg : ExpressionHash) (results : List Operand) : Option Operand :=
  match results.find? (at_distance_zero hash_bg) with
  | some opd => some opd
  | none => results.head?

/-- The cache `after` keeps every bucket of `before` at its position, under its key,
with the stored results as a prefix of the results now stored. -/
def cache_grows (before after : simplification_context) : Prop :=
  ∀ (i : Nat) (entry : ExpressionHash × List Operand), before.cache.get? i = some entry →
    ∃ later, after.cache.get? i = some later ∧ later.1 = entry.1 ∧ entry.2 <+: later.2

/-- The recursive calls only let the cache grow. -/
def simplifier_grows (S : Simplifier) : Prop :=
  ∀ (e : Operand) (sctx : simplification_context) (r : Operand × simplification_context),
    S e sctx = Except.ok r → cache_grows sctx r.2

/-! ## Hash, distance and structural comparison -/

theorem cmp_hash_self (h : ExpressionHash) : cmp_hash h h = 0 := by
  unfold cmp_hash
  induction h with
  | nil => simp [cmp_hash_loop, cmp_hash_rest]
  | cons x xs ih =>
    have h0 : wrap64 (0 + abs64 (wrap64 (x - x))) = 0 := by
      rw [sub_self]; decide
    simp only [cmp_hash_loop, h0]
    exact ih

theorem hash_eq_hash_reference (e : Operand) (h : proper e = true) :
    hash e = Except.ok (hash_reference e) := by
  induction e with
  | blank => simp [proper] at h
  | integer i => rfl
  | real r => rfl
  | var v => rfl
  | grouping op a b iha ihb =>
    cases op with
    | none => simp [proper] at h
    | some o =>
      simp only [proper, Bool.and_eq_true] at h
      simp [hash, hash_reference, iha h.1, ihb h.2, bind, Except.bind]

theorem cmp_var_self (v : String) : cmp (Operand.var v) (Operand.var v) = Except.ok true := by
  simp [cmp]

theorem simplify_succ (ev : Evaluator) (n : Nat) (opd : Operand) (sctx : simplification_context) :
    simplify ev (n + 1) opd sctx = simplify_operand ev n (simplify ev n) opd sctx := rfl

theorem find_from_append_new (h : ExpressionHash) (results : List Operand) :
    ∀ (cache : List (ExpressionHash × List Operand)) (i : Nat), find_from h cache i = none →
      find_from h (cache ++ [(h, results)]) i = some (i + cache.length) := by
  intro cache
  induction cache with
  | nil => intro i _; simp [find_from]
  | cons e rest ih =>
    intro i hf
    simp only [find_from] at hf
    split at hf
    · simp at hf
    · rename_i hne
      have := ih (i + 1) hf
      rw [List.cons_append]
      simp only [find_from, hne, List.length_cons, this, Bool.false_eq_true, if_false,
        Option.some.injEq]
      omega

theorem cache_lookup_new (h : ExpressionHash) (result : Operand) (c : simplification_context)
    (hh : hash result = Except.ok h) (hf : c.find h = none) :
    cache_lookup h ⟨c.cache ++ [(h, [result])]⟩ = Except.ok (some result) := by
  have h1 := find_from_append_new h [result] c.cache 0 hf
  simp only [Nat.zero_add] at h1
  simp [cache_lookup, simplification_context.find, h1, cached_result, hh, cmp_hash_self,
    bind, Except.bind]

/-- The re-simplification of a result that has no bucket yet: the result is stored under
its hash, so the recursive call finds it at the entry lookup and returns it. -/
theorem resimplify_new (ev : Evaluator) (n : Nat) (ia ib fa fb h : ExpressionHash)
    (op : Operation) (a b : Operand) (c : simplification_context)
    (ha : hash a = Except.ok fa) (hb : hash b = Except.ok fb)
    (hh : hash (Operand.grouping (some op) a b) = Except.ok h)
    (hf : c.find h = none) :
    resimplify (simplify ev (n + 1)) ia ib (Operand.grouping (some op) a b) c
      = Except.ok (Operand.grouping (some op) a b,
          if wrap64 (cmp_hash fa ia + cmp_hash fb ib) != 0
          then ⟨c.cache ++ [(h, [Operand.grouping (some op) a b])]⟩ else c) := by
  have hl := cache_lookup_new h _ c hh hf
  simp only [resimplify, ha, hb, hh, hf, bind, Except.bind, simplify_succ, simplify_operand,
    simplify_grouping, hl]
  split <;> rfl

theorem gather_add_self (ev : Evaluator) (S : Simplifier) (n : Nat) (v : String)
    (c : simplification_context) :
    simplification_gather ev n S op_add [Operand.var v, Operand.var v] c
      = Except.ok ([Operand.grouping (some op_mul) (Operand.var v) (Operand.integer 2)], c) := by
  have h2 : wrap64 2 = 2 := by decide
  simp [simplification_gather, hash_lengths, hash, sort_by_hash_length, sort_insert, promote,
    gather_sweep, gather_scan, constant_factor_match, additive_constant_factor_match,
    Operand.is_binary_grouping, cmp_hash_self, Operand.is_blank, opftn, gather_emit,
    Operand.is_zero, Operand.is_one, op_add, op_mul, bind, Except.bind, h2]

theorem fold_add_self (ev : Evaluator) (S : Simplifier) (n : Nat) (v : String)
    (c : simplification_context) :
    simplification_fold ev (n + 4) S op_add
      (Operand.grouping (some op_add) (Operand.var v) (Operand.var v)) c
      = Except.ok (Operand.grouping (some op_mul) (Operand.var v) (Operand.integer 2), c) := by
  have hu : unfold (n + 4) op_add (Operand.grouping (some op_add) (Operand.var v) (Operand.var v))
      = Except.ok [Operand.var v, Operand.var v] := rfl
  have hc : op_add.commutative = true := rfl
  simp [simplification_fold, hu, hc, is_constant, gather_add_self, fold, fold_loop,
    Operand.is_blank, bind, Except.bind]

theorem branches_add_self (ev : Evaluator) (n : Nat) (v : String)
    (c : simplification_context) :
    simplify_branches ev (n + 4) (simplify ev (n + 4)) op_add op_add (Operand.var v) (Operand.var v) c
      = Except.ok (Sum.inr (op_mul, Operand.var v, Operand.integer 2, c)) := by
  have hc : op_add.commutative = true := rfl
  simp [simplify_branches, hc, fold_add_self, simplify_succ, simplify_operand, bind, Except.bind]

theorem simplify_add_self (ev : Evaluator) (n : Nat) (v : String) :
    simplify_top ev (n + 5) (Operand.grouping (some op_add) (Operand.var v) (Operand.var v))
      = Except.ok (Operand.grouping (some op_mul) (Operand.var v) (Operand.integer 2)) := by
  have hb : find_base op_add commutative_inverses = none := rfl
  have hag : ∀ c, simplification_aggressive (simplify ev (n + 4)) op_mul (Operand.var v) (Operand.integer 2) c
      = Except.ok (Operand.grouping (some op_mul) (Operand.var v) (Operand.integer 2), c) :=
    fun _ => rfl
  have hr : resimplify (simplify ev (n + 4)) (lexicon_tokens v) (lexicon_tokens v)
      (Operand.grouping (some op_mul) (Operand.var v) (Operand.integer 2))
      ((⟨[]⟩ : simplification_context).insert (op_add.id :: (lexicon_tokens v ++ lexicon_tokens v))
        (Operand.grouping (some op_mul) (Operand.var v) (Operand.integer 2))) = _ :=
    resimplify_new ev (n + 3) (lexicon_tokens v) (lexicon_tokens v) (lexicon_tokens v) [2]
      (2 :: (lexicon_tokens v ++ [2])) op_mul (Operand.var v) (Operand.integer 2) _
      rfl rfl rfl (by simp [simplification_context.insert, simplification_context.find, find_from, op_add])
  simp only [simplify_top, simplify_succ, simplify_operand, simplify_grouping]
  simp [hash, cache_lookup, simplification_context.find, find_from, hb, branches_add_self, hag, bind, Except.bind,
    Operand.is_constant, hr]

theorem gather_mul_self (ev : Evaluator) (n m : Nat) (v : String)
    (c : simplification_context) :
    simplification_gather ev n (simplify ev (m + 1)) op_mul [Operand.var v, Operand.var v] c
      = Except.ok ([Operand.grouping (some op_exp) (Operand.var v) (Operand.integer 2)], c) := by
  have h2 : wrap64 2 = 2 := by decide
  simp [simplification_gather, hash_lengths, hash, sort_by_hash_length, sort_insert, promote,
    gather_sweep, gather_scan, constant_factor_match, multiplicative_constant_factor_match,
    base_of, cmp_var_self, exponent_match, simplify_succ, simplify_operand,
    Operand.is_blank, opftn, gather_emit,
    Operand.is_zero, Operand.is_one, op_add, op_mul, op_exp, bind, Except.bind, h2]

theorem fold_mul_self (ev : Evaluator) (n m : Nat) (v : String)
    (c : simplification_context) :
    simplification_fold ev (n + 4) (simplify ev (m + 1)) op_mul
      (Operand.grouping (some op_mul) (Operand.var v) (Operand.var v)) c
      = Except.ok (Operand.grouping (some op_exp) (Operand.var v) (Operand.integer 2), c) := by
  have hu : unfold (n + 4) op_mul (Operand.grouping (some op_mul) (Operand.var v) (Operand.var v))
      = Except.ok [Operand.var v, Operand.var v] := rfl
  have hc : op_mul.commutative = true := rfl
  simp [simplification_fold, hu, hc, is_constant, gather_mul_self, fold, fold_loop,
    Operand.is_blank, bind, Except.bind]

theorem branches_mul_self (ev : Evaluator) (n : Nat) (v : String)
    (c : simplification_context) :
    simplify_branches ev (n + 4) (simplify ev (n + 4)) op_mul op_mul (Operand.var v) (Operand.var v) c
      = Except.ok (Sum.inr (op_exp, Operand.var v, Operand.integer 2, c)) := by
  have hc : op_mul.commutative = true := rfl
  simp [simplify_branches, hc, fold_mul_self, simplify_succ, simplify_operand, bind, Except.bind]

theorem simplify_mul_self (ev : Evaluator) (n : Nat) (v : String) :
    simplify_top ev (n + 5) (Operand.grouping (some op_mul) (Operand.var v) (Operand.var v))
      = Except.ok (Operand.grouping (some op_exp) (Operand.var v) (Operand.integer 2)) := by
  have hb : find_base op_mul commutative_inverses = none := rfl
  have hag : ∀ c, simplification_aggressive (simplify ev (n + 4)) op_exp (Operand.var v) (Operand.integer 2) c
      = Except.ok (Operand.grouping (some op_exp) (Operand.var v) (Operand.integer 2), c) :=
    fun _ => rfl
  have hr : resimplify (simplify ev (n + 4)) (lexicon_tokens v) (lexicon_tokens v)
      (Operand.grouping (some op_exp) (Operand.var v) (Operand.integer 2))
      ((⟨[]⟩ : simplification_context).insert (op_mul.id :: (lexicon_tokens v ++ lexicon_tokens v))
        (Operand.grouping (some op_exp) (Operand.var v) (Operand.integer 2))) = _ :=
    resimplify_new ev (n + 3) (lexicon_tokens v) (lexicon_tokens v) (lexicon_tokens v) [2]
      (4 :: (lexicon_tokens v ++ [2])) op_exp (Operand.var v) (Operand.integer 2) _
      rfl rfl rfl (by simp [simplification_context.insert, simplification_context.find, find_from, op_mul])
  simp only [simplify_top, simplify_succ, simplify_operand, simplify_grouping]
  simp [hash, cache_lookup, simplification_context.find, find_from, hb, branches_mul_self, hag, bind, Except.bind,
    Operand.is_constant, hr]

theorem gather_sub_self (ev : Evaluator) (S : Simplifier) (n : Nat) (v : String)
    (c : simplification_context) :
    simplification_gather ev (n + 4) S op_add
      [Operand.grouping (some op_mul) (Operand.integer (-1)) (Operand.var v), Operand.var v] c
      = Except.ok ([Operand.integer 0], c) := by
  have hu : unfold (n + 4) op_mul (Operand.grouping (some op_mul) (Operand.integer (-1)) (Operand.var v))
      = Except.ok [Operand.var v, Operand.integer (-1)] := rfl
  have hm : additive_constant_factor_match ev (n + 4) op_mul (Operand.var v)
      (Operand.grouping (some op_mul) (Operand.integer (-1)) (Operand.var v))
      = Except.ok (Operand.integer (-1)) := by
    simp [additive_constant_factor_match, hu, erase_first, cmp_var_self,
      Operand.is_binary_grouping, bind, Except.bind]
  have hl : hash_lengths
      [Operand.grouping (some op_mul) (Operand.integer (-1)) (Operand.var v), Operand.var v]
      = Except.ok [(Operand.grouping (some op_mul) (Operand.integer (-1)) (Operand.var v),
          (lexicon_tokens v).length + 2), (Operand.var v, (lexicon_tokens v).length)] := by
    simp [hash_lengths, hash, bind, Except.bind]
  have hs : sort_by_hash_length
      [(Operand.grouping (some op_mul) (Operand.integer (-1)) (Operand.var v),
          (lexicon_tokens v).length + 2), (Operand.var v, (lexicon_tokens v).length)]
      = [(Operand.var v, (lexicon_tokens v).length),
        (Operand.grouping (some op_mul) (Operand.integer (-1)) (Operand.var v),
          (lexicon_tokens v).length + 2)] := by
    simp [sort_by_hash_length, sort_insert]
  have hw : wrap64 0 = 0 := by decide
  have hi : identity op_add = Except.ok (Operand.integer 0) := rfl
  have hp : promote op_add = Except.ok op_mul := rfl
  have hid : op_mul.id = 2 := rfl
  simp [simplification_gather, hl, hs, hp, gather_sweep, gather_scan, constant_factor_match,
    hm, Operand.is_blank, opftn, gather_emit, Operand.is_zero, hi, hid, bind, Except.bind, hw]

theorem fold_sub_self (ev : Evaluator) (n m : Nat) (v : String)
    (c : simplification_context) :
    simplification_fold ev (n + 4) (simplify ev (m + 1)) op_add
      (Operand.grouping (some op_sub) (Operand.var v) (Operand.var v)) c
      = Except.ok (Operand.integer 0, c) := by
  have hu : unfold (n + 4) op_add (Operand.grouping (some op_sub) (Operand.var v) (Operand.var v))
      = Except.ok [Operand.grouping (some op_mul) (Operand.integer (-1)) (Operand.var v),
          Operand.var v] := rfl
  have hc : op_add.commutative = true := rfl
  simp [simplification_fold, hu, hc, is_constant, gather_sub_self, fold, fold_loop,
    Operand.is_blank, Operand.is_constant, simplify_succ, simplify_operand, fold_constants,
    bind, Except.bind]

theorem simplify_sub_self (ev : Evaluator) (n : Nat) (v : String) :
    simplify ev (n + 5) (Operand.grouping (some op_sub) (Operand.var v) (Operand.var v)) ⟨[]⟩
      = Except.ok (Operand.integer 0, ⟨[]⟩) := by
  have hb : find_base op_sub commutative_inverses = some op_add := rfl
  have hc : op_add.commutative = true := rfl
  simp only [simplify_succ, simplify_operand, simplify_grouping]
  simp [hash, cache_lookup, simplification_context.find, find_from, hb, hc, simplify_branches,
    fold_sub_self, simplify_succ, simplify_operand, bind, Except.bind]

theorem fold_mul_sub_self (ev : Evaluator) (n : Nat) (v : String) (k : Int) :
    simplification_fold ev (n + 5) (simplify ev (n + 5)) op_mul
      (Operand.grouping (some op_mul) (Operand.integer k)
        (Operand.grouping (some op_sub) (Operand.var v) (Operand.var v))) ⟨[]⟩
      = Except.ok (Operand.grouping (some op_mul) (Operand.integer k) (Operand.integer 0), ⟨[]⟩) := by
  have hu : unfold (n + 5) op_mul (Operand.grouping (some op_mul) (Operand.integer k)
        (Operand.grouping (some op_sub) (Operand.var v) (Operand.var v)))
      = Except.ok [Operand.grouping (some op_sub) (Operand.var v) (Operand.var v),
          Operand.integer k] := rfl
  have hc : op_mul.commutative = true := rfl
  have hs := simplify_sub_self ev n v
  simp [simplification_fold, hu, hc, is_constant, hs, fold_constants,
    Operand.is_blank, Operand.is_constant, simplify_succ, simplify_operand,
    bind, Except.bind]

theorem simplify_mul_sub_self (ev : Evaluator) (n : Nat) (v : String) (k : Int) :
    simplify_top ev (n + 6) (Operand.grouping (some op_mul) (Operand.integer k)
        (Operand.grouping (some op_sub) (Operand.var v) (Operand.var v)))
      = Except.ok (Operand.integer 0) := by
  have hb : find_base op_mul commutative_inverses = none := rfl
  have hc : op_mul.commutative = true := rfl
  have hw : wrap64 0 = 0 := by decide
  simp only [simplify_top, simplify_succ, simplify_operand, simplify_grouping]
  simp [hash, cache_lookup, simplification_context.find, find_from, hb, hc, simplify_branches,
    fold_mul_sub_self, simplify_succ, simplify_operand, opftn, Operand.is_constant, hw,
    bind, Except.bind]
  simp [op_mul, op_add, op_sub]

/-- C1 (code at the failing input): from an empty cache `simplify(x + x)` is `x * 2`, and
`simplify(x * 2)` is `2 * x`, which the structural comparison tells apart from `x * 2`:
simplifying the result of `simplify` once more changes it. -/
theorem simplify_twice_differs (ev : Evaluator) (n : Nat) :
    simplify_top ev (n + 6) (Operand.grouping (some op_add) (Operand.var "x") (Operand.var "x"))
      = Except.ok (Operand.grouping (some op_mul) (Operand.var "x") (Operand.integer 2)) ∧
    simplify_top ev (n + 6) (Operand.grouping (some op_mul) (Operand.var "x") (Operand.integer 2))
      = Except.ok (Operand.grouping (some op_mul) (Operand.integer 2) (Operand.var "x")) ∧
    cmp (Operand.grouping (some op_mul) (Operand.var "x") (Operand.integer 2))
      (Operand.grouping (some op_mul) (Operand.integer 2) (Operand.var "x")) = Except.ok false :=
  ⟨rfl, rfl, rfl⟩

/-- C3: additive and multiplicative identities.  For every variable `x` and every step
budget of at least `5`, `simplify` from an empty cache gives `x + 0 = x`, `0 + x = x`,
`x * 1 = x`, `1 * x = x`, `x * 0 = 0` and `0 * x = 0`. -/
theorem simplify_identities (ev : Evaluator) (v : String) (n : Nat) :
    simplify_top ev (n + 5) (Operand.grouping (some op_add) (Operand.var v) (Operand.integer 0))
      = Except.ok (Operand.var v) ∧
    simplify_top ev (n + 5) (Operand.grouping (some op_add) (Operand.integer 0) (Operand.var v))
      = Except.ok (Operand.var v) ∧
    simplify_top ev (n + 5) (Operand.grouping (some op_mul) (Operand.var v) (Operand.integer 1))
      = Except.ok (Operand.var v) ∧
    simplify_top ev (n + 5) (Operand.grouping (some op_mul) (Operand.integer 1) (Operand.var v))
      = Except.ok (Operand.var v) ∧
    simplify_top ev (n + 5) (Operand.grouping (some op_mul) (Operand.var v) (Operand.integer 0))
      = Except.ok (Operand.integer 0) ∧
    simplify_top ev (n + 5) (Operand.grouping (some op_mul) (Operand.integer 0) (Operand.var v))
      = Except.ok (Operand.integer 0) :=
  ⟨rfl, rfl, rfl, rfl, rfl, rfl⟩

theorem is_one_not_is_zero (z : Operand) (h : z.is_one = true) : z.is_zero = false := by
  cases z with
  | integer i =>
    simp only [Operand.is_one, beq_iff_eq] at h
    subst h; rfl
  | real r =>
    simp only [Operand.is_one, Real.isOne, Bool.and_eq_true, beq_iff_eq] at h
    simp [Operand.is_zero, Real.isZero, h.1.2]
  | _ => simp [Operand.is_one] at h

theorem aggressive_rules_exp_base (z o a : Operand) (ha : a.is_constant = false)
    (hz : z.is_zero = true) (ho : o.is_one = true) :
    aggressive_rules op_exp z a = Operand.integer 0 ∧
    aggressive_rules op_exp o a = Operand.integer 1 := by
  have h1 : a.is_zero = false := by cases a <;> simp_all [Operand.is_zero, Operand.is_constant]
  have h2 : a.is_one = false := by cases a <;> simp_all [Operand.is_one, Operand.is_constant]
  have h3 := is_one_not_is_zero o ho
  constructor
  · cases a <;> simp_all [aggressive_rules, op_exp, Operand.is_constant]
  · cases a <;> simp_all [aggressive_rules, op_exp, Operand.is_constant]

/-- C4: exponent identities.  For every variable `x` and every step budget of at least
`5`, `simplify` from an empty cache gives `x ^ 0 = 1` and `x ^ 1 = x`; and for every
operand `a` that is not a constant, every zero constant `z` and every unit constant `o`,
`simplification_aggressive` turns `z ^ a` into the `Integer` `0` and `o ^ a` into the
`Integer` `1`, leaving the cache as it was. -/
theorem simplify_exponent_identities (ev : Evaluator) (v : String) (n : Nat)
    (S : Simplifier) (sctx : simplification_context) (z o a : Operand)
    (ha : a.is_constant = false) (hz : z.is_zero = true) (ho : o.is_one = true) :
    simplify_top ev (n + 5) (Operand.grouping (some op_exp) (Operand.var v) (Operand.integer 0))
      = Except.ok (Operand.integer 1) ∧
    simplify_top ev (n + 5) (Operand.grouping (some op_exp) (Operand.var v) (Operand.integer 1))
      = Except.ok (Operand.var v) ∧
    simplification_aggressive S op_exp z a sctx = Except.ok (Operand.integer 0, sctx) ∧
    simplification_aggressive S op_exp o a sctx = Except.ok (Operand.integer 1, sctx) := by
  obtain ⟨r0, r1⟩ := aggressive_rules_exp_base z o a ha hz ho
  refine ⟨rfl, rfl, ?_, ?_⟩
  · simp [simplification_aggressive, r0]
  · simp [simplification_aggressive, r1]

/-- Witness of C4: the variable `x`, the bases `0` and `1` and the exponent `y + 1`. -/
theorem simplify_exponent_identities_witness :
    (Operand.grouping (some op_add) (Operand.var "y") (Operand.integer 1)).is_constant = false ∧
    (Operand.integer 0).is_zero = true ∧ (Operand.integer 1).is_one = true ∧
    simplify_top no_evaluator 5
      (Operand.grouping (some op_exp) (Operand.var "x") (Operand.integer 0))
      = Except.ok (Operand.integer 1) ∧
    simplify_top no_evaluator 5
      (Operand.grouping (some op_exp) (Operand.var "x") (Operand.integer 1))
      = Except.ok (Operand.var "x") ∧
    simplification_aggressive (simplify no_evaluator 0) op_exp (Operand.integer 0)
      (Operand.grouping (some op_add) (Operand.var "y") (Operand.integer 1)) ⟨[]⟩
      = Except.ok (Operand.integer 0, ⟨[]⟩) ∧
    simplification_aggressive (simplify no_evaluator 0) op_exp (Operand.integer 1)
      (Operand.grouping (some op_add) (Operand.var "y") (Operand.integer 1)) ⟨[]⟩
      = Except.ok (Operand.integer 1, ⟨[]⟩) :=
  ⟨rfl, rfl, rfl,
    simplify_exponent_identities no_evaluator "x" 0 (simplify no_evaluator 0) ⟨[]⟩
      (Operand.integer 0) (Operand.integer 1)
      (Operand.grouping (some op_add) (Operand.var "y") (Operand.integer 1)) rfl rfl rfl⟩

/-- C5: inverse cancellation.  Subtraction is registered as the inverse of addition,
with the transform `negate`; for every variable `x`, every `Integer` constant `c` and
every step budget of at least `6`, `simplify` from an empty cache gives `x - x = 0` and
`c * (x - x) = 0`. -/
theorem simplify_inverse_cancellation (ev : Evaluator) (v : String) (c : Int) (n : Nat) :
    find_base op_sub commutative_inverses = some op_add ∧
    (find_inverse op_add.id commutative_inverses).map (fun ci => ci.id) = some op_sub.id ∧
    (∀ opd, (find_inverse op_add.id commutative_inverses).map (fun ci => ci.transformation opd)
      = some (negate opd)) ∧
    simplify_top ev (n + 6) (Operand.grouping (some op_sub) (Operand.var v) (Operand.var v))
      = Except.ok (Operand.integer 0) ∧
    simplify_top ev (n + 6) (Operand.grouping (some op_mul) (Operand.integer c)
        (Operand.grouping (some op_sub) (Operand.var v) (Operand.var v)))
      = Except.ok (Operand.integer 0) := by
  refine ⟨rfl, rfl, fun _ => rfl, ?_, simplify_mul_sub_self ev n v c⟩
  simp [simplify_top, simplify_sub_self ev (n + 1) v]

/-- C6: term gathering.  For every variable `x` and every step budget of at least `5`,
`simplify(x + x)` from an empty cache is the grouping `x * 2` (operation mul, operands `x`
and the `Integer` `2`), and `simplify(x * x)` is the grouping `x ^ 2` (operation exp,
base `x`, exponent the `Integer` `2`). -/
theorem simplify_term_gathering (ev : Evaluator) (v : String) (n : Nat) :
    simplify_top ev (n + 5) (Operand.grouping (some op_add) (Operand.var v) (Operand.var v))
      = Except.ok (Operand.grouping (some op_mul) (Operand.var v) (Operand.integer 2)) ∧
    simplify_top ev (n + 5) (Operand.grouping (some op_mul) (Operand.var v) (Operand.var v))
      = Except.ok (Operand.grouping (some op_exp) (Operand.var v) (Operand.integer 2)) :=
  ⟨simplify_add_self ev n v, simplify_mul_self ev n v⟩

theorem wrap64_range (x : Int) : -(2 ^ 63) ≤ wrap64 x ∧ wrap64 x < 2 ^ 63 := by
  unfold wrap64; omega

theorem wrap64_of_range (x : Int) (h1 : -(2 ^ 63) ≤ x) (h2 : x < 2 ^ 63) : wrap64 x = x := by
  unfold wrap64; omega

theorem wrap64_modEq (x : Int) : wrap64 x ≡ x [ZMOD 2 ^ 64] := by
  unfold wrap64
  have h := (Int.mod_modEq (x + 2 ^ 63) (2 ^ 64)).sub_right (2 ^ 63)
  simpa using h

theorem wrap64_eq_of_modEq (x y : Int) (h : x ≡ y [ZMOD 2 ^ 64]) : wrap64 x = wrap64 y := by
  unfold wrap64
  have h2 : (x + 2 ^ 63) % 2 ^ 64 = (y + 2 ^ 63) % 2 ^ 64 := h.add_right (2 ^ 63)
  rw [h2]

theorem unfold_loop_nil (focus : Operation) (ci : Option CommutativeInverse) (fuel : Nat)
    (items : List Operand) : unfold_loop focus ci fuel [] items = Except.ok items := by
  cases fuel <;> rfl

theorem unfold_loop_inert (focus : Operation) (inv : CommutativeInverse) (fuel : Nat)
    (opd : Operand) (flag : Bool) (stack : List stack_item) (items : List Operand)
    (h : inert focus inv.id opd = true) :
    unfold_loop focus (some inv) (fuel + 1) (⟨opd, flag⟩ :: stack) items
      = unfold_loop focus (some inv) fuel stack (items ++ emitted opd) := by
  cases opd with
  | blank => simp [unfold_loop, emitted]
  | integer i => simp [unfold_loop, emitted]
  | real r => simp [unfold_loop, emitted]
  | var v => simp [unfold_loop, emitted]
  | grouping op a b =>
    cases op with
    | none => simp [inert] at h
    | some o =>
      simp only [inert, Bool.and_eq_true, bne_iff_ne, ne_eq] at h
      simp [unfold_loop, emitted, h.1, h.2]

theorem unfold_loop_inverse (focus : Operation) (inv : CommutativeInverse) (fuel : Nat)
    (o : Operation) (a b : Operand) (stack : List stack_item) (items : List Operand)
    (hf : ¬(o.id == focus.id) = true) (hi : (o.id == inv.id) = true) :
    unfold_loop focus (some inv) (fuel + 1) (⟨Operand.grouping (some o) a b, true⟩ :: stack) items
      = unfold_loop focus (some inv) fuel
          (⟨inv.transformation b, false⟩ :: ⟨a, true⟩ :: stack) items := by
  simp [unfold_loop, hf, hi]

theorem unfold_loop_flat (focus : Operation) (ci : Option CommutativeInverse)
    (hci : ∀ inv, ci = some inv → ∀ opd, inert focus inv.id (inv.transformation opd) = true)
    (e : Operand) :
    ∀ (fuel : Nat) (stack : List stack_item) (items : List Operand),
      unfold_loop focus ci (fuel + unfold_cost focus ci e) (⟨e, true⟩ :: stack) items
        = unfold_loop focus ci fuel stack (items ++ flat focus ci e) := by
  induction e with
  | blank => intro fuel stack items; simp [unfold_loop, flat, unfold_cost]
  | integer i => intro fuel stack items; simp [unfold_loop, flat, unfold_cost]
  | real r => intro fuel stack items; simp [unfold_loop, flat, unfold_cost]
  | var v => intro fuel stack items; simp [unfold_loop, flat, unfold_cost]
  | grouping op a b iha ihb =>
    intro fuel stack items
    cases op with
    | none =>
      have := iha fuel stack items
      simp only [unfold_cost, flat]
      rw [show fuel + (1 + unfold_cost focus ci a) = (fuel + unfold_cost focus ci a) + 1 by omega]
      simp only [unfold_loop]
      exact this
    | some o =>
      by_cases hf : (o.id == focus.id) = true
      · simp only [unfold_cost, flat, hf, if_true]
        rw [show fuel + (1 + unfold_cost focus ci b + unfold_cost focus ci a)
          = ((fuel + unfold_cost focus ci a) + unfold_cost focus ci b) + 1 by omega]
        simp only [unfold_loop, hf, if_true]
        rw [ihb, iha, List.append_assoc]
      · cases ci with
        | none =>
          simp [unfold_cost, flat, hf, unfold_loop]
        | some inv =>
          by_cases hi : (o.id == inv.id) = true
          · simp only [unfold_cost, flat, hf, hi, if_true, if_false, Bool.false_eq_true]
            rw [show fuel + (2 + unfold_cost focus (some inv) a)
              = ((fuel + unfold_cost focus (some inv) a) + 1) + 1 by omega]
            rw [unfold_loop_inverse focus inv _ o a b stack items hf hi,
              unfold_loop_inert focus inv _ _ _ _ _ (hci inv rfl b), iha, List.append_assoc]
          · simp [unfold_cost, flat, hf, hi, unfold_loop]

theorem unfold_eq_flat (focus : Operation) (e : Operand) (fuel : Nat)
    (hc : focus.commutative = true)
    (hci : ∀ inv, find_inverse focus.id commutative_inverses = some inv →
      ∀ opd, inert focus inv.id (inv.transformation opd) = true)
    (hfuel : unfold_cost focus (find_inverse focus.id commutative_inverses) e ≤ fuel) :
    unfold fuel focus e
      = Except.ok (flat focus (find_inverse focus.id commutative_inverses) e) := by
  obtain ⟨k, rfl⟩ := Nat.exists_eq_add_of_le hfuel
  rw [Nat.add_comm]
  simp only [unfold, hc, if_true]
  rw [unfold_loop_flat focus _ hci e k [] [], unfold_loop_nil]
  simp

theorem inert_negate (opd : Operand) : inert op_add op_sub.id (negate opd) = true := by
  cases opd <;> rfl

theorem inert_reciprocal (opd : Operand) : inert op_mul op_div.id (reciprocal opd) = true := rfl

theorem inert_add (inv : CommutativeInverse)
    (h : find_inverse op_add.id commutative_inverses = some inv) (opd : Operand) :
    inert op_add inv.id (inv.transformation opd) = true := by
  have : inv = ⟨op_sub.id, negate⟩ := by
    have h2 : find_inverse op_add.id commutative_inverses = some ⟨op_sub.id, negate⟩ := rfl
    rw [h2] at h
    exact (Option.some.inj h).symm
  subst this
  exact inert_negate opd

theorem inert_mul (inv : CommutativeInverse)
    (h : find_inverse op_mul.id commutative_inverses = some inv) (opd : Operand) :
    inert op_mul inv.id (inv.transformation opd) = true := by
  have : inv = ⟨op_div.id, reciprocal⟩ := by
    have h2 : find_inverse op_mul.id commutative_inverses = some ⟨op_div.id, reciprocal⟩ := rfl
    rw [h2] at h
    exact (Option.some.inj h).symm
  subst this
  exact inert_reciprocal opd

theorem integer_tree_grouping (op : Operation) (a b : Operand)
    (h : integer_tree (Operand.grouping (some op) a b) = true) :
    (op = op_add ∨ op = op_sub ∨ op = op_mul) ∧ integer_tree a = true ∧ integer_tree b = true := by
  simp only [integer_tree, Bool.and_eq_true, Bool.or_eq_true, beq_iff_eq] at h
  exact ⟨by tauto, h.1.2, h.2⟩

theorem integer_tree_of_parts (op : Operation) (a b : Operand)
    (ho : op = op_add ∨ op = op_sub ∨ op = op_mul)
    (ha : integer_tree a = true) (hb : integer_tree b = true) :
    integer_tree (Operand.grouping (some op) a b) = true := by
  simp only [integer_tree, Bool.and_eq_true, Bool.or_eq_true, beq_iff_eq]
  exact ⟨⟨by tauto, ha⟩, hb⟩

theorem weight_add (a b : Operand) :
    weight (Operand.grouping (some op_add) a b) = weight a + weight b + 1 := rfl

theorem weight_sub (a b : Operand) :
    weight (Operand.grouping (some op_sub) a b) = weight a + weight b + 3 := rfl

theorem weight_mul (a b : Operand) :
    weight (Operand.grouping (some op_mul) a b) = weight a + weight b + 1 := rfl

theorem weight_pos (e : Operand) : 1 ≤ weight e := by
  cases e with
  | grouping op a b =>
    cases op with
    | none => simp [weight]
    | some o => simp only [weight]; split <;> omega
  | _ => simp [weight]

theorem value_add (a b : Operand) :
    arithmetic_value (Operand.grouping (some op_add) a b)
      = arithmetic_value a + arithmetic_value b := rfl

theorem value_sub (a b : Operand) :
    arithmetic_value (Operand.grouping (some op_sub) a b)
      = arithmetic_value a - arithmetic_value b := rfl

theorem value_mul (a b : Operand) :
    arithmetic_value (Operand.grouping (some op_mul) a b)
      = arithmetic_value a * arithmetic_value b := rfl

theorem integer_tree_negate (b : Operand) (h : integer_tree b = true) :
    integer_tree (negate b) = true ∧ weight (negate b) ≤ weight b + 2 ∧
    arithmetic_value (negate b) ≡ -arithmetic_value b [ZMOD 2 ^ 64] ∧
    emitted (negate b) = [negate b] := by
  cases b with
  | integer i =>
    have hr := wrap64_range (-i)
    refine ⟨?_, by simp [negate, weight], ?_, rfl⟩
    · simp only [negate, integer_tree, Bool.and_eq_true, decide_eq_true_eq]
      exact hr
    · simpa [negate, arithmetic_value] using wrap64_modEq (-i)
  | grouping op a b =>
    cases op with
    | none => simp [integer_tree] at h
    | some o =>
      refine ⟨?_, ?_, ?_, rfl⟩
      · exact integer_tree_of_parts op_mul _ _ (Or.inr (Or.inr rfl)) (by decide) h
      · show weight (Operand.grouping (some op_mul) (Operand.integer (-1)) _) ≤ _
        rw [weight_mul]
        simp only [weight]
        omega
      · show arithmetic_value (Operand.grouping (some op_mul) (Operand.integer (-1)) _) ≡ _ [ZMOD _]
        rw [value_mul]
        show (-1 : Int) * arithmetic_value _ ≡ _ [ZMOD _]
        rw [neg_one_mul]
  | blank => simp [integer_tree] at h
  | real r => simp [integer_tree] at h
  | var v => simp [integer_tree] at h

theorem flat_add_add (a b : Operand) :
    flat op_add (some ⟨op_sub.id, negate⟩) (Operand.grouping (some op_add) a b)
      = flat op_add (some ⟨op_sub.id, negate⟩) b ++ flat op_add (some ⟨op_sub.id, negate⟩) a := rfl

theorem flat_add_sub (a b : Operand) :
    flat op_add (some ⟨op_sub.id, negate⟩) (Operand.grouping (some op_sub) a b)
      = emitted (negate b) ++ flat op_add (some ⟨op_sub.id, negate⟩) a := rfl

theorem flat_add_mul (a b : Operand) :
    flat op_add (some ⟨op_sub.id, negate⟩) (Operand.grouping (some op_mul) a b)
      = [Operand.grouping (some op_mul) a b] := rfl

theorem flat_mul_mul (a b : Operand) :
    flat op_mul (some ⟨op_div.id, reciprocal⟩) (Operand.grouping (some op_mul) a b)
      = flat op_mul (some ⟨op_div.id, reciprocal⟩) b
        ++ flat op_mul (some ⟨op_div.id, reciprocal⟩) a := rfl

theorem flat_mul_add (a b : Operand) :
    flat op_mul (some ⟨op_div.id, reciprocal⟩) (Operand.grouping (some op_add) a b)
      = [Operand.grouping (some op_add) a b] := rfl

theorem flat_mul_sub (a b : Operand) :
    flat op_mul (some ⟨op_div.id, reciprocal⟩) (Operand.grouping (some op_sub) a b)
      = [Operand.grouping (some op_sub) a b] := rfl

theorem cost_add_add (a b : Operand) :
    unfold_cost op_add (some ⟨op_sub.id, negate⟩) (Operand.grouping (some op_add) a b)
      = 1 + unfold_cost op_add (some ⟨op_sub.id, negate⟩) b
        + unfold_cost op_add (some ⟨op_sub.id, negate⟩) a := rfl

theorem cost_add_sub (a b : Operand) :
    unfold_cost op_add (some ⟨op_sub.id, negate⟩) (Operand.grouping (some op_sub) a b)
      = 2 + unfold_cost op_add (some ⟨op_sub.id, negate⟩) a := rfl

theorem cost_add_mul (a b : Operand) :
    unfold_cost op_add (some ⟨op_sub.id, negate⟩) (Operand.grouping (some op_mul) a b) = 1 := rfl

theorem cost_mul_mul (a b : Operand) :
    unfold_cost op_mul (some ⟨op_div.id, reciprocal⟩) (Operand.grouping (some op_mul) a b)
      = 1 + unfold_cost op_mul (some ⟨op_div.id, reciprocal⟩) b
        + unfold_cost op_mul (some ⟨op_div.id, reciprocal⟩) a := rfl

theorem cost_mul_add (a b : Operand) :
    unfold_cost op_mul (some ⟨op_div.id, reciprocal⟩) (Operand.grouping (some op_add) a b) = 1 :=
  rfl

theorem cost_mul_sub (a b : Operand) :
    unfold_cost op_mul (some ⟨op_div.id, reciprocal⟩) (Operand.grouping (some op_sub) a b) = 1 :=
  rfl

/-- On a tree of `Integer` constants the items of an unfold under add are again such
trees, none heavier than the tree, and their values add up to its value. -/
theorem flat_add_integer_tree (e : Operand) (h : integer_tree e = true) :
    (∀ c ∈ flat op_add (some ⟨op_sub.id, negate⟩) e, integer_tree c = true ∧ weight c ≤ weight e) ∧
    ((flat op_add (some ⟨op_sub.id, negate⟩) e).map arithmetic_value).sum
      ≡ arithmetic_value e [ZMOD 2 ^ 64] ∧
    flat op_add (some ⟨op_sub.id, negate⟩) e ≠ [] ∧
    unfold_cost op_add (some ⟨op_sub.id, negate⟩) e ≤ weight e := by
  induction e with
  | blank => simp [integer_tree] at h
  | real r => simp [integer_tree] at h
  | var v => simp [integer_tree] at h
  | integer i => simp [flat, h, weight, unfold_cost, Int.ModEq.refl]
  | grouping op a b iha ihb =>
    cases op with
    | none => simp [integer_tree] at h
    | some o =>
      obtain ⟨ho, ha, hb⟩ := integer_tree_grouping o a b h
      obtain ⟨a1, a2, a3, a4⟩ := iha ha
      obtain ⟨b1, b2, b3, b4⟩ := ihb hb
      rcases ho with rfl | rfl | rfl
      · rw [flat_add_add, cost_add_add, weight_add, value_add]
        simp only [List.mem_append, List.map_append, List.sum_append]
        refine ⟨?_, ?_, ?_, by omega⟩
        · rintro c (hc | hc)
          · exact ⟨(b1 c hc).1, by have := (b1 c hc).2; omega⟩
          · exact ⟨(a1 c hc).1, by have := (a1 c hc).2; omega⟩
        · rw [add_comm]; exact a2.add b2
        · simp [a3]
      · obtain ⟨n1, n2, n3, n4⟩ := integer_tree_negate b hb
        rw [flat_add_sub, cost_add_sub, weight_sub, value_sub, n4]
        simp only [List.mem_append, List.map_append, List.sum_append,
          List.mem_singleton, List.map_cons, List.map_nil, List.sum_cons, List.sum_nil, add_zero]
        refine ⟨?_, ?_, ?_, by omega⟩
        · rintro c (hc | hc)
          · subst hc; exact ⟨n1, by omega⟩
          · exact ⟨(a1 c hc).1, by have := (a1 c hc).2; omega⟩
        · have := n3.add a2
          rw [sub_eq_add_neg, add_comm (arithmetic_value a)]
          exact this
        · simp
      · rw [flat_add_mul, cost_add_mul]
        have := weight_pos (Operand.grouping (some op_mul) a b)
        simp [h, Int.ModEq.refl, this]

/-- The same under mul: the values of the items multiply to the value of the tree. -/
theorem flat_mul_integer_tree (e : Operand) (h : integer_tree e = true) :
    (∀ c ∈ flat op_mul (some ⟨op_div.id, reciprocal⟩) e,
      integer_tree c = true ∧ weight c ≤ weight e) ∧
    ((flat op_mul (some ⟨op_div.id, reciprocal⟩) e).map arithmetic_value).prod
      ≡ arithmetic_value e [ZMOD 2 ^ 64] ∧
    flat op_mul (some ⟨op_div.id, reciprocal⟩) e ≠ [] ∧
    unfold_cost op_mul (some ⟨op_div.id, reciprocal⟩) e ≤ weight e := by
  induction e with
  | blank => simp [integer_tree] at h
  | real r => simp [integer_tree] at h
  | var v => simp [integer_tree] at h
  | integer i => simp [flat, h, weight, unfold_cost, Int.ModEq.refl]
  | grouping op a b iha ihb =>
    cases op with
    | none => simp [integer_tree] at h
    | some o =>
      obtain ⟨ho, ha, hb⟩ := integer_tree_grouping o a b h
      obtain ⟨a1, a2, a3, a4⟩ := iha ha
      obtain ⟨b1, b2, b3, b4⟩ := ihb hb
      rcases ho with rfl | rfl | rfl
      · rw [flat_mul_add, cost_mul_add]
        have := weight_pos (Operand.grouping (some op_add) a b)
        simp [h, Int.ModEq.refl, this]
      · rw [flat_mul_sub, cost_mul_sub]
        have := weight_pos (Operand.grouping (some op_sub) a b)
        simp [h, Int.ModEq.refl, this]
      · rw [flat_mul_mul, cost_mul_mul, weight_mul, value_mul]
        simp only [List.mem_append, List.map_append, List.prod_append]
        refine ⟨?_, ?_, ?_, by omega⟩
        · rintro c (hc | hc)
          · exact ⟨(b1 c hc).1, by have := (b1 c hc).2; omega⟩
          · exact ⟨(a1 c hc).1, by have := (a1 c hc).2; omega⟩
        · rw [mul_comm]; exact a2.mul b2
        · simp [a3]

theorem is_constant_of_integer_tree (e : Operand) (h : integer_tree e = true) :
    is_constant e = true := by
  induction e with
  | blank => rfl
  | integer i => rfl
  | real r => rfl
  | var v => simp [integer_tree] at h
  | grouping op a b iha ihb =>
    cases op with
    | none => simp [integer_tree] at h
    | some o =>
      obtain ⟨_, ha, hb⟩ := integer_tree_grouping o a b h
      simp [is_constant, iha ha, ihb hb]

theorem proper_of_integer_tree (e : Operand) (h : integer_tree e = true) : proper e = true := by
  induction e with
  | blank => simp [integer_tree] at h
  | integer i => rfl
  | real r => rfl
  | var v => rfl
  | grouping op a b iha ihb =>
    cases op with
    | none => simp [integer_tree] at h
    | some o =>
      obtain ⟨_, ha, hb⟩ := integer_tree_grouping o a b h
      simp [proper, iha ha, ihb hb]

theorem wrap64_wrap64 (x : Int) : wrap64 (wrap64 x) = wrap64 x :=
  wrap64_of_range _ (wrap64_range x).1 (wrap64_range x).2

theorem opftn_integers (ev : Evaluator) (focus : Operation)
    (hf : focus = op_add ∨ focus = op_mul) (x y : Int) :
    opftn ev focus (Operand.integer x) (Operand.integer y)
      = Except.ok (Operand.integer (wrap64 (combine focus [x, y]))) := by
  rcases hf with rfl | rfl
  · simp [opftn, combine]
  · have h1 : (op_mul.id == op_add.id) = false := rfl
    have h2 : (op_mul.id == op_sub.id) = false := rfl
    simp [opftn, combine, h1, h2]

theorem combine_cons_cons (focus : Operation) (x y : Int) (rest : List Int) (z : Int)
    (hz : z ≡ combine focus [x, y] [ZMOD 2 ^ 64]) :
    combine focus (z :: rest) ≡ combine focus (x :: y :: rest) [ZMOD 2 ^ 64] := by
  unfold combine at *
  split
  · rename_i h
    simp only [h, if_true, List.sum_cons, List.sum_nil, add_zero] at hz ⊢
    rw [← add_assoc]
    exact hz.add_right _
  · rename_i h
    simp only [h, if_false, List.prod_cons, List.prod_nil, mul_one] at hz ⊢
    rw [← mul_assoc]
    exact hz.mul_right _

theorem combine_congr_head (focus : Operation) (x y : Int) (rest : List Int)
    (h : x ≡ y [ZMOD 2 ^ 64]) :
    combine focus (x :: rest) ≡ combine focus (y :: rest) [ZMOD 2 ^ 64] := by
  unfold combine
  split
  · simp only [List.sum_cons]; exact h.add_right _
  · simp only [List.prod_cons]; exact h.mul_right _

/-- The loop over the constants when every one of them simplifies to the `Integer` of
its value: the total is congruent to the combination of the values. -/
theorem fold_constants_integers (ev : Evaluator) (S : Simplifier) (focus : Operation)
    (hf : focus = op_add ∨ focus = op_mul) (sctx : simplification_context) :
    ∀ (constants : List Operand) (acc : Int),
      (∀ c ∈ constants,
        S c sctx = Except.ok (Operand.integer (wrap64 (arithmetic_value c)), sctx)) →
      acc = wrap64 acc →
      ∃ total : Int,
        fold_constants ev S focus constants (Operand.integer acc) sctx
          = Except.ok (Operand.integer total, sctx) ∧
        total ≡ combine focus (acc :: constants.map arithmetic_value) [ZMOD 2 ^ 64] ∧
        total = wrap64 total := by
  intro constants
  induction constants with
  | nil =>
    intro acc _ hacc
    refine ⟨acc, rfl, ?_, hacc⟩
    unfold combine
    split <;> simp [Int.ModEq.refl]
  | cons c rest ih =>
    intro acc hS hacc
    have hc := hS c (List.mem_cons_self _ _)
    obtain ⟨total, h1, h2, h3⟩ := ih (wrap64 (combine focus [acc, wrap64 (arithmetic_value c)]))
      (fun d hd => hS d (List.mem_cons_of_mem _ hd)) (wrap64_wrap64 _).symm
    refine ⟨total, ?_, ?_, h3⟩
    · simp [fold_constants, hc, Operand.is_constant, opftn_integers ev focus hf, h1,
        bind, Except.bind]
    · refine h2.trans ?_
      rw [List.map_cons]
      refine (combine_cons_cons focus acc (wrap64 (arithmetic_value c)) _ _
        (wrap64_modEq _)).trans ?_
      -- replace the wrapped value of `c` by its value
      unfold combine
      split
      · simp only [List.sum_cons]
        exact ((wrap64_modEq _).add_right _).add_left _
      · simp only [List.prod_cons]
        exact ((wrap64_modEq _).mul_right _).mul_left _

/-- The function `simplification_fold` on a grouping whose unfolded items are all trees of
`Integer` constants that simplify to their values: the outcome is the `Integer` of the
combined value, and the cache is not touched. -/
theorem simplification_fold_integers (ev : Evaluator) (fuel : Nat) (S : Simplifier)
    (focus : Operation) (hf : focus = op_add ∨ focus = op_mul) (bg : Operand)
    (sctx : simplification_context) (items : List Operand) (value : Int)
    (hu : unfold fuel focus bg = Except.ok items) (hne : items ≠ [])
    (hS : ∀ c ∈ items, integer_tree c = true ∧
      S c sctx = Except.ok (Operand.integer (wrap64 (arithmetic_value c)), sctx))
    (hv : combine focus (items.map arithmetic_value) ≡ value [ZMOD 2 ^ 64]) :
    simplification_fold ev fuel S focus bg sctx
      = Except.ok (Operand.integer (wrap64 value), sctx) := by
  have hc : focus.commutative = true := by rcases hf with rfl | rfl <;> rfl
  have h1 : items.filter is_constant = items :=
    List.filter_eq_self.mpr (fun c hc => is_constant_of_integer_tree c (hS c hc).1)
  have h2 : items.filter (fun opd => !is_constant opd) = [] :=
    List.filter_eq_nil_iff.mpr (fun c hc => by
      simp [is_constant_of_integer_tree c (hS c hc).1])
  cases items with
  | nil => exact absurd rfl hne
  | cons c0 rest =>
    have h0 := (hS c0 (List.mem_cons_self _ _)).2
    obtain ⟨total, t1, t2, t3⟩ := fold_constants_integers ev S focus hf sctx rest
      (wrap64 (arithmetic_value c0)) (fun d hd => (hS d (List.mem_cons_of_mem _ hd)).2)
      (wrap64_wrap64 _).symm
    have ht : total = wrap64 value := by
      rw [t3]
      apply wrap64_eq_of_modEq
      refine t2.trans (Int.ModEq.trans ?_ hv)
      rw [List.map_cons]
      exact combine_congr_head focus _ _ _ (wrap64_modEq _)
    subst ht
    simp [simplification_fold, hc, hu, h1, h2, h0, t1, Operand.is_constant, Operand.is_blank,
      bind, Except.bind]

/-- The unfold that `simplify` performs on a grouping of a tree of `Integer` constants:
the focus is add or mul, the items are lighter trees of `Integer` constants, and their
values combine to the value of the grouping. -/
theorem flat_focus_integer_tree (o : Operation) (a b : Operand)
    (he : integer_tree (Operand.grouping (some o) a b) = true) :
    ∃ focus : Operation, (focus = op_add ∨ focus = op_mul) ∧
      (find_base o commutative_inverses).getD o = focus ∧
      flat focus (find_inverse focus.id commutative_inverses) (Operand.grouping (some o) a b) ≠ [] ∧
      (∀ c ∈ flat focus (find_inverse focus.id commutative_inverses)
          (Operand.grouping (some o) a b),
        integer_tree c = true ∧ weight c < weight (Operand.grouping (some o) a b)) ∧
      combine focus ((flat focus (find_inverse focus.id commutative_inverses)
          (Operand.grouping (some o) a b)).map arithmetic_value)
        ≡ arithmetic_value (Operand.grouping (some o) a b) [ZMOD 2 ^ 64] ∧
      unfold_cost focus (find_inverse focus.id commutative_inverses)
        (Operand.grouping (some o) a b) ≤ weight (Operand.grouping (some o) a b) ∧
      (∀ inv, find_inverse focus.id commutative_inverses = some inv →
        ∀ opd, inert focus inv.id (inv.transformation opd) = true) := by
  obtain ⟨ho, ha, hb⟩ := integer_tree_grouping o a b he
  have hia : find_inverse op_add.id commutative_inverses = some ⟨op_sub.id, negate⟩ := rfl
  have him : find_inverse op_mul.id commutative_inverses = some ⟨op_div.id, reciprocal⟩ := rfl
  rcases ho with rfl | rfl | rfl
  · obtain ⟨e1, e2, e3, e4⟩ := flat_add_integer_tree _ he
    obtain ⟨a1, -, -, -⟩ := flat_add_integer_tree _ ha
    obtain ⟨b1, -, -, -⟩ := flat_add_integer_tree _ hb
    refine ⟨op_add, Or.inl rfl, rfl, by rw [hia]; exact e3, ?_, ?_, by rw [hia]; exact e4,
      inert_add⟩
    · rw [hia, flat_add_add, weight_add]
      intro c hc
      rcases List.mem_append.mp hc with hc | hc
      · exact ⟨(b1 c hc).1, by have := (b1 c hc).2; omega⟩
      · exact ⟨(a1 c hc).1, by have := (a1 c hc).2; omega⟩
    · rw [hia]; simpa [combine] using e2
  · obtain ⟨e1, e2, e3, e4⟩ := flat_add_integer_tree _ he
    obtain ⟨a1, -, -, -⟩ := flat_add_integer_tree _ ha
    obtain ⟨n1, n2, -, n4⟩ := integer_tree_negate b hb
    refine ⟨op_add, Or.inl rfl, rfl, by rw [hia]; exact e3, ?_, ?_, by rw [hia]; exact e4,
      inert_add⟩
    · rw [hia, flat_add_sub, weight_sub, n4]
      intro c hc
      rcases List.mem_append.mp hc with hc | hc
      · rw [List.mem_singleton] at hc
        subst hc; exact ⟨n1, by omega⟩
      · exact ⟨(a1 c hc).1, by have := (a1 c hc).2; omega⟩
    · rw [hia]; simpa [combine] using e2
  · obtain ⟨e1, e2, e3, e4⟩ := flat_mul_integer_tree _ he
    obtain ⟨a1, -, -, -⟩ := flat_mul_integer_tree _ ha
    obtain ⟨b1, -, -, -⟩ := flat_mul_integer_tree _ hb
    refine ⟨op_mul, Or.inr rfl, rfl, by rw [him]; exact e3, ?_, ?_, by rw [him]; exact e4,
      inert_mul⟩
    · rw [him, flat_mul_mul, weight_mul]
      intro c hc
      rcases List.mem_append.mp hc with hc | hc
      · exact ⟨(b1 c hc).1, by have := (b1 c hc).2; omega⟩
      · exact ⟨(a1 c hc).1, by have := (a1 c hc).2; omega⟩
    · have h1 : (op_mul.id == op_add.id) = false := rfl
      rw [him]; simpa [combine, h1] using e2

theorem cache_lookup_empty (h : ExpressionHash) :
    cache_lookup h ⟨[]⟩ = Except.ok none := rfl

/-- Constant folding, with the step budget made explicit: a tree of `Integer` constants
over add, sub and mul simplifies, from an empty cache and with any budget above its
weight, to the `Integer` of its value reduced to the `long long` range; the cache stays
empty. -/
theorem simplify_integer_tree (ev : Evaluator) :
    ∀ (k : Nat) (e : Operand), weight e ≤ k → integer_tree e = true →
      ∀ n, weight e + 1 ≤ n →
        simplify ev n e ⟨[]⟩ = Except.ok (Operand.integer (wrap64 (arithmetic_value e)), ⟨[]⟩) := by
  intro k
  induction k with
  | zero =>
    intro e hw
    have := weight_pos e
    omega
  | succ k ih =>
    intro e hw he n hn
    cases e with
    | blank => simp [integer_tree] at he
    | real r => simp [integer_tree] at he
    | var v => simp [integer_tree] at he
    | integer i =>
      obtain ⟨m, rfl⟩ : ∃ m, n = m + 1 := ⟨n - 1, by simp only [weight] at hn; omega⟩
      simp only [integer_tree, Bool.and_eq_true, decide_eq_true_eq] at he
      rw [simplify_succ]
      simp [simplify_operand, arithmetic_value, wrap64_of_range i he.1 he.2]
    | grouping op a b =>
      cases op with
      | none => simp [integer_tree] at he
      | some o =>
        obtain ⟨ho, ha, hb⟩ := integer_tree_grouping o a b he
        obtain ⟨m, rfl⟩ : ∃ m, n = m + 1 := ⟨n - 1, by omega⟩
        have hm1 : ∃ m', m = m' + 1 := ⟨m - 1, by
          have := weight_pos (Operand.grouping (some o) a b); omega⟩
        have hpa := hash_eq_hash_reference a (proper_of_integer_tree a ha)
        have hpb := hash_eq_hash_reference b (proper_of_integer_tree b hb)
        have hpe := hash_eq_hash_reference _ (proper_of_integer_tree _ he)
        -- the items of the unfold under the focus of `o` simplify to their values
        have key : ∀ (focus : Operation) (items : List Operand),
            (focus = op_add ∨ focus = op_mul) →
            unfold m focus (Operand.grouping (some o) a b) = Except.ok items →
            items ≠ [] →
            (∀ c ∈ items, integer_tree c = true ∧
              weight c < weight (Operand.grouping (some o) a b)) →
            combine focus (items.map arithmetic_value)
              ≡ arithmetic_value (Operand.grouping (some o) a b) [ZMOD 2 ^ 64] →
            simplify_branches ev m (simplify ev m) focus o a b ⟨[]⟩
              = Except.ok (Sum.inl (Operand.integer
                  (wrap64 (arithmetic_value (Operand.grouping (some o) a b))), ⟨[]⟩)) := by
          intro focus items hf hu hne hit hv
          have hc : focus.commutative = true := by rcases hf with rfl | rfl <;> rfl
          have hfold := simplification_fold_integers ev m (simplify ev m) focus hf
            (Operand.grouping (some o) a b) ⟨[]⟩ items _ hu hne
            (fun c hc => ⟨(hit c hc).1, ih c (by have := (hit c hc).2; omega) (hit c hc).1 m
              (by have := (hit c hc).2; omega)⟩) hv
          obtain ⟨m', rfl⟩ := hm1
          simp [simplify_branches, hc, hfold, simplify_succ, simplify_operand,
            bind, Except.bind]
        obtain ⟨focus, hf, hfocus, f1, f2, f3, f4, f5⟩ := flat_focus_integer_tree o a b he
        have hc : focus.commutative = true := by rcases hf with rfl | rfl <;> rfl
        have hu := unfold_eq_flat focus (Operand.grouping (some o) a b) m hc f5 (by omega)
        have hbr := key focus _ hf hu f1 f2 f3
        rw [simplify_succ]
        simp only [simplify_operand, simplify_grouping, hpe, hpa, hpb, cache_lookup_empty,
          hfocus, hbr, bind, Except.bind]

/-- C2 (as amended): constant folding.  For every tree built only from `Integer`
constants of the `long long` range combined with add, sub and mul, `simplify` started
from an empty cache with a step budget above the weight of the tree returns a single
`Integer` constant: the arithmetic value of the tree reduced to the signed 64-bit range,
hence the arithmetic value itself whenever that value fits the range.  In particular
`simplify(2 + 3) = 5` and `simplify(2 * 3 + 4) = 10`. -/
theorem simplify_constant_folding (ev : Evaluator) (e : Operand) (n : Nat)
    (he : integer_tree e = true) (hn : weight e + 1 ≤ n) :
    simplify_top ev n e = Except.ok (Operand.integer (wrap64 (arithmetic_value e))) ∧
    (-(2 ^ 63) ≤ arithmetic_value e → arithmetic_value e < 2 ^ 63 →
      simplify_top ev n e = Except.ok (Operand.integer (arithmetic_value e))) ∧
    (∀ m : Nat, simplify_top ev (m + 5)
      (Operand.grouping (some op_add) (Operand.integer 2) (Operand.integer 3))
      = Except.ok (Operand.integer 5)) ∧
    (∀ m : Nat, simplify_top ev (m + 7)
      (Operand.grouping (some op_add)
        (Operand.grouping (some op_mul) (Operand.integer 2) (Operand.integer 3))
        (Operand.integer 4))
      = Except.ok (Operand.integer 10)) := by
  have h := simplify_integer_tree ev (weight e) e (Nat.le_refl _) he n hn
  have h1 : simplify_top ev n e
      = Except.ok (Operand.integer (wrap64 (arithmetic_value e))) := by
    simp [simplify_top, h]
  refine ⟨h1, fun h2 h3 => ?_, fun _ => rfl, fun _ => rfl⟩
  rw [h1, wrap64_of_range _ h2 h3]

/-- Witness of C2 (as amended): the tree `2 * 3 + 4`, of weight `5`, with a budget of `6`
steps. -/
theorem simplify_constant_folding_witness :
    integer_tree (Operand.grouping (some op_add)
      (Operand.grouping (some op_mul) (Operand.integer 2) (Operand.integer 3))
      (Operand.integer 4)) = true ∧
    weight (Operand.grouping (some op_add)
      (Operand.grouping (some op_mul) (Operand.integer 2) (Operand.integer 3))
      (Operand.integer 4)) + 1 ≤ 6 ∧
    simplify_top no_evaluator 6 (Operand.grouping (some op_add)
      (Operand.grouping (some op_mul) (Operand.integer 2) (Operand.integer 3))
      (Operand.integer 4)) = Except.ok (Operand.integer 10) :=
  ⟨by decide, by decide,
    (simplify_constant_folding no_evaluator _ 6 (by decide) (by decide)).1.trans (by decide)⟩

/-- Counterexample to C2 as stated: the tree `9223372036854775807 + 1` is built from two
`Integer` constants of the `long long` range, its arithmetic value is `2^63`, and
`simplify` returns the `Integer` constant `-2^63`. -/
theorem constant_folding_overflows_long_long :
    integer_tree (Operand.grouping (some op_add)
      (Operand.integer 9223372036854775807) (Operand.integer 1)) = true ∧
    arithmetic_value (Operand.grouping (some op_add)
      (Operand.integer 9223372036854775807) (Operand.integer 1)) = 2 ^ 63 ∧
    (∀ (ev : Evaluator) (n : Nat), simplify_top ev (n + 5) (Operand.grouping (some op_add)
      (Operand.integer 9223372036854775807) (Operand.integer 1))
      = Except.ok (Operand.integer (-(2 ^ 63)))) ∧
    (Except.ok (Operand.integer (-(2 ^ 63))) : Except Fault Operand)
      ≠ Except.ok (Operand.integer (arithmetic_value (Operand.grouping (some op_add)
        (Operand.integer 9223372036854775807) (Operand.integer 1)))) :=
  ⟨by decide, by decide, fun _ _ => rfl, by decide⟩

/-! ## The hash distance against its reference -/

theorem distance_reference_nil_left (h : ExpressionHash) :
    distance_reference [] h = (h.map (fun t => |t|)).sum := by
  cases h <;> simp [distance_reference]

theorem distance_reference_nil_right (h : ExpressionHash) :
    distance_reference h [] = (h.map (fun t => |t|)).sum := by
  cases h <;> simp [distance_reference]

theorem distance_reference_cons (x y : Int) (xs ys : ExpressionHash) :
    distance_reference (x :: xs) (y :: ys) = |x - y| + distance_reference xs ys := by
  simp only [distance_reference, List.zipWith_cons_cons, List.sum_cons, List.length_cons,
    Nat.add_le_add_iff_right, Nat.add_min_add_right]
  by_cases h : ys.length ≤ xs.length
  · simp only [h, if_true, List.drop_succ_cons]; ring
  · simp only [h, if_false, List.drop_succ_cons]; ring

theorem abs_sum_nonneg (h : List Int) : 0 ≤ (h.map (fun t => |t|)).sum := by
  induction h with
  | nil => simp
  | cons x xs ih => simp only [List.map_cons, List.sum_cons]; positivity

theorem distance_reference_nonneg (h1 : ExpressionHash) :
    ∀ h2 : ExpressionHash, 0 ≤ distance_reference h1 h2 := by
  induction h1 with
  | nil => intro h2; rw [distance_reference_nil_left]; exact abs_sum_nonneg h2
  | cons x xs ih =>
    intro h2
    cases h2 with
    | nil => rw [distance_reference_nil_right]; exact abs_sum_nonneg _
    | cons y ys =>
      rw [distance_reference_cons]
      have := ih ys
      positivity

theorem cmp_hash_rest_exact_eq (h : List Int) :
    ∀ min : Int, cmp_hash_rest_exact h min = min + (h.map (fun t => |t|)).sum := by
  induction h with
  | nil => intro min; simp [cmp_hash_rest_exact]
  | cons x xs ih =>
    intro min
    simp only [cmp_hash_rest_exact, ih, List.map_cons, List.sum_cons]
    ring

theorem cmp_hash_loop_exact_eq (h1 : ExpressionHash) :
    ∀ (h2 : ExpressionHash) (min : Int),
      cmp_hash_loop_exact h1 h2 min = min + distance_reference h1 h2 := by
  induction h1 with
  | nil =>
    intro h2 min
    cases h2 with
    | nil => simp [cmp_hash_loop_exact, cmp_hash_rest_exact, distance_reference]
    | cons y ys =>
      simp only [cmp_hash_loop_exact, cmp_hash_rest_exact_eq, distance_reference_nil_left]
  | cons x xs ih =>
    intro h2 min
    cases h2 with
    | nil =>
      simp only [cmp_hash_loop_exact, cmp_hash_rest_exact_eq, distance_reference_nil_right]
    | cons y ys =>
      simp only [cmp_hash_loop_exact, ih, distance_reference_cons]
      ring

theorem abs64_of_small (x : Int) (h : |x| < 2 ^ 63) : abs64 x = |x| := by
  have h0 : 0 ≤ |x| := abs_nonneg x
  unfold abs64
  split
  · rename_i hx
    rw [abs_of_neg hx] at h h0 ⊢
    exact wrap64_of_range _ (by omega) h
  · rename_i hx
    rw [abs_of_nonneg (not_lt.mp hx)] at h h0 ⊢
    exact wrap64_of_range _ (by omega) h

theorem cmp_hash_rest_eq (h : List Int) :
    ∀ min : Int, 0 ≤ min → min + (h.map (fun t => |t|)).sum < 2 ^ 63 →
      cmp_hash_rest h min = min + (h.map (fun t => |t|)).sum := by
  induction h with
  | nil => intro min _ _; simp [cmp_hash_rest]
  | cons x xs ih =>
    intro min h0 hlt
    simp only [List.map_cons, List.sum_cons] at hlt ⊢
    have hs := abs_sum_nonneg xs
    have hx : 0 ≤ |x| := abs_nonneg x
    have e1 : abs64 x = |x| := abs64_of_small x (by omega)
    have e2 : wrap64 (min + |x|) = min + |x| := wrap64_of_range _ (by omega) (by omega)
    simp only [cmp_hash_rest, e1, e2]
    rw [ih (min + |x|) (by omega) (by omega)]
    ring

/-- The machine distance equals the reference distance whenever the latter fits the
`int64_t` range: then no subtraction, absolute value or accumulation overflows. -/
theorem cmp_hash_loop_eq (h1 : ExpressionHash) :
    ∀ (h2 : ExpressionHash) (min : Int), 0 ≤ min → min + distance_reference h1 h2 < 2 ^ 63 →
      cmp_hash_loop h1 h2 min = min + distance_reference h1 h2 := by
  induction h1 with
  | nil =>
    intro h2 min h0 hlt
    rw [distance_reference_nil_left] at hlt ⊢
    cases h2 with
    | nil => simp [cmp_hash_loop, cmp_hash_rest]
    | cons y ys =>
      simp only [cmp_hash_loop]
      exact cmp_hash_rest_eq _ min h0 hlt
  | cons x xs ih =>
    intro h2 min h0 hlt
    cases h2 with
    | nil =>
      rw [distance_reference_nil_right] at hlt ⊢
      simp only [cmp_hash_loop]
      exact cmp_hash_rest_eq _ min h0 hlt
    | cons y ys =>
      rw [distance_reference_cons] at hlt ⊢
      have hr := distance_reference_nonneg xs ys
      have hd : 0 ≤ |x - y| := abs_nonneg _
      have hlt2 : |x - y| < 2 ^ 63 := by omega
      have e0 : wrap64 (x - y) = x - y := by
        have := abs_lt.mp hlt2
        exact wrap64_of_range _ (by omega) (by omega)
      have e1 : abs64 (x - y) = |x - y| := abs64_of_small _ hlt2
      have e2 : wrap64 (min + |x - y|) = min + |x - y| :=
        wrap64_of_range _ (by omega) (by omega)
      simp only [cmp_hash_loop, e0, e1, e2]
      rw [ih ys (min + |x - y|) (by omega) (by omega)]
      ring

theorem cmp_hash_eq_reference (h1 h2 : ExpressionHash) (h : distance_reference h1 h2 < 2 ^ 63) :
    cmp_hash h1 h2 = distance_reference h1 h2 := by
  have := cmp_hash_loop_eq h1 h2 0 (le_refl 0) (by simpa using h)
  simpa [cmp_hash] using this

/-- C11: the hash distance equals its reference definition.  Carried out in exact
integers, the loops of the distance give the sum of the absolute token-wise differences
over the shared prefix plus the sum of the absolute values of the tokens of the longer
sequence beyond it; the `int64_t` loops give the same number whenever it is below
`2 ^ 63`. -/
theorem distance_eq_reference (h1 h2 : ExpressionHash) :
    cmp_hash_exact h1 h2 = distance_reference h1 h2 ∧
    (distance_reference h1 h2 < 2 ^ 63 → cmp_hash h1 h2 = distance_reference h1 h2) := by
  refine ⟨?_, cmp_hash_eq_reference h1 h2⟩
  simp [cmp_hash_exact, cmp_hash_loop_exact_eq]

theorem cmp_hash_rest_range (h : List Int) :
    ∀ min : Int, -(2 ^ 63) ≤ min → min < 2 ^ 63 →
      -(2 ^ 63) ≤ cmp_hash_rest h min ∧ cmp_hash_rest h min < 2 ^ 63 := by
  induction h with
  | nil => intro min h1 h2; exact ⟨h1, h2⟩
  | cons x xs ih =>
    intro min _ _
    simp only [cmp_hash_rest]
    exact ih _ (wrap64_range _).1 (wrap64_range _).2

theorem cmp_hash_loop_range (h1 : ExpressionHash) :
    ∀ (h2 : ExpressionHash) (min : Int), -(2 ^ 63) ≤ min → min < 2 ^ 63 →
      -(2 ^ 63) ≤ cmp_hash_loop h1 h2 min ∧ cmp_hash_loop h1 h2 min < 2 ^ 63 := by
  induction h1 with
  | nil =>
    intro h2 min a b
    cases h2 with
    | nil => simpa [cmp_hash_loop, cmp_hash_rest] using And.intro a b
    | cons y ys => simp only [cmp_hash_loop]; exact cmp_hash_rest_range _ min a b
  | cons x xs ih =>
    intro h2 min a b
    cases h2 with
    | nil => simp only [cmp_hash_loop]; exact cmp_hash_rest_range _ min a b
    | cons y ys =>
      simp only [cmp_hash_loop]
      exact ih ys _ (wrap64_range _).1 (wrap64_range _).2

/-- C12, as amended: whenever the exact distance of two hashes is below `2 ^ 63`, the
distance computed in signed 64-bit arithmetic is non-negative (and lies in the `int64_t`
range). -/
theorem distance_nonneg_without_overflow (h1 h2 : ExpressionHash)
    (h : distance_reference h1 h2 < 2 ^ 63) :
    0 ≤ cmp_hash h1 h2 ∧ -(2 ^ 63) ≤ cmp_hash h1 h2 ∧ cmp_hash h1 h2 < 2 ^ 63 := by
  rw [cmp_hash_eq_reference h1 h2 h]
  have := distance_reference_nonneg h1 h2
  exact ⟨this, by omega, h⟩

theorem distance_nonneg_without_overflow_witness :
    distance_reference [0, 120, -5] [2, 121] < 2 ^ 63 ∧
    0 ≤ cmp_hash [0, 120, -5] [2, 121] ∧
    -(2 ^ 63) ≤ cmp_hash [0, 120, -5] [2, 121] ∧ cmp_hash [0, 120, -5] [2, 121] < 2 ^ 63 :=
  ⟨by decide, distance_nonneg_without_overflow [0, 120, -5] [2, 121] (by decide)⟩

/-- Two pairs of hashes of well-formed trees whose distance, computed in signed 64-bit
arithmetic, is negative: the accumulation wraps for `2 ^ 62 + 2 ^ 62` against `x`, and
the absolute value wraps for the constant `-(2 ^ 63)` against `0`. -/
theorem distance_negative_on_overflow :
    hash (Operand.grouping (some op_add) (Operand.integer (2 ^ 62)) (Operand.integer (2 ^ 62)))
      = Except.ok [0, 2 ^ 62, 2 ^ 62] ∧
    hash (Operand.var "x") = Except.ok [120] ∧
    cmp_hash [0, 2 ^ 62, 2 ^ 62] [120] = -(2 ^ 63) + 120 ∧
    cmp_hash [0, 2 ^ 62, 2 ^ 62] [120] < 0 ∧
    hash (Operand.integer (-(2 ^ 63))) = Except.ok [-(2 ^ 63)] ∧
    hash (Operand.integer 0) = Except.ok [0] ∧
    cmp_hash [-(2 ^ 63)] [0] = -(2 ^ 63) ∧
    cmp_hash [-(2 ^ 63)] [0] < 0 := by
  decide

/-! ## Exactness of the structural comparison -/

theorem cmp_eq_reference (a : Operand) : ∀ b : Operand, plain_tree a = true →
    plain_tree b = true → cmp a b = Except.ok (structural_equal_reference a b) := by
  induction a with
  | blank => intro b h; simp [plain_tree] at h
  | real r => intro b h; simp [plain_tree] at h
  | integer i =>
    intro b _ hb
    cases b with
    | integer j =>
      simp only [cmp, structural_equal_reference]
      congr 1
    | var w => simp [cmp, structural_equal_reference]
    | grouping op2 a2 b2 => cases op2 <;> simp [cmp, structural_equal_reference]
    | blank => simp [plain_tree] at hb
    | real r => simp [plain_tree] at hb
  | var v =>
    intro b _ hb
    cases b with
    | integer j => simp [cmp, structural_equal_reference]
    | var w =>
      simp only [cmp, structural_equal_reference]
      congr 1
    | grouping op2 a2 b2 => cases op2 <;> simp [cmp, structural_equal_reference]
    | blank => simp [plain_tree] at hb
    | real r => simp [plain_tree] at hb
  | grouping op a1 b1 iha ihb =>
    intro b ha hb
    cases op with
    | none => simp [plain_tree] at ha
    | some oa =>
      simp only [plain_tree, Bool.and_eq_true] at ha
      cases b with
      | blank => simp [plain_tree] at hb
      | real r => simp [plain_tree] at hb
      | integer i => simp [cmp, structural_equal_reference]
      | var v => simp [cmp, structural_equal_reference]
      | grouping op2 a2 b2 =>
        cases op2 with
        | none => simp [plain_tree] at hb
        | some ob =>
          simp only [plain_tree, Bool.and_eq_true] at hb
          simp only [cmp, structural_equal_reference, iha a2 ha.1 hb.1, ihb b2 ha.2 hb.2]
          by_cases hid : oa.id = ob.id
          · simp only [hid, beq_self_eq_true, if_true, decide_True, Bool.true_and]
            cases structural_equal_reference a1 a2 <;> simp
          · simp [hid]

theorem reference_refl (a : Operand) (h : plain_tree a = true) :
    structural_equal_reference a a = true := by
  induction a with
  | blank => simp [plain_tree] at h
  | real r => simp [plain_tree] at h
  | integer i => simp [structural_equal_reference]
  | var v => simp [structural_equal_reference]
  | grouping op a b iha ihb =>
    cases op with
    | none => simp [plain_tree] at h
    | some o =>
      simp only [plain_tree, Bool.and_eq_true] at h
      simp [structural_equal_reference, iha h.1, ihb h.2]

theorem reference_symm (a : Operand) : ∀ b : Operand,
    structural_equal_reference a b = structural_equal_reference b a := by
  induction a with
  | blank => intro b; cases b <;> simp [structural_equal_reference]
  | real r => intro b; cases b <;> simp [structural_equal_reference, eq_comm]
  | integer i => intro b; cases b <;> simp [structural_equal_reference, eq_comm]
  | var v => intro b; cases b <;> simp [structural_equal_reference, eq_comm]
  | grouping op a1 b1 iha ihb =>
    intro b
    cases b with
    | grouping op2 a2 b2 =>
      cases op <;> cases op2 <;> simp [structural_equal_reference, iha a2, ihb b2, eq_comm]
    | _ => cases op <;> simp [structural_equal_reference]

theorem reference_trans (a : Operand) : ∀ b c : Operand,
    structural_equal_reference a b = true → structural_equal_reference b c = true →
    structural_equal_reference a c = true := by
  induction a with
  | blank => intro b c h; cases b <;> simp [structural_equal_reference] at h
  | real r =>
    intro b c h1 h2
    cases b <;> simp [structural_equal_reference] at h1
    subst h1; exact h2
  | integer i =>
    intro b c h1 h2
    cases b <;> simp [structural_equal_reference] at h1
    subst h1; exact h2
  | var v =>
    intro b c h1 h2
    cases b <;> simp [structural_equal_reference] at h1
    subst h1; exact h2
  | grouping op a1 b1 iha ihb =>
    intro b c h1 h2
    cases b with
    | grouping op2 a2 b2 =>
      cases c with
      | grouping op3 a3 b3 =>
        cases op with
        | none => simp [structural_equal_reference] at h1
        | some oa =>
          cases op2 with
          | none => simp [structural_equal_reference] at h1
          | some ob =>
            cases op3 with
            | none => simp [structural_equal_reference] at h2
            | some oc =>
              simp only [structural_equal_reference, Bool.and_eq_true, decide_eq_true_eq]
                at h1 h2 ⊢
              exact ⟨⟨h1.1.1.trans h2.1.1, iha a2 a3 h1.1.2 h2.1.2⟩, ihb b2 b3 h1.2 h2.2⟩
      | _ => cases op2 <;> simp [structural_equal_reference] at h2
    | _ => cases op <;> simp [structural_equal_reference] at h1

theorem reference_tag (a b : Operand) (h : a.tag ≠ b.tag) :
    structural_equal_reference a b = false := by
  cases a <;> cases b <;> simp [Operand.tag] at h <;> simp [structural_equal_reference]

/-- C13: on operands made of `Integer` constants, variables and non-degenerate
groupings the structural comparison is exact: it returns the reference equality (same
tag and, recursively, same integer value, same variable name, or same operation id with
equal children); it is reflexive, symmetric and transitive, and operands of different
tags are never equal. -/
theorem structural_equal_exact (a b c : Operand) (ha : plain_tree a = true)
    (hb : plain_tree b = true) (hc : plain_tree c = true) :
    cmp a b = Except.ok (structural_equal_reference a b) ∧
    cmp a a = Except.ok true ∧
    cmp a b = cmp b a ∧
    (cmp a b = Except.ok true → cmp b c = Except.ok true → cmp a c = Except.ok true) ∧
    (a.tag ≠ b.tag → cmp a b = Except.ok false) := by
  refine ⟨cmp_eq_reference a b ha hb, ?_, ?_, ?_, ?_⟩
  · rw [cmp_eq_reference a a ha ha, reference_refl a ha]
  · rw [cmp_eq_reference a b ha hb, cmp_eq_reference b a hb ha, reference_symm]
  · rw [cmp_eq_reference a b ha hb, cmp_eq_reference b c hb hc, cmp_eq_reference a c ha hc]
    intro h1 h2
    rw [reference_trans a b c (by simpa using h1) (by simpa using h2)]
  · intro h
    rw [cmp_eq_reference a b ha hb, reference_tag a b h]

theorem structural_equal_exact_witness :
    plain_tree (Operand.grouping (some op_add) (Operand.var "x") (Operand.integer 1)) = true ∧
    plain_tree (Operand.var "x") = true ∧
    cmp (Operand.grouping (some op_add) (Operand.var "x") (Operand.integer 1))
        (Operand.var "x")
      = Except.ok false ∧
    cmp (Operand.grouping (some op_add) (Operand.var "x") (Operand.integer 1))
        (Operand.grouping (some op_add) (Operand.var "x") (Operand.integer 1))
      = Except.ok true :=
  have h := structural_equal_exact
    (Operand.grouping (some op_add) (Operand.var "x") (Operand.integer 1))
    (Operand.var "x")
    (Operand.grouping (some op_add) (Operand.var "x") (Operand.integer 1))
    (by decide) (by decide) (by decide)
  ⟨by decide, by decide, h.2.2.2.2 (by decide), h.2.1⟩

/-! ## The items of unfold -/

theorem find_inverse_registry (id : Int) :
    find_inverse id commutative_inverses
      = if (0 : Int) == id then some ⟨1, negate⟩
        else if (2 : Int) == id then some ⟨3, reciprocal⟩ else none := rfl

theorem inert_registry (focus : Operation) (inv : CommutativeInverse)
    (h : find_inverse focus.id commutative_inverses = some inv) (opd : Operand) :
    inert focus inv.id (inv.transformation opd) = true := by
  rw [find_inverse_registry] at h
  by_cases h0 : (0 : Int) = focus.id
  · have e0 : ((0 : Int) == focus.id) = true := by simpa using h0
    rw [e0, if_pos rfl] at h
    have : inv = ⟨1, negate⟩ := (Option.some.inj h).symm
    subst this
    cases opd with
    | grouping op a b =>
      show (op_mul.id != focus.id && op_mul.id != 1) = true
      rw [← h0]; rfl
    | blank =>
      show (op_mul.id != focus.id && op_mul.id != 1) = true
      rw [← h0]; rfl
    | var v =>
      show (op_mul.id != focus.id && op_mul.id != 1) = true
      rw [← h0]; rfl
    | integer i => rfl
    | real r => rfl
  · have e0 : ((0 : Int) == focus.id) = false := by simpa using h0
    rw [e0] at h
    by_cases h2 : (2 : Int) = focus.id
    · have e2 : ((2 : Int) == focus.id) = true := by simpa using h2
      rw [e2] at h
      have : inv = ⟨3, reciprocal⟩ := (Option.some.inj h).symm
      subst this
      show (op_exp.id != focus.id && op_exp.id != 3) = true
      rw [← h2]; rfl
    · have e2 : ((2 : Int) == focus.id) = false := by simpa using h2
      rw [e2] at h
      simp at h

/-- With a step budget that covers its iterations, `unfold` returns the items of the
recursive description `flat`, for every commutative focus and every tree. -/
theorem unfold_eq_flat_registry (focus : Operation) (e : Operand) (fuel : Nat)
    (hc : focus.commutative = true)
    (hfuel : unfold_cost focus (find_inverse focus.id commutative_inverses) e ≤ fuel) :
    unfold fuel focus e
      = Except.ok (flat focus (find_inverse focus.id commutative_inverses) e) :=
  unfold_eq_flat focus e fuel hc (inert_registry focus) hfuel

theorem pure_chain_flat (focus : Operation) (ci : Option CommutativeInverse) (e : Operand)
    (h : pure_chain focus e = true) :
    flat focus ci e = (leaves e).reverse ∧
    unfold_cost focus ci e = 2 * count_groupings e + 1 := by
  induction e with
  | blank => simp [pure_chain] at h
  | integer i => simp [flat, leaves, unfold_cost, count_groupings]
  | real r => simp [flat, leaves, unfold_cost, count_groupings]
  | var v => simp [flat, leaves, unfold_cost, count_groupings]
  | grouping op a b iha ihb =>
    cases op with
    | none => simp [pure_chain] at h
    | some o =>
      simp only [pure_chain, Bool.and_eq_true] at h
      obtain ⟨⟨ho, ha⟩, hb⟩ := h
      obtain ⟨a1, a2⟩ := iha ha
      obtain ⟨b1, b2⟩ := ihb hb
      simp only [flat, unfold_cost, ho, if_true, leaves, List.reverse_append, a1, b1, a2, b2,
        count_groupings, true_and]
      omega

/-- C18: for a commutative focus operation and a tree whose internal nodes are
non-degenerate groupings with the focus operation and whose leaves are constants or
variables, `unfold` returns, given one iteration per node of the tree, exactly the
leaves of the tree in right-to-left order; in particular `unfold(add, (a+b)+c)` is
`[c, b, a]`. -/
theorem unfold_pure_chain (focus : Operation) (e : Operand) (fuel : Nat)
    (hc : focus.commutative = true) (hp : pure_chain focus e = true)
    (hfuel : 2 * count_groupings e + 1 ≤ fuel) :
    unfold fuel focus e = Except.ok (leaves e).reverse ∧
    (∀ a b c : Operand, pure_chain op_add a = true → count_groupings a = 0 →
      pure_chain op_add b = true → count_groupings b = 0 →
      pure_chain op_add c = true → count_groupings c = 0 →
      ∀ n : Nat, unfold (n + 5) op_add
        (Operand.grouping (some op_add) (Operand.grouping (some op_add) a b) c)
        = Except.ok [c, b, a]) := by
  have key : ∀ (f : Operation) (t : Operand) (k : Nat), f.commutative = true →
      pure_chain f t = true → 2 * count_groupings t + 1 ≤ k →
      unfold k f t = Except.ok (leaves t).reverse := by
    intro f t k h1 h2 h3
    obtain ⟨p1, p2⟩ := pure_chain_flat f (find_inverse f.id commutative_inverses) t h2
    rw [unfold_eq_flat_registry f t k h1 (by omega), p1]
  refine ⟨key focus e fuel hc hp hfuel, ?_⟩
  intro a b c ha ga hb gb hcc gc n
  have hl : ∀ t : Operand, pure_chain op_add t = true → count_groupings t = 0 →
      leaves t = [t] := by
    intro t ht gt
    cases t with
    | grouping op x y => simp [count_groupings] at gt
    | _ => rfl
  have hp2 : pure_chain op_add
      (Operand.grouping (some op_add) (Operand.grouping (some op_add) a b) c) = true := by
    simp [pure_chain, ha, hb, hcc]
  rw [key op_add _ (n + 5) rfl hp2 (by simp [count_groupings, ga, gb, gc])]
  simp [leaves, hl a ha ga, hl b hb gb, hl c hcc gc]

theorem unfold_pure_chain_witness :
    op_mul.commutative = true ∧
    pure_chain op_mul
      (Operand.grouping (some op_mul) (Operand.var "a")
        (Operand.grouping (some op_mul) (Operand.integer 2) (Operand.var "c"))) = true ∧
    unfold 5 op_mul
      (Operand.grouping (some op_mul) (Operand.var "a")
        (Operand.grouping (some op_mul) (Operand.integer 2) (Operand.var "c")))
      = Except.ok [Operand.var "c", Operand.integer 2, Operand.var "a"] :=
  ⟨rfl, by decide,
    (unfold_pure_chain op_mul
      (Operand.grouping (some op_mul) (Operand.var "a")
        (Operand.grouping (some op_mul) (Operand.integer 2) (Operand.var "c")))
      5 rfl (by decide) (by decide)).1⟩

theorem unfold_item_of_inert (focus : Operation) (inv : CommutativeInverse) (opd : Operand)
    (h : inert focus inv.id opd = true) :
    ∀ c ∈ emitted opd, unfold_item focus (some inv) c = true := by
  intro c hc
  cases opd with
  | blank => simp [emitted] at hc
  | integer i => simp [emitted] at hc; subst hc; rfl
  | real r => simp [emitted] at hc; subst hc; rfl
  | var v => simp [emitted] at hc; subst hc; rfl
  | grouping op a b =>
    simp only [emitted, List.mem_singleton] at hc
    subst hc
    cases op with
    | none => simp [inert] at h
    | some o => simpa [inert, unfold_item] using h

theorem unfold_loop_items (focus : Operation) (ci : Option CommutativeInverse)
    (hci : ∀ inv, ci = some inv → ∀ opd, inert focus inv.id (inv.transformation opd) = true) :
    ∀ (fuel : Nat) (stack : List stack_item) (items result : List Operand),
      (∀ si ∈ stack, stack_entry_ok focus ci si) →
      (∀ c ∈ items, unfold_item focus ci c = true) →
      unfold_loop focus ci fuel stack items = Except.ok result →
      ∀ c ∈ result, unfold_item focus ci c = true := by
  intro fuel
  induction fuel with
  | zero =>
    intro stack items result _ hi h
    cases stack with
    | nil => simp only [unfold_loop, Except.ok.injEq] at h; subst h; exact hi
    | cons si rest => simp [unfold_loop] at h
  | succ fuel ih =>
    intro stack items result hs hi h
    cases stack with
    | nil => simp only [unfold_loop, Except.ok.injEq] at h; subst h; exact hi
    | cons si rest =>
      have hrest : ∀ s ∈ rest, stack_entry_ok focus ci s :=
        fun s hs' => hs s (List.mem_cons_of_mem _ hs')
      have hsi := hs si (List.mem_cons_self _ _)
      obtain ⟨opd, flag⟩ := si
      have happ : ∀ x : Operand, unfold_item focus ci x = true →
          ∀ c ∈ items ++ [x], unfold_item focus ci c = true := by
        intro x hx c hc
        rcases List.mem_append.mp hc with hc | hc
        · exact hi c hc
        · rw [List.mem_singleton] at hc; subst hc; exact hx
      cases opd with
      | blank => simp only [unfold_loop] at h; exact ih _ _ _ hrest hi h
      | integer i =>
        simp only [unfold_loop] at h
        exact ih _ _ _ hrest (happ (Operand.integer i) rfl) h
      | real r =>
        simp only [unfold_loop] at h
        exact ih _ _ _ hrest (happ (Operand.real r) rfl) h
      | var v =>
        simp only [unfold_loop] at h
        exact ih _ _ _ hrest (happ (Operand.var v) rfl) h
      | grouping op a b =>
        cases op with
        | none =>
          simp only [unfold_loop] at h
          have hflag : flag = true := by
            rcases hsi with hf | ⟨inv, _, hin⟩
            · exact hf
            · simp [inert] at hin
          refine ih _ _ _ ?_ hi h
          intro s hs'
          rcases List.mem_cons.mp hs' with rfl | hs'
          · exact Or.inl hflag
          · exact hrest s hs'
        | some o =>
          simp only [unfold_loop] at h
          split at h
          · rename_i hfo
            have hflag : flag = true := by
              rcases hsi with hf | ⟨inv, _, hin⟩
              · exact hf
              · simp only [inert, Bool.and_eq_true, bne_iff_ne, ne_eq] at hin
                exact absurd (by simpa using hfo) hin.1
            refine ih _ _ _ ?_ hi h
            intro s hs'
            rcases List.mem_cons.mp hs' with rfl | hs'
            · exact Or.inl hflag
            · rcases List.mem_cons.mp hs' with rfl | hs'
              · exact Or.inl hflag
              · exact hrest s hs'
          · rename_i hfo
            cases ci with
            | none =>
              simp only at h
              refine ih _ _ _ hrest (happ _ ?_) h
              simpa [unfold_item] using hfo
            | some inv =>
              simp only at h
              split at h
              · rename_i hio
                have hflag : flag = true := by
                  rcases hsi with hf | ⟨inv2, hinv, hin⟩
                  · exact hf
                  · have : inv2 = inv := (Option.some.inj hinv).symm
                    subst this
                    simp only [inert, Bool.and_eq_true, bne_iff_ne, ne_eq] at hin
                    exact absurd (by simpa using hio) hin.2
                subst hflag
                refine ih _ _ _ ?_ hi h
                intro s hs'
                rcases List.mem_cons.mp hs' with rfl | hs'
                · exact Or.inr ⟨inv, rfl, hci inv rfl _⟩
                · rcases List.mem_cons.mp hs' with rfl | hs'
                  · exact Or.inl rfl
                  · exact hrest s hs'
              · rename_i hio
                refine ih _ _ _ hrest (happ _ ?_) h
                simp only [unfold_item, Bool.and_eq_true, bne_iff_ne, ne_eq]
                exact ⟨by simpa using hfo, by simpa using hio⟩

/-- Every item `unfold` returns is a constant, a variable, or a grouping whose operation
is neither the focus nor its registered inverse. -/
theorem unfold_items (focus : Operation) (e : Operand) (fuel : Nat) (items : List Operand)
    (h : unfold fuel focus e = Except.ok items) :
    ∀ c ∈ items, unfold_item focus (find_inverse focus.id commutative_inverses) c = true := by
  unfold unfold at h
  split at h
  · refine unfold_loop_items focus _ (inert_registry focus) fuel _ [] items ?_ ?_ h
    · intro si hsi
      rw [List.mem_singleton] at hsi
      subst hsi
      exact Or.inl rfl
    · intro c hc; simp at hc
  · simp at h

/-- C19: subtraction is registered as the inverse of addition with the transform
`negate`; for leaves `a` and `b` (constants or variables) `unfold(add, a - b)` yields the
two terms `negate(b)` and `a`; for any commutative focus and any tree `unfold` returns
within the iterations counted by `unfold_cost`; and every item that `unfold` returns is
a constant, a variable, or a grouping whose operation is neither the focus operation nor
its registered inverse. -/
theorem unfold_one_inverse_level (a b : Operand) (n : Nat)
    (ha : (a.is_constant || a.is_variable) = true)
    (hb : (b.is_constant || b.is_variable) = true) :
    (find_inverse op_add.id commutative_inverses).map (fun ci => ci.id) = some op_sub.id ∧
    (find_inverse op_add.id commutative_inverses).map (fun ci => ci.transformation b)
      = some (negate b) ∧
    unfold (n + 3) op_add (Operand.grouping (some op_sub) a b) = Except.ok [negate b, a] ∧
    (∀ (focus : Operation) (e : Operand), focus.commutative = true →
      ∃ items, unfold (unfold_cost focus (find_inverse focus.id commutative_inverses) e)
        focus e = Except.ok items) ∧
    (∀ (focus : Operation) (e : Operand) (fuel : Nat) (items : List Operand),
      unfold fuel focus e = Except.ok items →
      ∀ c ∈ items, unfold_item focus (find_inverse focus.id commutative_inverses) c = true) := by
  refine ⟨rfl, rfl, ?_,
    fun focus e hc => ⟨_, unfold_eq_flat_registry focus e _ hc (le_refl _)⟩, unfold_items⟩
  have hcost : unfold_cost op_add (find_inverse op_add.id commutative_inverses)
      (Operand.grouping (some op_sub) a b) ≤ n + 3 := by
    show 2 + unfold_cost op_add (some ⟨op_sub.id, negate⟩) a ≤ n + 3
    cases a <;> simp [Operand.is_constant, Operand.is_variable] at ha <;>
      simp [unfold_cost]
  rw [unfold_eq_flat_registry op_add _ (n + 3) rfl hcost]
  show Except.ok (emitted (negate b) ++ flat op_add (some ⟨op_sub.id, negate⟩) a) = _
  cases a <;> simp [Operand.is_constant, Operand.is_variable] at ha <;>
    cases b <;> simp [Operand.is_constant, Operand.is_variable] at hb <;>
      simp [emitted, negate, flat]

theorem unfold_one_inverse_level_witness :
    unfold 3 op_add (Operand.grouping (some op_sub) (Operand.var "a") (Operand.var "b"))
      = Except.ok [Operand.grouping (some op_mul) (Operand.integer (-1)) (Operand.var "b"),
          Operand.var "a"] ∧
    unfold 3 op_add (Operand.grouping (some op_sub) (Operand.var "a") (Operand.integer 2))
      = Except.ok [Operand.integer (-2), Operand.var "a"] :=
  ⟨(unfold_one_inverse_level (Operand.var "a") (Operand.var "b") 0 rfl rfl).2.2.1,
    (unfold_one_inverse_level (Operand.var "a") (Operand.integer 2) 0 rfl rfl).2.2.1⟩

/-! ## The tree built by fold -/

theorem pair_round_length (op : Operation) :
    ∀ l : List Operand, (pair_round op l).length = (l.length + 1) / 2
  | [] => by simp [pair_round]
  | [_] => by simp [pair_round]
  | a :: b :: rest => by
    simp only [pair_round, List.length_cons, pair_round_length op rest]
    omega

theorem fold_round_no_constant (ev : Evaluator) (op : Operation) :
    ∀ l : List Operand, (∀ t ∈ l, t.is_constant = false) →
      fold_round ev op l = Except.ok (pair_round op l) ∧
      ∀ t ∈ pair_round op l, t.is_constant = false
  | [], _ => ⟨rfl, by simp [pair_round]⟩
  | [a], h => ⟨rfl, by simpa [pair_round] using h⟩
  | a :: b :: rest, h => by
    have ha := h a (by simp)
    have hrest : ∀ t ∈ rest, t.is_constant = false := fun t ht => h t (by simp [ht])
    obtain ⟨h1, h2⟩ := fold_round_no_constant ev op rest hrest
    refine ⟨by simp [fold_round, ha, h1, pair_round, bind, Except.bind], ?_⟩
    intro t ht
    simp only [pair_round, List.mem_cons] at ht
    rcases ht with rfl | ht
    · rfl
    · exact h2 t ht

theorem fold_loop_no_constant (ev : Evaluator) (op : Operation) :
    ∀ (fuel : Nat) (l : List Operand), l ≠ [] → l.length ≤ fuel + 1 →
      (∀ t ∈ l, t.is_constant = false) →
      fold_loop ev op fuel l = Except.ok (fold_reference op fuel l) := by
  intro fuel
  induction fuel with
  | zero =>
    intro l hne hlen _
    match l, hne, hlen with
    | [a], _, _ => rfl
    | a :: b :: rest, _, hlen => simp at hlen
  | succ fuel ih =>
    intro l hne hlen hc
    match l, hne, hlen, hc with
    | [a], _, _, _ => rfl
    | a :: b :: rest, _, hlen, hc =>
      obtain ⟨h1, h2⟩ := fold_round_no_constant ev op (a :: b :: rest) hc
      have hl := pair_round_length op (a :: b :: rest)
      have hne2 : pair_round op (a :: b :: rest) ≠ [] := by simp [pair_round]
      simp only [fold_loop, h1, fold_reference, bind, Except.bind]
      refine ih _ hne2 ?_ h2
      rw [hl]
      simp only [List.length_cons] at hlen ⊢
      omega

theorem fold_trees_initial (op : Operation) (terms : List Operand) :
    fold_trees op terms terms := by
  refine ⟨terms.map (fun t => [t]), ?_, ?_⟩
  · induction terms with
    | nil => exact List.Forall₂.nil
    | cons t ts ih => exact List.Forall₂.cons (fold_tree.leaf t) ih
  · induction terms with
    | nil => rfl
    | cons t ts ih => simp [ih]

theorem fold_trees_round (op : Operation) :
    ∀ (l terms : List Operand), fold_trees op l terms → fold_trees op (pair_round op l) terms
  | [], _, h => h
  | [_], _, h => h
  | a :: b :: rest, terms, h => by
    obtain ⟨segments, hf, hj⟩ := h
    match segments, hf, hj with
    | sa :: sb :: srest, List.Forall₂.cons ha (List.Forall₂.cons hb hrest), hj =>
      obtain ⟨segs2, hf3, hj3⟩ := fold_trees_round op rest srest.flatten ⟨srest, hrest, rfl⟩
      refine ⟨(sa ++ sb) :: segs2, ?_, ?_⟩
      · exact List.Forall₂.cons (fold_tree.node a b sa sb ha hb) hf3
      · rw [← hj]
        simp [hj3]

theorem fold_trees_single (op : Operation) (r : Operand) (terms : List Operand)
    (h : fold_trees op [r] terms) : fold_tree op r terms := by
  obtain ⟨segments, hf, hj⟩ := h
  cases hf with
  | cons hr hnil =>
    cases hnil
    simpa [← hj] using hr

theorem fold_reference_tree (op : Operation) :
    ∀ (rounds : Nat) (l terms : List Operand), l ≠ [] → l.length ≤ rounds + 1 →
      fold_trees op l terms → fold_tree op (fold_reference op rounds l) terms := by
  intro rounds
  induction rounds with
  | zero =>
    intro l terms hne hlen h
    match l, hne, hlen with
    | [a], _, _ => exact fold_trees_single op a terms h
    | a :: b :: rest, _, hlen => simp at hlen
  | succ rounds ih =>
    intro l terms hne hlen h
    match l, hne, hlen with
    | [a], _, _ => exact fold_trees_single op a terms h
    | a :: b :: rest, _, hlen =>
      have hl := pair_round_length op (a :: b :: rest)
      simp only [fold_reference]
      refine ih _ terms (by simp [pair_round]) ?_ (fold_trees_round op _ terms h)
      rw [hl]
      simp only [List.length_cons] at hlen ⊢
      omega

/-- C20, as amended: for a commutative operation and a non-empty list of operands none
of which is a constant, `fold` returns the tree built by rounds of adjacent pairing with
an odd trailing element carried over; all its internal nodes carry the operation and
its leaves read from left to right are exactly the terms in order; `[a, b, c]` gives
`(a op b) op c` and `[a, b, c, d]` gives `(a op b) op (c op d)`. -/
theorem fold_pairs_adjacent (ev : Evaluator) (op : Operation) (terms : List Operand)
    (hop : op.commutative = true) (hne : terms ≠ [])
    (hc : ∀ t ∈ terms, t.is_constant = false) :
    fold ev op terms = Except.ok (fold_reference op terms.length terms) ∧
    fold_tree op (fold_reference op terms.length terms) terms ∧
    (∀ a b c : Operand, a.is_constant = false → b.is_constant = false →
      c.is_constant = false →
      fold ev op [a, b, c]
        = Except.ok (Operand.grouping (some op) (Operand.grouping (some op) a b) c)) ∧
    (∀ a b c d : Operand, a.is_constant = false → b.is_constant = false →
      c.is_constant = false → d.is_constant = false →
      fold ev op [a, b, c, d]
        = Except.ok (Operand.grouping (some op) (Operand.grouping (some op) a b)
            (Operand.grouping (some op) c d))) := by
  have key : ∀ l : List Operand, l ≠ [] → (∀ t ∈ l, t.is_constant = false) →
      fold ev op l = Except.ok (fold_reference op l.length l) := by
    intro l h1 h2
    cases l with
    | nil => exact absurd rfl h1
    | cons t ts =>
      simp only [fold, hop, if_true]
      exact fold_loop_no_constant ev op _ _ h1 (by omega) h2
  refine ⟨key terms hne hc, ?_, ?_, ?_⟩
  · exact fold_reference_tree op _ terms terms hne (by omega) (fold_trees_initial op terms)
  · intro a b c ha hb hcc
    rw [key [a, b, c] (by simp) (by simp [ha, hb, hcc])]
    rfl
  · intro a b c d ha hb hcc hd
    rw [key [a, b, c, d] (by simp) (by simp [ha, hb, hcc, hd])]
    rfl

theorem fold_pairs_adjacent_witness :
    op_add.commutative = true ∧
    fold no_evaluator op_add
        [Operand.var "a", Operand.var "b", Operand.var "c", Operand.var "d", Operand.var "e"]
      = Except.ok
          (Operand.grouping (some op_add)
            (Operand.grouping (some op_add)
              (Operand.grouping (some op_add) (Operand.var "a") (Operand.var "b"))
              (Operand.grouping (some op_add) (Operand.var "c") (Operand.var "d")))
            (Operand.var "e")) :=
  ⟨rfl,
    (fold_pairs_adjacent no_evaluator op_add
      [Operand.var "a", Operand.var "b", Operand.var "c", Operand.var "d", Operand.var "e"]
      rfl (by simp) (by simp [Operand.is_constant])).1⟩

theorem fold_round_total (ev : Evaluator) (op : Operation)
    (hev : ∀ a b : Operand, a.is_constant = true → b.is_constant = true →
      ∃ r, opftn ev op a b = Except.ok r) :
    ∀ l : List Operand, ∃ next, fold_round ev op l = Except.ok next ∧
      next.length = (l.length + 1) / 2
  | [] => ⟨[], rfl, by simp⟩
  | [a] => ⟨[a], rfl, by simp⟩
  | a :: b :: rest => by
    obtain ⟨next, h1, h2⟩ := fold_round_total ev op hev rest
    by_cases hab : (a.is_constant && b.is_constant) = true
    · have hab2 := hab
      simp only [Bool.and_eq_true] at hab2
      obtain ⟨r, hr⟩ := hev a b hab2.1 hab2.2
      refine ⟨r :: next, by simp [fold_round, hab, hr, h1, bind, Except.bind], ?_⟩
      simp only [List.length_cons, h2]
      omega
    · refine ⟨Operand.grouping (some op) a b :: next,
        by simp [fold_round, hab, h1, bind, Except.bind], ?_⟩
      simp only [List.length_cons, h2]
      omega

theorem fold_loop_total (ev : Evaluator) (op : Operation)
    (hev : ∀ a b : Operand, a.is_constant = true → b.is_constant = true →
      ∃ r, opftn ev op a b = Except.ok r) :
    ∀ (fuel : Nat) (l : List Operand), l ≠ [] → l.length ≤ fuel + 1 →
      ∃ r, fold_loop ev op fuel l = Except.ok r := by
  intro fuel
  induction fuel with
  | zero =>
    intro l hne hlen
    match l, hne, hlen with
    | [a], _, _ => exact ⟨a, rfl⟩
    | a :: b :: rest, _, hlen => simp at hlen
  | succ fuel ih =>
    intro l hne hlen
    match l, hne, hlen with
    | [a], _, _ => exact ⟨a, rfl⟩
    | a :: b :: rest, _, hlen =>
      obtain ⟨next, h1, h2⟩ := fold_round_total ev op hev (a :: b :: rest)
      have hne2 : next ≠ [] := by
        intro h
        rw [h] at h2
        simp only [List.length_nil, List.length_cons] at h2
        omega
      obtain ⟨r, hr⟩ := ih next hne2 (by
        rw [h2]
        simp only [List.length_cons] at hlen ⊢
        omega)
      exact ⟨r, by simp only [fold_loop, h1, bind, Except.bind, hr]⟩

/-- On exponentiation `fold` builds no tree from three operands: the entry assertion
on commutativity fails. -/
theorem fold_asserts_on_exponentiation :
    op_exp.commutative = false ∧
    ∀ (ev : Evaluator) (a b c : Operand),
      fold ev op_exp [a, b, c] = Except.error Fault.assertion :=
  ⟨rfl, fun _ _ _ _ => rfl⟩

/-! ## Leaves and degenerate groupings -/

/-- C16: with any cache, `simplify` returns a blank, an `Integer`, a `Real` or a variable
unchanged and leaves the cache unchanged; on a degenerate grouping around `t` it
returns exactly what the recursive call `simplify(t)` returns. -/
theorem simplify_leaves_and_wrappers (ev : Evaluator) (n : Nat) (sctx : simplification_context) :
    simplify ev (n + 1) Operand.blank sctx = Except.ok (Operand.blank, sctx) ∧
    (∀ i : Int, simplify ev (n + 1) (Operand.integer i) sctx
      = Except.ok (Operand.integer i, sctx)) ∧
    (∀ r : Real, simplify ev (n + 1) (Operand.real r) sctx = Except.ok (Operand.real r, sctx)) ∧
    (∀ v : String, simplify ev (n + 1) (Operand.var v) sctx = Except.ok (Operand.var v, sctx)) ∧
    (∀ t b : Operand, simplify ev (n + 1) (Operand.grouping none t b) sctx
      = simplify ev n t sctx) :=
  ⟨rfl, fun _ => rfl, fun _ => rfl, fun _ => rfl, fun _ _ => rfl⟩

theorem bind_ok {α β : Type} (x : Except Fault α) (f : α → Except Fault β) (r : β)
    (h : (x >>= f) = Except.ok r) : ∃ a, x = Except.ok a ∧ f a = Except.ok r := by
  cases x with
  | error e => simp [bind, Except.bind] at h
  | ok a => exact ⟨a, rfl, h⟩

theorem well_formed_grouping (names : List String) (op : Operation) (a b : Operand)
    (hop : op ∈ g_operations) (ha : well_formed names a = true)
    (hb : well_formed names b = true) :
    well_formed names (Operand.grouping (some op) a b) = true := by
  simp [well_formed, hop, ha, hb]

theorem well_formed_parts (names : List String) (op : Option Operation) (a b : Operand)
    (h : well_formed names (Operand.grouping op a b) = true) :
    ∃ o, op = some o ∧ o ∈ g_operations ∧ well_formed names a = true ∧
      well_formed names b = true := by
  cases op with
  | none => simp [well_formed] at h
  | some o =>
    simp only [well_formed, Bool.and_eq_true, decide_eq_true_eq] at h
    exact ⟨o, rfl, h.1.1, h.1.2, h.2⟩

theorem well_formed_not_blank (names : List String) (opd : Operand)
    (h : well_formed names opd = true) : opd.is_blank = false := by
  cases opd <;> first | rfl | simp [well_formed] at h

theorem op_add_mem : op_add ∈ g_operations := by simp [g_operations]

theorem op_mul_mem : op_mul ∈ g_operations := by simp [g_operations]

theorem op_div_mem : op_div ∈ g_operations := by simp [g_operations]

theorem op_exp_mem : op_exp ∈ g_operations := by simp [g_operations]

theorem well_formed_negate (names : List String) (x : Operand)
    (h : well_formed names x = true) : well_formed names (negate x) = true := by
  cases x with
  | integer i => rfl
  | real r => rfl
  | blank => simp [well_formed] at h
  | var v => exact well_formed_grouping names op_mul _ _ op_mul_mem rfl h
  | grouping op a b => exact well_formed_grouping names op_mul _ _ op_mul_mem rfl h

theorem well_formed_reciprocal (names : List String) (x : Operand)
    (h : well_formed names x = true) : well_formed names (reciprocal x) = true :=
  well_formed_grouping names op_exp _ _ op_exp_mem h rfl

theorem well_formed_transformation (names : List String) (focus : Operation)
    (inv : CommutativeInverse)
    (h : find_inverse focus.id commutative_inverses = some inv) (x : Operand)
    (hx : well_formed names x = true) : well_formed names (inv.transformation x) = true := by
  rw [find_inverse_registry] at h
  by_cases h0 : ((0 : Int) == focus.id) = true
  · rw [if_pos h0] at h
    cases h
    exact well_formed_negate names x hx
  · rw [if_neg h0] at h
    by_cases h2 : ((2 : Int) == focus.id) = true
    · rw [if_pos h2] at h
      cases h
      exact well_formed_reciprocal names x hx
    · rw [if_neg h2] at h
      cases h

theorem well_formed_opftn (names : List String) (ev : Evaluator) (hev : evaluator_closed ev)
    (op : Operation) (a b r : Operand) (ha : well_formed names a = true)
    (hb : well_formed names b = true) (h : opftn ev op a b = Except.ok r) :
    well_formed names r = true := by
  unfold opftn at h
  split at h
  · split at h
    · cases h; rfl
    · split at h
      · cases h; rfl
      · split at h
        · cases h; rfl
        · exact hev names op _ _ r ha hb h
  · exact hev names op _ _ r ha hb h

theorem unfold_loop_well_formed (names : List String) (focus : Operation)
    (ci : Option CommutativeInverse)
    (hci : ∀ inv, ci = some inv → ∀ x, well_formed names x = true →
      well_formed names (inv.transformation x) = true) :
    ∀ (fuel : Nat) (stack : List stack_item) (items result : List Operand),
      (∀ si ∈ stack, well_formed names si.opd = true) →
      (∀ c ∈ items, well_formed names c = true) →
      unfold_loop focus ci fuel stack items = Except.ok result →
      ∀ c ∈ result, well_formed names c = true := by
  intro fuel
  induction fuel with
  | zero =>
    intro stack items result _ hi h
    cases stack with
    | nil => simp only [unfold_loop, Except.ok.injEq] at h; subst h; exact hi
    | cons si rest => simp [unfold_loop] at h
  | succ fuel ih =>
    intro stack items result hs hi h
    cases stack with
    | nil => simp only [unfold_loop, Except.ok.injEq] at h; subst h; exact hi
    | cons si rest =>
      have hrest : ∀ s ∈ rest, well_formed names s.opd = true :=
        fun s hs' => hs s (List.mem_cons_of_mem _ hs')
      have hsi := hs si (List.mem_cons_self _ _)
      obtain ⟨opd, flag⟩ := si
      have happ : ∀ x : Operand, well_formed names x = true →
          ∀ c ∈ items ++ [x], well_formed names c = true := by
        intro x hx c hc
        rcases List.mem_append.mp hc with hc | hc
        · exact hi c hc
        · rw [List.mem_singleton] at hc; subst hc; exact hx
      have hpush : ∀ x y : Operand, ∀ f g : Bool, well_formed names x = true →
          well_formed names y = true →
          ∀ s ∈ (⟨x, f⟩ : stack_item) :: ⟨y, g⟩ :: rest, well_formed names s.opd = true := by
        intro x y f g hx hy s hs'
        rcases List.mem_cons.mp hs' with rfl | hs'
        · exact hx
        · rcases List.mem_cons.mp hs' with rfl | hs'
          · exact hy
          · exact hrest s hs'
      cases opd with
      | blank => simp [well_formed] at hsi
      | integer i =>
        simp only [unfold_loop] at h
        exact ih _ _ _ hrest (happ (Operand.integer i) rfl) h
      | real r =>
        simp only [unfold_loop] at h
        exact ih _ _ _ hrest (happ (Operand.real r) rfl) h
      | var v =>
        simp only [unfold_loop] at h
        exact ih _ _ _ hrest (happ (Operand.var v) hsi) h
      | grouping op a b =>
        obtain ⟨o, rfl, ho, ha, hb⟩ := well_formed_parts names op a b hsi
        simp only [unfold_loop] at h
        split at h
        · exact ih _ _ _ (hpush b a flag flag hb ha) hi h
        · cases ci with
          | none =>
            simp only at h
            exact ih _ _ _ hrest (happ _ hsi) h
          | some inv =>
            simp only at h
            split at h
            · refine ih _ _ _ (hpush _ _ _ _ (hci inv rfl _ ?_) ?_) hi h
              · cases flag
                · simpa using ha
                · simpa using hb
              · cases flag
                · simpa using hb
                · simpa using ha
            · exact ih _ _ _ hrest (happ _ hsi) h

theorem unfold_well_formed (names : List String) (focus : Operation) (e : Operand)
    (fuel : Nat) (items : List Operand) (he : well_formed names e = true)
    (h : unfold fuel focus e = Except.ok items) :
    ∀ c ∈ items, well_formed names c = true := by
  unfold unfold at h
  split at h
  · refine unfold_loop_well_formed names focus _
      (fun inv hinv => well_formed_transformation names focus inv hinv) fuel _ [] items ?_ ?_ h
    · intro si hsi
      rw [List.mem_singleton] at hsi
      subst hsi
      exact he
    · intro c hc; simp at hc
  · simp at h

theorem fold_round_well_formed (names : List String) (ev : Evaluator)
    (hev : evaluator_closed ev) (op : Operation) (hop : op ∈ g_operations) :
    ∀ (l next : List Operand), (∀ c ∈ l, well_formed names c = true) →
      fold_round ev op l = Except.ok next → ∀ c ∈ next, well_formed names c = true
  | [], next, _, h => by
    simp only [fold_round, Except.ok.injEq] at h
    subst h
    intro c hc
    simp at hc
  | [a], next, hl, h => by
    simp only [fold_round, Except.ok.injEq] at h
    subst h
    exact hl
  | a :: b :: rest, next, hl, h => by
    have ha := hl a (by simp)
    have hb := hl b (by simp)
    have hrest : ∀ c ∈ rest, well_formed names c = true := fun c hc => hl c (by simp [hc])
    have fin : ∀ res : Operand, well_formed names res = true →
        (fold_round ev op rest >>= fun nx => Except.ok (res :: nx)) = Except.ok next →
        ∀ c ∈ next, well_formed names c = true := by
      intro res hwres h2
      obtain ⟨nx, hnx, h2⟩ := bind_ok _ _ _ h2
      simp only [Except.ok.injEq] at h2
      subst h2
      intro c hc
      rcases List.mem_cons.mp hc with rfl | hc
      · exact hwres
      · exact fold_round_well_formed names ev hev op hop rest nx hrest hnx c hc
    simp only [fold_round] at h
    split at h
    · obtain ⟨res, hres, h⟩ := bind_ok _ _ _ h
      exact fin res (well_formed_opftn names ev hev op a b res ha hb hres) h
    · obtain ⟨res, hres, h⟩ := bind_ok _ _ _ h
      cases hres
      exact fin _ (well_formed_grouping names op a b hop ha hb) h

theorem fold_loop_well_formed (names : List String) (ev : Evaluator)
    (hev : evaluator_closed ev) (op : Operation) (hop : op ∈ g_operations) :
    ∀ (fuel : Nat) (l : List Operand) (r : Operand), (∀ c ∈ l, well_formed names c = true) →
      fold_loop ev op fuel l = Except.ok r → well_formed names r = true := by
  intro fuel
  induction fuel with
  | zero =>
    intro l r hl h
    match l, hl, h with
    | [], _, h => simp [fold_loop] at h
    | [a], hl, h =>
      simp only [fold_loop, Except.ok.injEq] at h
      subst h
      exact hl a (by simp)
    | a :: b :: rest, _, h => simp [fold_loop] at h
  | succ fuel ih =>
    intro l r hl h
    match l, hl, h with
    | [], _, h => simp [fold_loop] at h
    | [a], hl, h =>
      simp only [fold_loop, Except.ok.injEq] at h
      subst h
      exact hl a (by simp)
    | a :: b :: rest, hl, h =>
      simp only [fold_loop] at h
      obtain ⟨nx, hnx, h⟩ := bind_ok _ _ _ h
      exact ih nx r (fold_round_well_formed names ev hev op hop _ nx hl hnx) h

theorem fold_well_formed (names : List String) (ev : Evaluator) (hev : evaluator_closed ev)
    (op : Operation) (hop : op ∈ g_operations) (l : List Operand) (r : Operand)
    (hl : ∀ c ∈ l, well_formed names c = true) (h : fold ev op l = Except.ok r) :
    well_formed names r = true := by
  unfold fold at h
  split at h
  · simp at h
  · split at h
    · exact fold_loop_well_formed names ev hev op hop _ _ r hl h
    · simp at h

theorem erase_first_well_formed (names : List String) (base : Operand) :
    ∀ (l items : List Operand), (∀ c ∈ l, well_formed names c = true) →
      erase_first base l = Except.ok (some items) → ∀ c ∈ items, well_formed names c = true
  | [], items, _, h => by simp [erase_first] at h
  | it :: rest, items, hl, h => by
    have hrest : ∀ c ∈ rest, well_formed names c = true := fun c hc => hl c (by simp [hc])
    simp only [erase_first] at h
    obtain ⟨b, _, h⟩ := bind_ok _ _ _ h
    cases b with
    | true =>
      simp only [if_true, Except.ok.injEq, Option.some.injEq] at h
      subst h
      exact hrest
    | false =>
      simp only [Bool.false_eq_true, if_false] at h
      obtain ⟨o, ho, h⟩ := bind_ok _ _ _ h
      cases o with
      | none => simp at h
      | some its =>
        simp only [Except.ok.injEq, Option.some.injEq] at h
        subst h
        intro c hc
        rcases List.mem_cons.mp hc with rfl | hc
        · exact hl _ (by simp)
        · exact erase_first_well_formed names base rest its hrest ho c hc

theorem additive_match_well_formed (names : List String) (ev : Evaluator)
    (hev : evaluator_closed ev) (fuel : Nat) (prop : Operation) (hprop : prop ∈ g_operations)
    (base target r : Operand) (ht : well_formed names target = true)
    (h : additive_constant_factor_match ev fuel prop base target = Except.ok r) :
    blank_or_well_formed names r = true := by
  unfold additive_constant_factor_match at h
  split at h
  · split at h
    · obtain ⟨hb, _, h⟩ := bind_ok _ _ _ h
      obtain ⟨htg, _, h⟩ := bind_ok _ _ _ h
      split at h <;> cases h <;> rfl
    · obtain ⟨items, hitems, h⟩ := bind_ok _ _ _ h
      obtain ⟨o, ho, h⟩ := bind_ok _ _ _ h
      have hw := unfold_well_formed names prop target fuel items ht hitems
      cases o with
      | none => simp only [Except.ok.injEq] at h; subst h; rfl
      | some its =>
        have hw2 := erase_first_well_formed names base items its hw ho
        match its, hw2, h with
        | [], _, h => simp only [Except.ok.injEq] at h; subst h; rfl
        | [item], hw2, h =>
          simp only [Except.ok.injEq] at h
          subst h
          simp [blank_or_well_formed, hw2 item (by simp)]
        | a :: b :: rest, hw2, h =>
          simp only at h
          simp [blank_or_well_formed, fold_well_formed names ev hev prop hprop _ r hw2 h]
  · simp at h

theorem base_of_well_formed (names : List String) (e : Operand)
    (h : well_formed names e = true) :
    well_formed names (base_of e).1 = true ∧ well_formed names (base_of e).2 = true := by
  cases e with
  | grouping op a b =>
    obtain ⟨o, rfl, ho, ha, hb⟩ := well_formed_parts names op a b h
    simp only [base_of]
    split
    · exact ⟨ha, hb⟩
    · exact ⟨h, rfl⟩
  | _ => exact ⟨h, rfl⟩

theorem exponent_match_well_formed (names : List String) (e1 e2 r : Operand)
    (h2 : well_formed names e2 = true) (h : exponent_match e1 e2 = Except.ok r) :
    blank_or_well_formed names r = true := by
  unfold exponent_match at h
  split at h
  · cases h
    simp [blank_or_well_formed, h2]
  · split at h
    · split at h
      · simp at h
      · split at h
        · simp at h
        · split at h <;> cases h <;> rfl
    · cases h; rfl

theorem multiplicative_match_well_formed (names : List String) (S : Simplifier)
    (hS : simplifier_closed names S) (prop : Operation) (base target : Operand)
    (sctx : simplification_context) (r : Operand × simplification_context)
    (ht : well_formed names target = true)
    (hc : cache_well_formed names sctx)
    (h : multiplicative_constant_factor_match S prop base target sctx = Except.ok r) :
    blank_or_well_formed names r.1 = true ∧ cache_well_formed names r.2 := by
  unfold multiplicative_constant_factor_match at h
  split at h
  · obtain ⟨b, _, h⟩ := bind_ok _ _ _ h
    cases b with
    | false =>
      simp only [Bool.not_false, if_true, Except.ok.injEq] at h
      subst h
      exact ⟨rfl, hc⟩
    | true =>
      simp only [Bool.not_true, Bool.false_eq_true, if_false] at h
      obtain ⟨exp, hexp, h⟩ := bind_ok _ _ _ h
      have hw := exponent_match_well_formed names _ _ exp
        (base_of_well_formed names target ht).2 hexp
      split at h
      · cases h
        exact ⟨rfl, hc⟩
      · rename_i hnb
        have hwe : well_formed names exp = true := by
          simpa [blank_or_well_formed, hnb] using hw
        obtain ⟨h1, h2⟩ := hS exp sctx r hwe hc h
        exact ⟨by simp [blank_or_well_formed, h1], h2⟩
  · simp at h

theorem constant_factor_match_well_formed (names : List String) (ev : Evaluator)
    (hev : evaluator_closed ev) (fuel : Nat) (S : Simplifier)
    (hS : simplifier_closed names S) (prop : Operation) (hprop : prop ∈ g_operations)
    (base target : Operand) (sctx : simplification_context)
    (r : Operand × simplification_context)
    (ht : well_formed names target = true)
    (hc : cache_well_formed names sctx)
    (h : constant_factor_match ev fuel S prop base target sctx = Except.ok r) :
    blank_or_well_formed names r.1 = true ∧ cache_well_formed names r.2 := by
  unfold constant_factor_match at h
  split at h
  · obtain ⟨f, hf, h⟩ := bind_ok _ _ _ h
    cases h
    exact ⟨additive_match_well_formed names ev hev fuel prop hprop base target f ht hf, hc⟩
  · split at h
    · exact multiplicative_match_well_formed names S hS prop base target sctx r ht hc h
    · cases h
      exact ⟨rfl, hc⟩

theorem registry_cases (op : Operation) (h : op ∈ g_operations) :
    op = op_add ∨ op = op_sub ∨ op = op_mul ∨ op = op_div ∨ op = op_exp := by
  simpa [g_operations] using h

theorem promote_well_formed (focus prop : Operation) (hf : focus ∈ g_operations)
    (h : promote focus = Except.ok prop) : prop ∈ g_operations := by
  unfold promote at h
  split at h
  · split at h
    · cases h; exact op_mul_mem
    · split at h
      · cases h; exact op_exp_mem
      · cases h; exact hf
  · simp at h

theorem identity_well_formed (names : List String) (focus : Operation) (e : Operand)
    (hf : focus ∈ g_operations) (h : identity focus = Except.ok e) :
    well_formed names e = true := by
  rcases registry_cases focus hf with rfl | rfl | rfl | rfl | rfl
  · cases h; rfl
  · simp [identity, op_sub] at h
  · cases h; rfl
  · simp [identity, op_div] at h
  · simp [identity, op_exp] at h

theorem hash_lengths_fst : ∀ (l : List Operand) (hs : List (Operand × Nat)),
    hash_lengths l = Except.ok hs → hs.map Prod.fst = l
  | [], hs, h => by
    simp only [hash_lengths, Except.ok.injEq] at h
    subst h
    rfl
  | opd :: rest, hs, h => by
    simp only [hash_lengths] at h
    obtain ⟨hh, _, h⟩ := bind_ok _ _ _ h
    obtain ⟨tl, htl, h⟩ := bind_ok _ _ _ h
    simp only [Except.ok.injEq] at h
    subst h
    simp [hash_lengths_fst rest tl htl]

theorem mem_sort_insert (x y : Operand × Nat) :
    ∀ l : List (Operand × Nat), y ∈ sort_insert x l → y = x ∨ y ∈ l
  | [], h => by
    simp only [sort_insert, List.mem_singleton] at h
    exact Or.inl h
  | z :: zs, h => by
    simp only [sort_insert] at h
    split at h
    · rcases List.mem_cons.mp h with h | h
      · exact Or.inl h
      · exact Or.inr h
    · rcases List.mem_cons.mp h with h | h
      · exact Or.inr (by simp [h])
      · rcases mem_sort_insert x y zs h with h | h
        · exact Or.inl h
        · exact Or.inr (List.mem_cons_of_mem _ h)

theorem mem_sort_by_hash_length (y : Operand × Nat) :
    ∀ l : List (Operand × Nat), y ∈ sort_by_hash_length l → y ∈ l
  | [], h => by simp [sort_by_hash_length] at h
  | x :: xs, h => by
    simp only [sort_by_hash_length] at h
    rcases mem_sort_insert x y _ h with h | h
    · simp [h]
    · exact List.mem_cons_of_mem _ (mem_sort_by_hash_length y xs h)

theorem gather_scan_well_formed (names : List String) (ev : Evaluator)
    (hev : evaluator_closed ev) (fuel : Nat) (S : Simplifier)
    (hS : simplifier_closed names S) (prop : Operation) (hprop : prop ∈ g_operations)
    (base : Operand) :
    ∀ (items : List Operand) (ticked : List Bool) (acc : Operand)
      (sctx : simplification_context) (r : Operand × List Bool × simplification_context),
      (∀ c ∈ items, well_formed names c = true) → well_formed names acc = true →
      cache_well_formed names sctx →
      gather_scan ev fuel S prop base items ticked acc sctx = Except.ok r →
      well_formed names r.1 = true ∧ cache_well_formed names r.2.2
  | [], ticked, acc, sctx, r, _, hacc, hc, h => by
    simp only [gather_scan, Except.ok.injEq] at h
    subst h
    exact ⟨hacc, hc⟩
  | item :: rest, ticked, acc, sctx, r, hl, hacc, hc, h => by
    have hitem := hl item (by simp)
    have hrest : ∀ c ∈ rest, well_formed names c = true := fun c hc => hl c (by simp [hc])
    simp only [gather_scan] at h
    obtain ⟨fm, hfm, h⟩ := bind_ok _ _ _ h
    obtain ⟨hfm1, hfm2⟩ := constant_factor_match_well_formed names ev hev fuel S hS prop hprop
      base item sctx fm hitem hc hfm
    split at h
    · obtain ⟨r2, hr2, h⟩ := bind_ok _ _ _ h
      simp only [Except.ok.injEq] at h
      subst h
      exact gather_scan_well_formed names ev hev fuel S hS prop hprop base rest _ acc fm.2 r2
        hrest hacc hfm2 hr2
    · rename_i hnb
      obtain ⟨acc1, hacc1, h⟩ := bind_ok _ _ _ h
      obtain ⟨r2, hr2, h⟩ := bind_ok _ _ _ h
      simp only [Except.ok.injEq] at h
      subst h
      have hwf : well_formed names fm.1 = true := by
        simpa [blank_or_well_formed, hnb] using hfm1
      have hwacc := well_formed_opftn names ev hev op_add acc fm.1 acc1 hacc hwf hacc1
      exact gather_scan_well_formed names ev hev fuel S hS prop hprop base rest _ acc1 fm.2 r2
        hrest hwacc hfm2 hr2

theorem gather_sweep_well_formed (names : List String) (ev : Evaluator)
    (hev : evaluator_closed ev) (fuel : Nat) (S : Simplifier)
    (hS : simplifier_closed names S) (prop : Operation) (hprop : prop ∈ g_operations) :
    ∀ (items : List Operand) (ticked : List Bool) (sctx : simplification_context)
      (r : List Operand × simplification_context),
      (∀ c ∈ items, well_formed names c = true) → cache_well_formed names sctx →
      gather_sweep ev fuel S prop items ticked sctx = Except.ok r →
      (∀ c ∈ r.1, blank_or_well_formed names c = true) ∧ cache_well_formed names r.2
  | [], ticked, sctx, r, _, hc, h => by
    simp only [gather_sweep, Except.ok.injEq] at h
    subst h
    exact ⟨by intro c hc; simp at hc, hc⟩
  | item :: rest, ticked, sctx, r, hl, hc, h => by
    have hitem := hl item (by simp)
    have hrest : ∀ c ∈ rest, well_formed names c = true := fun c hc => hl c (by simp [hc])
    simp only [gather_sweep] at h
    split at h
    · obtain ⟨r2, hr2, h⟩ := bind_ok _ _ _ h
      simp only [Except.ok.injEq] at h
      subst h
      obtain ⟨h1, h2⟩ := gather_sweep_well_formed names ev hev fuel S hS prop hprop rest _ sctx
        r2 hrest hc hr2
      refine ⟨?_, h2⟩
      intro c hc
      rcases List.mem_cons.mp hc with rfl | hc
      · rfl
      · exact h1 c hc
    · obtain ⟨sc, hsc, h⟩ := bind_ok _ _ _ h
      obtain ⟨r2, hr2, h⟩ := bind_ok _ _ _ h
      simp only [Except.ok.injEq] at h
      subst h
      obtain ⟨g1, g2⟩ := gather_scan_well_formed names ev hev fuel S hS prop hprop item rest _
        (Operand.integer 1) sctx sc hrest rfl hc hsc
      obtain ⟨h1, h2⟩ := gather_sweep_well_formed names ev hev fuel S hS prop hprop rest _ sc.2.2
        r2 hrest g2 hr2
      refine ⟨?_, h2⟩
      intro c hc
      rcases List.mem_cons.mp hc with rfl | hc
      · simp [blank_or_well_formed, g1]
      · exact h1 c hc

theorem gather_emit_well_formed (names : List String) (op : Operation)
    (hop : op ∈ g_operations) :
    ∀ (items gathered : List Operand), (∀ c ∈ items, well_formed names c = true) →
      (∀ c ∈ gathered, blank_or_well_formed names c = true) →
      ∀ c ∈ gather_emit op items gathered, well_formed names c = true
  | [], _, _, _ => by intro c hc; simp [gather_emit] at hc
  | _ :: _, [], _, _ => by intro c hc; simp [gather_emit] at hc
  | item :: items, factor :: gathered, hl, hg => by
    have hitem := hl item (by simp)
    have hrest : ∀ c ∈ items, well_formed names c = true := fun c hc => hl c (by simp [hc])
    have hfactor := hg factor (by simp)
    have hgrest : ∀ c ∈ gathered, blank_or_well_formed names c = true :=
      fun c hc => hg c (by simp [hc])
    have ih := gather_emit_well_formed names op hop items gathered hrest hgrest
    intro c hc
    simp only [gather_emit] at hc
    split at hc
    · exact ih c hc
    · rename_i hnb
      simp only [Bool.or_eq_true, not_or, Bool.not_eq_true] at hnb
      have hwf : well_formed names factor = true := by
        simpa [blank_or_well_formed, hnb.1] using hfactor
      split at hc
      · rcases List.mem_cons.mp hc with rfl | hc
        · exact well_formed_grouping names op item factor hop hitem hwf
        · exact ih c hc
      · rcases List.mem_cons.mp hc with rfl | hc
        · exact hitem
        · exact ih c hc

theorem simplification_gather_well_formed (names : List String) (ev : Evaluator)
    (hev : evaluator_closed ev) (fuel : Nat) (S : Simplifier)
    (hS : simplifier_closed names S) (focus : Operation) (hfocus : focus ∈ g_operations)
    (unordered_items : List Operand) (sctx : simplification_context)
    (r : List Operand × simplification_context)
    (hl : ∀ c ∈ unordered_items, well_formed names c = true)
    (hc : cache_well_formed names sctx)
    (h : simplification_gather ev fuel S focus unordered_items sctx = Except.ok r) :
    (∀ c ∈ r.1, well_formed names c = true) ∧ cache_well_formed names r.2 := by
  unfold simplification_gather at h
  split at h
  · simp at h
  · rename_i x xs
    obtain ⟨hashed, hhashed, h⟩ := bind_ok _ _ _ h
    obtain ⟨prop, hprop, h⟩ := bind_ok _ _ _ h
    obtain ⟨sw, hsw, h⟩ := bind_ok _ _ _ h
    have hpm := promote_well_formed focus prop hfocus hprop
    have hitems : ∀ c ∈ (sort_by_hash_length hashed).map Prod.fst,
        well_formed names c = true := by
      intro c hcm
      obtain ⟨p, hp, rfl⟩ := List.mem_map.mp hcm
      have hp2 := mem_sort_by_hash_length p hashed hp
      apply hl
      rw [← hash_lengths_fst _ hashed hhashed]
      exact List.mem_map.mpr ⟨p, hp2, rfl⟩
    obtain ⟨s1, s2⟩ := gather_sweep_well_formed names ev hev fuel S hS prop hpm _ [] sctx sw
      hitems hc hsw
    have hemit := gather_emit_well_formed names prop hpm _ sw.1 hitems s1
    dsimp only at h
    split at h
    · obtain ⟨e, he, h⟩ := bind_ok _ _ _ h
      simp only [Except.ok.injEq] at h
      subst h
      refine ⟨?_, s2⟩
      intro c hcm
      rw [List.mem_singleton] at hcm
      subst hcm
      exact identity_well_formed names focus _ hfocus he
    · simp only [Except.ok.injEq] at h
      subst h
      exact ⟨hemit, s2⟩

theorem fold_constants_well_formed (names : List String) (ev : Evaluator)
    (hev : evaluator_closed ev) (S : Simplifier) (hS : simplifier_closed names S)
    (focus : Operation) :
    ∀ (l : List Operand) (constant : Operand) (sctx : simplification_context)
      (r : Operand × simplification_context),
      (∀ c ∈ l, well_formed names c = true) → well_formed names constant = true →
      cache_well_formed names sctx →
      fold_constants ev S focus l constant sctx = Except.ok r →
      well_formed names r.1 = true ∧ cache_well_formed names r.2
  | [], constant, sctx, r, _, hk, hc, h => by
    simp only [fold_constants, Except.ok.injEq] at h
    subst h
    exact ⟨hk, hc⟩
  | c :: rest, constant, sctx, r, hl, hk, hc, h => by
    have hrest : ∀ c ∈ rest, well_formed names c = true := fun c hc => hl c (by simp [hc])
    simp only [fold_constants] at h
    obtain ⟨r1, hr1, h⟩ := bind_ok _ _ _ h
    obtain ⟨w1, w2⟩ := hS c sctx r1 (hl c (by simp)) hc hr1
    split at h
    · obtain ⟨k1, hk1, h⟩ := bind_ok _ _ _ h
      have hwk := well_formed_opftn names ev hev focus constant r1.1 k1 hk w1 hk1
      exact fold_constants_well_formed names ev hev S hS focus rest k1 r1.2 r hrest hwk w2 h
    · simp at h

theorem simplification_fold_well_formed (names : List String) (ev : Evaluator)
    (hev : evaluator_closed ev) (fuel : Nat) (S : Simplifier)
    (hS : simplifier_closed names S) (focus : Operation) (hfocus : focus ∈ g_operations)
    (bg : Operand) (sctx : simplification_context) (r : Operand × simplification_context)
    (hbg : well_formed names bg = true) (hc : cache_well_formed names sctx)
    (h : simplification_fold ev fuel S focus bg sctx = Except.ok r) :
    well_formed names r.1 = true ∧ cache_well_formed names r.2 := by
  unfold simplification_fold at h
  split at h
  · obtain ⟨items, hitems, h⟩ := bind_ok _ _ _ h
    have hw := unfold_well_formed names focus bg fuel items hbg hitems
    dsimp only at h
    obtain ⟨u, hu, h⟩ := bind_ok _ _ _ h
    have hconst : ∀ c ∈ items.filter is_constant, well_formed names c = true :=
      fun c hcm => hw c (List.mem_filter.mp hcm).1
    have hunres : ∀ c ∈ items.filter (fun opd => !is_constant opd),
        well_formed names c = true :=
      fun c hcm => hw c (List.mem_filter.mp hcm).1
    have hu2 : blank_or_well_formed names u.1 = true ∧
        (∀ c ∈ u.2.1, well_formed names c = true) ∧ cache_well_formed names u.2.2 := by
      split at hu
      · cases hu
        exact ⟨rfl, hconst, hc⟩
      · rename_i opd heq
        obtain ⟨r1, hr1, hu⟩ := bind_ok _ _ _ hu
        cases hu
        have hr := hS opd sctx r1 (hunres opd (by rw [heq]; simp)) hc hr1
        exact ⟨by simp [blank_or_well_formed, hr.1], hconst, hr.2⟩
      · rename_i a b rest heq
        obtain ⟨g, hg, hu⟩ := bind_ok _ _ _ hu
        obtain ⟨folded, hfolded, hu⟩ := bind_ok _ _ _ hu
        have hgw := simplification_gather_well_formed names ev hev fuel S hS focus hfocus _ sctx
          g hunres hc hg
        have hfw := fold_well_formed names ev hev focus hfocus g.1 folded hgw.1 hfolded
        split at hu
        · cases hu
          refine ⟨rfl, ?_, hgw.2⟩
          intro c hcm
          rcases List.mem_append.mp hcm with hcm | hcm
          · exact hconst c hcm
          · rw [List.mem_singleton] at hcm
            subst hcm
            exact hfw
        · cases hu
          exact ⟨by simp [blank_or_well_formed, hfw], hconst, hgw.2⟩
    obtain ⟨c, hcc, h⟩ := bind_ok _ _ _ h
    have hc2 : blank_or_well_formed names c.1 = true ∧ cache_well_formed names c.2 := by
      split at hcc
      · cases hcc
        exact ⟨rfl, hu2.2.2⟩
      · rename_i c0 rest heq
        obtain ⟨r1, hr1, hcc⟩ := bind_ok _ _ _ hcc
        have hr := hS c0 u.2.2 r1 (hu2.2.1 c0 (by rw [heq]; simp)) hu2.2.2 hr1
        split at hcc
        · have hf := fold_constants_well_formed names ev hev S hS focus rest r1.1 r1.2 c
            (fun x hx => hu2.2.1 x (by rw [heq]; simp [hx])) hr.1 hr.2 hcc
          exact ⟨by simp [blank_or_well_formed, hf.1], hf.2⟩
        · simp at hcc
    have hbu : ∀ o : Operand, blank_or_well_formed names o = true → o.is_blank = false →
        well_formed names o = true := by
      intro o ho hb
      simpa [blank_or_well_formed, hb] using ho
    split at h
    · simp at h
    · rename_i hboth
      split at h
      · rename_i hcb
        cases h
        refine ⟨hbu _ hu2.1 ?_, hc2.2⟩
        simpa [hcb] using hboth
      · rename_i hcb
        split at h
        · cases h
          exact ⟨hbu _ hc2.1 (by simpa using hcb), hc2.2⟩
        · rename_i hub
          cases h
          exact ⟨well_formed_grouping names focus _ _ hfocus (hbu _ hc2.1 (by simpa using hcb))
            (hbu _ hu2.1 (by simpa using hub)), hc2.2⟩
  · simp at h

theorem aggressive_rules_well_formed (names : List String) (op : Operation)
    (hop : op ∈ g_operations) (a b : Operand) (ha : well_formed names a = true)
    (hb : well_formed names b = true) :
    well_formed names (aggressive_rules op a b) = true := by
  have hout := well_formed_grouping names op a b hop ha hb
  have hpow : ∀ n : Operand, well_formed names n = true →
      well_formed names (one_over_power a n) = true := fun n hn =>
    well_formed_grouping names op_div _ _ op_div_mem rfl
      (well_formed_grouping names op_exp _ _ op_exp_mem ha hn)
  have hi : ∀ i : Int, well_formed names (Operand.integer i) = true := fun _ => rfl
  unfold aggressive_rules
  dsimp only
  repeat' split
  all_goals first
    | assumption
    | exact hi _
    | exact hpow _ rfl

theorem simplification_aggressive_well_formed (names : List String) (S : Simplifier)
    (hS : simplifier_closed names S) (op : Operation) (hop : op ∈ g_operations)
    (a b : Operand) (sctx : simplification_context) (r : Operand × simplification_context)
    (ha : well_formed names a = true) (hb : well_formed names b = true)
    (hc : cache_well_formed names sctx)
    (h : simplification_aggressive S op a b sctx = Except.ok r) :
    well_formed names r.1 = true ∧ cache_well_formed names r.2 := by
  have hw := aggressive_rules_well_formed names op hop a b ha hb
  unfold simplification_aggressive at h
  split at h
  · rename_i nop na nb heq
    rw [heq] at hw
    obtain ⟨o, rfl, ho, hna, hnb⟩ := well_formed_parts names nop na nb hw
    dsimp only at h
    split at h
    · obtain ⟨ra, hra, h⟩ := bind_ok _ _ _ h
      have h1 := hS na sctx ra hna hc hra
      split at h
      · obtain ⟨rb, hrb, h⟩ := bind_ok _ _ _ h
        cases h
        have h2 := hS nb ra.2 rb hnb h1.2 hrb
        exact ⟨well_formed_grouping names o _ _ ho h1.1 h2.1, h2.2⟩
      · obtain ⟨rb, hrb, h⟩ := bind_ok _ _ _ h
        cases hrb
        cases h
        exact ⟨well_formed_grouping names o _ _ ho h1.1 hnb, h1.2⟩
    · obtain ⟨ra, hra, h⟩ := bind_ok _ _ _ h
      cases hra
      split at h
      · obtain ⟨rb, hrb, h⟩ := bind_ok _ _ _ h
        cases h
        have h2 := hS nb sctx rb hnb hc hrb
        exact ⟨well_formed_grouping names o _ _ ho hna h2.1, h2.2⟩
      · obtain ⟨rb, hrb, h⟩ := bind_ok _ _ _ h
        cases hrb
        cases h
        exact ⟨well_formed_grouping names o _ _ ho hna hnb, hc⟩
  · cases h
    exact ⟨hw, hc⟩

theorem cached_result_well_formed (names : List String) (hash_bg : ExpressionHash) :
    ∀ (l : List Operand) (o : Operand), (∀ c ∈ l, well_formed names c = true) →
      cached_result hash_bg l = Except.ok (some o) → well_formed names o = true
  | [], o, _, h => by simp [cached_result] at h
  | opd :: results, o, hl, h => by
    simp only [cached_result] at h
    obtain ⟨hh, _, h⟩ := bind_ok _ _ _ h
    split at h
    · cases h
      exact hl _ (by simp)
    · exact cached_result_well_formed names hash_bg results o
        (fun c hc => hl c (by simp [hc])) h

theorem cache_lookup_well_formed (names : List String) (hash_bg : ExpressionHash)
    (sctx : simplification_context) (o : Operand) (hc : cache_well_formed names sctx)
    (h : cache_lookup hash_bg sctx = Except.ok (some o)) : well_formed names o = true := by
  unfold cache_lookup at h
  split at h
  · simp at h
  · split at h
    · simp at h
    · rename_i index entry hget
      have hmem : entry ∈ sctx.cache := List.get?_mem hget
      split at h
      · simp at h
      · rename_i opd hcr
        cases h
        exact cached_result_well_formed names hash_bg entry.2 _ (hc entry hmem) hcr
      · split at h
        · simp at h
        · rename_i opd rest heq
          cases h
          exact hc entry hmem _ (by rw [heq]; simp)

theorem push_at_well_formed (names : List String) (opd : Operand)
    (hopd : well_formed names opd = true) :
    ∀ (cache : List (ExpressionHash × List Operand)) (index : Nat),
      (∀ entry ∈ cache, ∀ o ∈ entry.2, well_formed names o = true) →
      ∀ entry ∈ push_at opd cache index, ∀ o ∈ entry.2, well_formed names o = true
  | [], _, _ => by intro entry he; simp [push_at] at he
  | e :: rest, 0, hc => by
    intro entry he o ho
    simp only [push_at] at he
    rcases List.mem_cons.mp he with rfl | he
    · rcases List.mem_append.mp ho with ho | ho
      · exact hc e (by simp) o ho
      · rw [List.mem_singleton] at ho
        subst ho
        exact hopd
    · exact hc entry (List.mem_cons_of_mem _ he) o ho
  | e :: rest, index + 1, hc => by
    intro entry he o ho
    simp only [push_at] at he
    rcases List.mem_cons.mp he with rfl | he
    · exact hc entry (by simp) o ho
    · exact push_at_well_formed names opd hopd rest index
        (fun x hx => hc x (List.mem_cons_of_mem _ hx)) entry he o ho

theorem cache_append_well_formed (names : List String) (sctx : simplification_context)
    (hash : ExpressionHash) (opd : Operand) (hc : cache_well_formed names sctx)
    (hopd : well_formed names opd = true) :
    cache_well_formed names ⟨sctx.cache ++ [(hash, [opd])]⟩ := by
  intro entry he o ho
  rcases List.mem_append.mp he with he | he
  · exact hc entry he o ho
  · rw [List.mem_singleton] at he
    subst he
    simp only [List.mem_singleton] at ho
    subst ho
    exact hopd

theorem insert_well_formed (names : List String) (sctx : simplification_context)
    (hash : ExpressionHash) (opd : Operand) (hc : cache_well_formed names sctx)
    (hopd : well_formed names opd = true) :
    cache_well_formed names (sctx.insert hash opd) := by
  unfold simplification_context.insert
  split
  · exact cache_append_well_formed names sctx hash opd hc hopd
  · exact push_at_well_formed names opd hopd sctx.cache _ hc

theorem find_base_mem (op : Operation) (hop : op ∈ g_operations) :
    (find_base op commutative_inverses).getD op ∈ g_operations := by
  rcases registry_cases op hop with rfl | rfl | rfl | rfl | rfl
  · exact op_add_mem
  · exact op_add_mem
  · exact op_mul_mem
  · exact op_mul_mem
  · exact op_exp_mem

theorem simplify_branches_well_formed (names : List String) (ev : Evaluator)
    (hev : evaluator_closed ev) (fuel : Nat) (S : Simplifier)
    (hS : simplifier_closed names S) (focus op : Operation) (hfocus : focus ∈ g_operations)
    (hop : op ∈ g_operations) (a b : Operand) (sctx : simplification_context)
    (ha : well_formed names a = true) (hb : well_formed names b = true)
    (hc : cache_well_formed names sctx) :
    (∀ r : Operand × simplification_context,
      simplify_branches ev fuel S focus op a b sctx = Except.ok (Sum.inl r) →
      well_formed names r.1 = true ∧ cache_well_formed names r.2) ∧
    (∀ (oop : Operation) (x y : Operand) (sctx1 : simplification_context),
      simplify_branches ev fuel S focus op a b sctx = Except.ok (Sum.inr (oop, x, y, sctx1)) →
      oop ∈ g_operations ∧ well_formed names x = true ∧ well_formed names y = true ∧
        cache_well_formed names sctx1) := by
  have hbg := well_formed_grouping names op a b hop ha hb
  constructor
  · intro r h
    unfold simplify_branches at h
    split at h
    · obtain ⟨sf, hsf, h⟩ := bind_ok _ _ _ h
      obtain ⟨w1, w2⟩ := simplification_fold_well_formed names ev hev fuel S hS focus hfocus _
        sctx sf hbg hc hsf
      split at h
      · rename_i x y heq
        rw [heq] at w1
        simp [well_formed] at w1
      · obtain ⟨ra, _, h⟩ := bind_ok _ _ _ h
        obtain ⟨rb, _, h⟩ := bind_ok _ _ _ h
        cases h
      · obtain ⟨r1, hr1, h⟩ := bind_ok _ _ _ h
        cases h
        exact hS _ sf.2 _ w1 w2 hr1
    · obtain ⟨ra, _, h⟩ := bind_ok _ _ _ h
      obtain ⟨rb, _, h⟩ := bind_ok _ _ _ h
      cases h
  · intro oop x y sctx1 h
    unfold simplify_branches at h
    split at h
    · obtain ⟨sf, hsf, h⟩ := bind_ok _ _ _ h
      obtain ⟨w1, w2⟩ := simplification_fold_well_formed names ev hev fuel S hS focus hfocus _
        sctx sf hbg hc hsf
      split at h
      · obtain ⟨r1, _, h⟩ := bind_ok _ _ _ h
        cases h
      · rename_i bop p q heq
        rw [heq] at w1
        obtain ⟨o, ho1, ho, hp, hq⟩ := well_formed_parts names _ p q w1
        cases ho1
        obtain ⟨ra, hra, h⟩ := bind_ok _ _ _ h
        obtain ⟨rb, hrb, h⟩ := bind_ok _ _ _ h
        cases h
        have h1 := hS p sf.2 ra hp w2 hra
        have h2 := hS q ra.2 rb hq h1.2 hrb
        exact ⟨ho, h1.1, h2.1, h2.2⟩
      · obtain ⟨r1, _, h⟩ := bind_ok _ _ _ h
        cases h
    · obtain ⟨ra, hra, h⟩ := bind_ok _ _ _ h
      obtain ⟨rb, hrb, h⟩ := bind_ok _ _ _ h
      cases h
      have h1 := hS a sctx ra ha hc hra
      have h2 := hS b ra.2 rb hb h1.2 hrb
      exact ⟨hop, h1.1, h2.1, h2.2⟩

theorem resimplify_well_formed (names : List String) (S : Simplifier)
    (hS : simplifier_closed names S) (ihasha ihashb : ExpressionHash) (result : Operand)
    (sctx : simplification_context) (r : Operand × simplification_context)
    (hr : well_formed names result = true) (hc : cache_well_formed names sctx)
    (h : resimplify S ihasha ihashb result sctx = Except.ok r) :
    well_formed names r.1 = true ∧ cache_well_formed names r.2 := by
  unfold resimplify at h
  split at h
  · rename_i nop na nb
    obtain ⟨fa, _, h⟩ := bind_ok _ _ _ h
    obtain ⟨fb, _, h⟩ := bind_ok _ _ _ h
    split at h
    · obtain ⟨hn, _, h⟩ := bind_ok _ _ _ h
      split at h
      · split at h
        · simp at h
        · obtain ⟨seen, _, h⟩ := bind_ok _ _ _ h
          split at h
          · cases h
            exact ⟨hr, hc⟩
          · obtain ⟨r1, hr1, h⟩ := bind_ok _ _ _ h
            cases h
            exact ⟨(hS _ sctx r1 hr hc hr1).1, hc⟩
      · obtain ⟨r1, hr1, h⟩ := bind_ok _ _ _ h
        cases h
        have hc2 := cache_append_well_formed names sctx hn _ hc hr
        exact ⟨(hS _ _ r1 hr hc2 hr1).1, hc2⟩
    · cases h
      exact ⟨hr, hc⟩
  · cases h
    exact ⟨hr, hc⟩

theorem simplify_grouping_well_formed (names : List String) (ev : Evaluator)
    (hev : evaluator_closed ev) (fuel : Nat) (S : Simplifier)
    (hS : simplifier_closed names S) (op : Operation) (hop : op ∈ g_operations)
    (a b : Operand) (sctx : simplification_context) (r : Operand × simplification_context)
    (ha : well_formed names a = true) (hb : well_formed names b = true)
    (hc : cache_well_formed names sctx)
    (h : simplify_grouping ev fuel S op a b sctx = Except.ok r) :
    well_formed names r.1 = true ∧ cache_well_formed names r.2 := by
  unfold simplify_grouping at h
  obtain ⟨hash_bg, _, h⟩ := bind_ok _ _ _ h
  obtain ⟨look, hlook, h⟩ := bind_ok _ _ _ h
  split at h
  · cases h
    exact ⟨cache_lookup_well_formed names hash_bg sctx _ hc hlook, hc⟩
  · dsimp only at h
    obtain ⟨ia, _, h⟩ := bind_ok _ _ _ h
    obtain ⟨ib, _, h⟩ := bind_ok _ _ _ h
    obtain ⟨br, hbr, h⟩ := bind_ok _ _ _ h
    obtain ⟨b1, b2⟩ := simplify_branches_well_formed names ev hev fuel S hS _ op
      (find_base_mem op hop) hop a b sctx ha hb hc
    split at h
    · cases h
      exact b1 _ hbr
    · rename_i oop x y sctx1
      obtain ⟨ho, hx, hy, hc1⟩ := b2 oop x y sctx1 hbr
      split at h
      · obtain ⟨res, hres, h⟩ := bind_ok _ _ _ h
        cases h
        exact ⟨well_formed_opftn names ev hev oop x y res hx hy hres, hc1⟩
      · obtain ⟨ag, hag, h⟩ := bind_ok _ _ _ h
        obtain ⟨g1, g2⟩ := simplification_aggressive_well_formed names S hS oop ho x y _ ag hx hy
          (insert_well_formed names sctx1 hash_bg _ hc1
            (well_formed_grouping names oop x y ho hx hy)) hag
        exact resimplify_well_formed names S hS ia ib ag.1 ag.2 r g1 g2 h

theorem simplify_well_formed (names : List String) (ev : Evaluator)
    (hev : evaluator_closed ev) :
    ∀ fuel : Nat, simplifier_closed names (simplify ev fuel) := by
  intro fuel
  induction fuel with
  | zero =>
    intro e sctx r _ _ h
    simp [simplify] at h
  | succ fuel ih =>
    intro e sctx r he hc h
    simp only [simplify, simplify_operand] at h
    cases e with
    | blank => simp [well_formed] at he
    | integer i => cases h; exact ⟨he, hc⟩
    | real x => cases h; exact ⟨he, hc⟩
    | var v => cases h; exact ⟨he, hc⟩
    | grouping op a b =>
      obtain ⟨o, rfl, ho, ha, hb⟩ := well_formed_parts names op a b he
      exact simplify_grouping_well_formed names ev hev fuel _ ih o ho a b sctx r ha hb hc h

theorem well_formed_of_registry_tree (names : List String) (e : Operand)
    (h : registry_tree e = true) (hv : ∀ v ∈ variable_names e, v ∈ names) :
    well_formed names e = true := by
  induction e with
  | blank => simp [registry_tree] at h
  | integer i => rfl
  | real r => rfl
  | var v => simpa [well_formed] using hv v (by simp [variable_names])
  | grouping op a b iha ihb =>
    cases op with
    | none => simp [registry_tree] at h
    | some o =>
      simp only [registry_tree, Bool.and_eq_true, decide_eq_true_eq] at h
      exact well_formed_grouping names o a b h.1.1
        (iha h.1.2 (fun v hm => hv v (by simp [variable_names, hm])))
        (ihb h.2 (fun v hm => hv v (by simp [variable_names, hm])))

theorem registry_tree_of_well_formed (names : List String) (e : Operand)
    (h : well_formed names e = true) :
    registry_tree e = true ∧ has_blank e = false ∧ ∀ v ∈ variable_names e, v ∈ names := by
  induction e with
  | blank => simp [well_formed] at h
  | integer i => exact ⟨rfl, rfl, by simp [variable_names]⟩
  | real r => exact ⟨rfl, rfl, by simp [variable_names]⟩
  | var v => exact ⟨rfl, rfl, by simpa [variable_names, well_formed] using h⟩
  | grouping op a b iha ihb =>
    obtain ⟨o, rfl, ho, ha, hb⟩ := well_formed_parts names op a b h
    obtain ⟨a1, a2, a3⟩ := iha ha
    obtain ⟨b1, b2, b3⟩ := ihb hb
    refine ⟨by simp [registry_tree, ho, a1, b1], by simp [has_blank, a2, b2], ?_⟩
    intro v hm
    simp only [variable_names, List.mem_append] at hm
    rcases hm with hm | hm
    · exact a3 v hm
    · exact b3 v hm

/-- C15: for an evaluator that returns well-formed operands on well-formed operands, and
every input tree made only of constants, variables and non-degenerate groupings over
registry operations, a tree returned by `simplify` from an empty cache is again such a
tree, contains no blank operand, and every variable that occurs in it occurs in the
input. -/
theorem simplify_output_well_formed (ev : Evaluator) (fuel : Nat) (e r : Operand)
    (hev : evaluator_closed ev) (he : registry_tree e = true)
    (h : simplify_top ev fuel e = Except.ok r) :
    registry_tree r = true ∧ has_blank r = false ∧
    ∀ v ∈ variable_names r, v ∈ variable_names e := by
  unfold simplify_top at h
  split at h
  · rename_i r1 hr1
    cases h
    have hw := well_formed_of_registry_tree (variable_names e) e he (fun _ hv => hv)
    have hc : cache_well_formed (variable_names e) ⟨[]⟩ := by
      intro entry hm
      simp at hm
    exact registry_tree_of_well_formed _ _
      (simplify_well_formed (variable_names e) ev hev fuel e ⟨[]⟩ r1 hw hc hr1).1
  · simp at h

theorem simplify_output_well_formed_witness :
    registry_tree (Operand.grouping (some op_add) (Operand.var "x") (Operand.var "x")) = true ∧
    simplify_top no_evaluator 8 (Operand.grouping (some op_add) (Operand.var "x") (Operand.var "x"))
      = Except.ok (Operand.grouping (some op_mul) (Operand.var "x") (Operand.integer 2)) ∧
    has_blank (Operand.grouping (some op_mul) (Operand.var "x") (Operand.integer 2)) = false ∧
    ∀ v ∈ variable_names (Operand.grouping (some op_mul) (Operand.var "x") (Operand.integer 2)),
      v ∈ variable_names (Operand.grouping (some op_add) (Operand.var "x") (Operand.var "x")) :=
  have h : simplify_top no_evaluator 8
      (Operand.grouping (some op_add) (Operand.var "x") (Operand.var "x"))
      = Except.ok (Operand.grouping (some op_mul) (Operand.var "x") (Operand.integer 2)) := rfl
  ⟨by decide, h,
    (simplify_output_well_formed no_evaluator 8
      (Operand.grouping (some op_add) (Operand.var "x") (Operand.var "x"))
      (Operand.grouping (some op_mul) (Operand.var "x") (Operand.integer 2))
      (fun _ _ _ _ _ _ _ h => by cases h) (by decide) h).2⟩

/-! ## Shape and value of the tree built by fold -/

theorem combine_step (focus : Operation) (hf : focus = op_add ∨ focus = op_mul)
    (x y z : Int) (rest next : List Int)
    (hz : z ≡ combine focus [x, y] [ZMOD 2 ^ 64])
    (hr : combine focus next ≡ combine focus rest [ZMOD 2 ^ 64]) :
    combine focus (z :: next) ≡ combine focus (x :: y :: rest) [ZMOD 2 ^ 64] := by
  rcases hf with rfl | rfl
  · have e : ∀ l : List Int, combine op_add l = l.sum := fun l => by simp [combine]
    rw [e] at hz hr ⊢
    rw [e] at hr ⊢
    simp only [List.sum_cons, List.sum_nil, add_zero] at hz ⊢
    rw [← add_assoc]
    exact hz.add hr
  · have e : ∀ l : List Int, combine op_mul l = l.prod := fun l => by
      have h1 : (op_mul.id == op_add.id) = false := rfl
      simp [combine, h1]
    rw [e] at hz hr ⊢
    rw [e] at hr ⊢
    simp only [List.prod_cons, List.prod_nil, mul_one] at hz ⊢
    rw [← mul_assoc]
    exact hz.mul hr

theorem fold_round_integers (ev : Evaluator) (op : Operation)
    (hf : op = op_add ∨ op = op_mul) :
    ∀ values : List Int, (∀ v ∈ values, -(2 ^ 63) ≤ v ∧ v < 2 ^ 63) →
      ∃ next : List Int,
        fold_round ev op (values.map Operand.integer) = Except.ok (next.map Operand.integer) ∧
        next.length = (values.length + 1) / 2 ∧
        (∀ v ∈ next, -(2 ^ 63) ≤ v ∧ v < 2 ^ 63) ∧
        combine op next ≡ combine op values [ZMOD 2 ^ 64]
  | [], _ => ⟨[], rfl, by simp, by simp, Int.ModEq.refl _⟩
  | [a], h => ⟨[a], rfl, by simp, h, Int.ModEq.refl _⟩
  | a :: b :: rest, h => by
    obtain ⟨next, h1, h2, h3, h4⟩ := fold_round_integers ev op hf rest
      (fun v hv => h v (by simp [hv]))
    refine ⟨wrap64 (combine op [a, b]) :: next, ?_, ?_, ?_, ?_⟩
    · simp only [List.map_cons, fold_round, Operand.is_constant, Bool.and_self, if_true,
        opftn_integers ev op hf, h1, bind, Except.bind]
    · simp only [List.length_cons, h2]
      omega
    · intro v hv
      rcases List.mem_cons.mp hv with rfl | hv
      · exact wrap64_range _
      · exact h3 v hv
    · exact combine_step op hf a b _ rest next (wrap64_modEq _) h4

theorem fold_loop_integers (ev : Evaluator) (op : Operation)
    (hf : op = op_add ∨ op = op_mul) :
    ∀ (fuel : Nat) (values : List Int), values ≠ [] → values.length ≤ fuel + 1 →
      (∀ v ∈ values, -(2 ^ 63) ≤ v ∧ v < 2 ^ 63) →
      fold_loop ev op fuel (values.map Operand.integer)
        = Except.ok (Operand.integer (wrap64 (combine op values))) := by
  have single : ∀ a : Int, -(2 ^ 63) ≤ a ∧ a < 2 ^ 63 → wrap64 (combine op [a]) = a := by
    intro a ha
    have e : combine op [a] = a := by
      rcases hf with rfl | rfl
      · simp [combine]
      · have h1 : (op_mul.id == op_add.id) = false := rfl
        simp [combine, h1]
    rw [e]
    exact wrap64_of_range a ha.1 ha.2
  intro fuel
  induction fuel with
  | zero =>
    intro values hne hlen hr
    match values, hne, hlen, hr with
    | [a], _, _, hr =>
      simp only [List.map_cons, List.map_nil, fold_loop, single a (hr a (by simp))]
    | a :: b :: rest, _, hlen, _ => simp at hlen
  | succ fuel ih =>
    intro values hne hlen hr
    match values, hne, hlen, hr with
    | [a], _, _, hr =>
      simp only [List.map_cons, List.map_nil, fold_loop, single a (hr a (by simp))]
    | a :: b :: rest, _, hlen, hr =>
      obtain ⟨next, h1, h2, h3, h4⟩ := fold_round_integers ev op hf (a :: b :: rest) hr
      have hne2 : next ≠ [] := by
        intro h
        rw [h] at h2
        simp only [List.length_nil, List.length_cons] at h2
        omega
      have hlen2 : next.length ≤ fuel + 1 := by
        rw [h2]
        simp only [List.length_cons] at hlen ⊢
        omega
      have h5 := ih next hne2 hlen2 h3
      simp only [List.map_cons] at h1
      simp only [List.map_cons, fold_loop, h1, bind, Except.bind, h5]
      rw [wrap64_eq_of_modEq _ _ h4]

theorem fold_integers (ev : Evaluator) (op : Operation) (hf : op = op_add ∨ op = op_mul)
    (values : List Int) (hne : values ≠ [])
    (hr : ∀ v ∈ values, -(2 ^ 63) ≤ v ∧ v < 2 ^ 63) :
    fold ev op (values.map Operand.integer)
      = Except.ok (Operand.integer (wrap64 (combine op values))) := by
  have hc : op.commutative = true := by rcases hf with rfl | rfl <;> rfl
  cases values with
  | nil => exact absurd rfl hne
  | cons v vs =>
    simp only [List.map_cons, fold, hc, if_true]
    have := fold_loop_integers ev op hf (List.length (v :: vs)) (v :: vs) hne (by simp) hr
    simpa using this

/-- C22, as amended: for a non-empty list of `Integer` constants of the `long long` range,
`fold` under add (under mul) is the single `Integer` constant that holds the sum (the
product) of the list reduced modulo `2 ^ 64` to the signed 64-bit range, hence the sum
(the product) itself whenever that fits; no grouping is created. -/
theorem fold_integer_constants (ev : Evaluator) (values : List Int) (hne : values ≠ [])
    (hr : ∀ v ∈ values, -(2 ^ 63) ≤ v ∧ v < 2 ^ 63) :
    fold ev op_add (values.map Operand.integer)
      = Except.ok (Operand.integer (wrap64 values.sum)) ∧
    fold ev op_mul (values.map Operand.integer)
      = Except.ok (Operand.integer (wrap64 values.prod)) ∧
    (-(2 ^ 63) ≤ values.sum → values.sum < 2 ^ 63 →
      fold ev op_add (values.map Operand.integer) = Except.ok (Operand.integer values.sum)) ∧
    (-(2 ^ 63) ≤ values.prod → values.prod < 2 ^ 63 →
      fold ev op_mul (values.map Operand.integer)
        = Except.ok (Operand.integer values.prod)) := by
  have ha := fold_integers ev op_add (Or.inl rfl) values hne hr
  have hm := fold_integers ev op_mul (Or.inr rfl) values hne hr
  have e1 : combine op_add values = values.sum := by simp [combine]
  have e2 : combine op_mul values = values.prod := by
    have h1 : (op_mul.id == op_add.id) = false := rfl
    simp [combine, h1]
  rw [e1] at ha
  rw [e2] at hm
  refine ⟨ha, hm, ?_, ?_⟩
  · intro h1 h2
    rw [ha, wrap64_of_range _ h1 h2]
  · intro h1 h2
    rw [hm, wrap64_of_range _ h1 h2]

theorem fold_integer_constants_witness :
    fold no_evaluator op_add [Operand.integer 2, Operand.integer 3, Operand.integer 4]
      = Except.ok (Operand.integer 9) ∧
    fold no_evaluator op_mul [Operand.integer 2, Operand.integer 3, Operand.integer 4]
      = Except.ok (Operand.integer 24) :=
  have h := fold_integer_constants no_evaluator [2, 3, 4] (by decide) (by
    intro v hv
    simp only [List.mem_cons, List.mem_singleton, List.not_mem_nil, or_false] at hv
    rcases hv with rfl | rfl | rfl <;> decide)
  ⟨h.2.2.1 (by decide) (by decide), h.2.2.2 (by decide) (by decide)⟩

/-- The product of `2 ^ 32` and `2 ^ 32` folds to `0`, and `2 ^ 63 - 1` plus `1` folds to
`-(2 ^ 63)`: the value of `fold` is not the product or the sum of the list. -/
theorem fold_wraps_around :
    (∀ ev : Evaluator,
      fold ev op_mul [Operand.integer (2 ^ 32), Operand.integer (2 ^ 32)]
        = Except.ok (Operand.integer 0)) ∧
    ([2 ^ 32, 2 ^ 32] : List Int).prod = 2 ^ 64 ∧
    (∀ ev : Evaluator,
      fold ev op_add [Operand.integer (2 ^ 63 - 1), Operand.integer 1]
        = Except.ok (Operand.integer (-(2 ^ 63)))) ∧
    ([2 ^ 63 - 1, 1] : List Int).sum = 2 ^ 63 := by
  refine ⟨fun ev => ?_, by decide, fun ev => ?_, by decide⟩
  · have h := fold_integers ev op_mul (Or.inr rfl) [2 ^ 32, 2 ^ 32] (by simp) (by
      intro v hv
      simp only [List.mem_cons, List.mem_singleton, List.not_mem_nil, or_false] at hv
      rcases hv with rfl | rfl <;> decide)
    simpa using h
  · have h := fold_integers ev op_add (Or.inl rfl) [2 ^ 63 - 1, 1] (by simp) (by
      intro v hv
      simp only [List.mem_cons, List.mem_singleton, List.not_mem_nil, or_false] at hv
      rcases hv with rfl | rfl <;> decide)
    simpa using h

/-! ## The additive-level matcher -/

theorem erase_first_none (base : Operand) :
    ∀ items : List Operand, (∀ it ∈ items, cmp base it = Except.ok false) →
      erase_first base items = Except.ok none
  | [], _ => rfl
  | it :: rest, h => by
    simp only [erase_first, h it (by simp), erase_first_none base rest
      (fun x hx => h x (by simp [hx])), bind, Except.bind]
    rfl

theorem erase_first_found (base x : Operand) (post : List Operand)
    (hx : cmp base x = Except.ok true) :
    ∀ pre : List Operand, (∀ it ∈ pre, cmp base it = Except.ok false) →
      erase_first base (pre ++ x :: post) = Except.ok (some (pre ++ post))
  | [], _ => by
    simp only [List.nil_append, erase_first, hx, bind, Except.bind]
    rfl
  | it :: rest, h => by
    have ih := erase_first_found base x post hx rest (fun y hy => h y (by simp [hy]))
    show erase_first base (it :: (rest ++ x :: post)) = _
    simp only [erase_first, h it (by simp), ih, bind, Except.bind]
    rfl

theorem erase_first_none_inv (base : Operand) :
    ∀ items : List Operand, erase_first base items = Except.ok none →
      ∀ it ∈ items, cmp base it = Except.ok false
  | [], _ => by intro it hit; simp at hit
  | it :: rest, h => by
    simp only [erase_first] at h
    cases hc : cmp base it with
    | error e => simp [hc, bind, Except.bind] at h
    | ok b =>
      cases b with
      | true => simp [hc, bind, Except.bind] at h
      | false =>
        simp only [hc, bind, Except.bind, Bool.false_eq_true, if_false] at h
        have hrest : erase_first base rest = Except.ok none := by
          cases hr : erase_first base rest with
          | error e => simp [hr] at h
          | ok o =>
            cases o with
            | none => rfl
            | some its => simp [hr] at h
        intro y hy
        rcases List.mem_cons.mp hy with rfl | hy
        · exact hc
        · exact erase_first_none_inv base rest hrest y hy

theorem erase_first_some_inv (base : Operand) :
    ∀ (items remainder : List Operand), erase_first base items = Except.ok (some remainder) →
      ∃ pre x post, items = pre ++ x :: post ∧ (∀ it ∈ pre, cmp base it = Except.ok false) ∧
        cmp base x = Except.ok true ∧ remainder = pre ++ post
  | [], remainder, h => by simp [erase_first] at h
  | it :: rest, remainder, h => by
    simp only [erase_first] at h
    cases hc : cmp base it with
    | error e => simp [hc, bind, Except.bind] at h
    | ok b =>
      cases b with
      | true =>
        simp only [hc, bind, Except.bind, if_true, Except.ok.injEq, Option.some.injEq] at h
        exact ⟨[], it, rest, rfl, by simp, hc, by simp [h]⟩
      | false =>
        simp only [hc, bind, Except.bind, Bool.false_eq_true, if_false] at h
        cases hr : erase_first base rest with
        | error e => simp [hr] at h
        | ok o =>
          cases o with
          | none => simp [hr] at h
          | some its =>
            simp only [hr, Except.ok.injEq, Option.some.injEq] at h
            obtain ⟨pre, x, post, h1, h2, h3, h4⟩ := erase_first_some_inv base rest its hr
            refine ⟨it :: pre, x, post, by simp [h1], ?_, h3, by simp [← h, h4]⟩
            intro y hy
            rcases List.mem_cons.mp hy with rfl | hy
            · exact hc
            · exact h2 y hy

theorem opftn_not_blank (ev : Evaluator)
    (hev : ∀ (op : Operation) (a b r : Operand), ev op a b = Except.ok r → r.is_blank = false)
    (op : Operation) (a b r : Operand) (h : opftn ev op a b = Except.ok r) :
    r.is_blank = false := by
  unfold opftn at h
  split at h
  · split at h
    · cases h; rfl
    · split at h
      · cases h; rfl
      · split at h
        · cases h; rfl
        · exact hev op _ _ r h
  · exact hev op _ _ r h

theorem fold_round_not_blank (ev : Evaluator)
    (hev : ∀ (op : Operation) (a b r : Operand), ev op a b = Except.ok r → r.is_blank = false)
    (op : Operation) :
    ∀ (l next : List Operand), (∀ c ∈ l, c.is_blank = false) →
      fold_round ev op l = Except.ok next → ∀ c ∈ next, c.is_blank = false
  | [], next, _, h => by
    simp only [fold_round, Except.ok.injEq] at h
    subst h
    intro c hc
    simp at hc
  | [a], next, hl, h => by
    simp only [fold_round, Except.ok.injEq] at h
    subst h
    exact hl
  | a :: b :: rest, next, hl, h => by
    have hrest : ∀ c ∈ rest, c.is_blank = false := fun c hc => hl c (by simp [hc])
    have fin : ∀ res : Operand, res.is_blank = false →
        (fold_round ev op rest >>= fun nx => Except.ok (res :: nx)) = Except.ok next →
        ∀ c ∈ next, c.is_blank = false := by
      intro res hres h2
      obtain ⟨nx, hnx, h2⟩ := bind_ok _ _ _ h2
      simp only [Except.ok.injEq] at h2
      subst h2
      intro c hc
      rcases List.mem_cons.mp hc with rfl | hc
      · exact hres
      · exact fold_round_not_blank ev hev op rest nx hrest hnx c hc
    simp only [fold_round] at h
    split at h
    · obtain ⟨res, hres, h⟩ := bind_ok _ _ _ h
      exact fin res (opftn_not_blank ev hev op a b res hres) h
    · obtain ⟨res, hres, h⟩ := bind_ok _ _ _ h
      cases hres
      exact fin (Operand.grouping (some op) a b) rfl h

theorem fold_not_blank (ev : Evaluator)
    (hev : ∀ (op : Operation) (a b r : Operand), ev op a b = Except.ok r → r.is_blank = false)
    (op : Operation) (l : List Operand) (r : Operand) (hl : ∀ c ∈ l, c.is_blank = false)
    (h : fold ev op l = Except.ok r) : r.is_blank = false := by
  have loop : ∀ (fuel : Nat) (l : List Operand) (r : Operand),
      (∀ c ∈ l, c.is_blank = false) → fold_loop ev op fuel l = Except.ok r →
      r.is_blank = false := by
    intro fuel
    induction fuel with
    | zero =>
      intro l r hl h
      match l, hl, h with
      | [], _, h => simp [fold_loop] at h
      | [a], hl, h =>
        simp only [fold_loop, Except.ok.injEq] at h
        subst h
        exact hl a (by simp)
      | a :: b :: rest, _, h => simp [fold_loop] at h
    | succ fuel ih =>
      intro l r hl h
      match l, hl, h with
      | [], _, h => simp [fold_loop] at h
      | [a], hl, h =>
        simp only [fold_loop, Except.ok.injEq] at h
        subst h
        exact hl a (by simp)
      | a :: b :: rest, hl, h =>
        simp only [fold_loop] at h
        obtain ⟨nx, hnx, h⟩ := bind_ok _ _ _ h
        exact ih nx r (fold_round_not_blank ev hev op _ nx hl hnx) h
  unfold fold at h
  split at h
  · simp at h
  · split at h
    · exact loop _ _ r hl h
    · simp at h

theorem unfold_item_not_blank (focus : Operation) (ci : Option CommutativeInverse)
    (c : Operand) (h : unfold_item focus ci c = true) : c.is_blank = false := by
  cases c <;> first | rfl | simp [unfold_item] at h

/-- C23: on a target that is a grouping, with `items` the list `unfold(mul, target)`, the
additive-level matcher returns a blank when no item is structurally equal to the base;
when `x` is the first item structurally equal to the base it removes `x` and returns
`1` for an empty remainder, the sole item of a one-item remainder, and
`fold(mul, remainder)` otherwise; and it returns a blank only when no item is
structurally equal to the base, a non-blank factor only when some item is. -/
theorem additive_match_on_groupings (ev : Evaluator) (fuel : Nat) (base target : Operand)
    (items : List Operand) (ht : target.is_binary_grouping = true)
    (hu : unfold fuel op_mul target = Except.ok items) :
    ((∀ it ∈ items, cmp base it = Except.ok false) →
      additive_constant_factor_match ev fuel op_mul base target = Except.ok Operand.blank) ∧
    (∀ (pre : List Operand) (x : Operand) (post : List Operand), items = pre ++ x :: post →
      (∀ it ∈ pre, cmp base it = Except.ok false) → cmp base x = Except.ok true →
      additive_constant_factor_match ev fuel op_mul base target
        = (match pre ++ post with
           | [] => Except.ok (Operand.integer 1)
           | [item] => Except.ok item
           | remainder => fold ev op_mul remainder) ∧
      ∀ item : Operand, pre ++ post = [item] → item.is_blank = false) ∧
    (∀ r : Operand, additive_constant_factor_match ev fuel op_mul base target = Except.ok r →
      (r.is_blank = false → ∃ it ∈ items, cmp base it = Except.ok true) ∧
      ((∀ (op : Operation) (a b v : Operand), ev op a b = Except.ok v → v.is_blank = false) →
        r.is_blank = true → ∀ it ∈ items, cmp base it = Except.ok false)) := by
  have hid : (op_mul.id == op_mul.id) = true := rfl
  have hnb : ∀ c ∈ items, c.is_blank = false := fun c hc =>
    unfold_item_not_blank _ _ c (unfold_items op_mul target fuel items hu c hc)
  have shape : additive_constant_factor_match ev fuel op_mul base target
      = (erase_first base items >>= fun found =>
          match found with
          | none => Except.ok Operand.blank
          | some [] => Except.ok (Operand.integer 1)
          | some [item] => Except.ok item
          | some remainder => fold ev op_mul remainder) := by
    simp only [additive_constant_factor_match, hid, if_true, ht, Bool.not_true,
      Bool.false_eq_true, if_false, hu, bind, Except.bind]
  refine ⟨?_, ?_, ?_⟩
  · intro hall
    rw [shape, erase_first_none base items hall]
    rfl
  · intro pre x post hitems hpre hx
    constructor
    · rw [shape, hitems, erase_first_found base x post hx pre hpre]
      cases hrem : pre ++ post with
      | nil => rfl
      | cons a rest =>
        cases rest with
        | nil => rfl
        | cons b rest2 => rfl
    · intro item hitem
      apply hnb
      rw [hitems]
      have : item ∈ pre ++ post := by rw [hitem]; simp
      rcases List.mem_append.mp this with h | h
      · exact List.mem_append.mpr (Or.inl h)
      · exact List.mem_append.mpr (Or.inr (List.mem_cons_of_mem _ h))
  · intro r hr
    rw [shape] at hr
    cases he : erase_first base items with
    | error e => simp [he, bind, Except.bind] at hr
    | ok found =>
      cases found with
      | none =>
        simp only [he, bind, Except.bind, Except.ok.injEq] at hr
        subst hr
        exact ⟨fun h => by simp [Operand.is_blank] at h,
          fun _ _ => erase_first_none_inv base items he⟩
      | some remainder =>
        obtain ⟨pre, x, post, h1, h2, h3, h4⟩ := erase_first_some_inv base items remainder he
        refine ⟨fun _ => ⟨x, by rw [h1]; simp, h3⟩, ?_⟩
        intro hev hb
        exfalso
        have hrem : ∀ c ∈ remainder, c.is_blank = false := by
          intro c hc
          apply hnb
          rw [h1]
          rw [h4] at hc
          rcases List.mem_append.mp hc with h | h
          · exact List.mem_append.mpr (Or.inl h)
          · exact List.mem_append.mpr (Or.inr (List.mem_cons_of_mem _ h))
        simp only [he, bind, Except.bind] at hr
        match remainder, hrem, hr with
        | [], _, hr =>
          simp only [Except.ok.injEq] at hr
          subst hr
          simp [Operand.is_blank] at hb
        | [item], hrem, hr =>
          simp only [Except.ok.injEq] at hr
          subst hr
          rw [hrem _ (by simp)] at hb
          cases hb
        | a :: b :: rest, hrem, hr =>
          simp only at hr
          rw [fold_not_blank ev hev op_mul _ r hrem hr] at hb
          cases hb

theorem additive_match_on_groupings_witness :
    unfold 3 op_mul (Operand.grouping (some op_mul) (Operand.var "x") (Operand.integer 2))
      = Except.ok [Operand.integer 2, Operand.var "x"] ∧
    cmp (Operand.var "x") (Operand.integer 2) = Except.ok false ∧
    cmp (Operand.var "x") (Operand.var "x") = Except.ok true ∧
    additive_constant_factor_match no_evaluator 3 op_mul (Operand.var "x")
      (Operand.grouping (some op_mul) (Operand.var "x") (Operand.integer 2))
      = Except.ok (Operand.integer 2) :=
  ⟨rfl, rfl, rfl,
    ((additive_match_on_groupings no_evaluator 3 (Operand.var "x")
      (Operand.grouping (some op_mul) (Operand.var "x") (Operand.integer 2))
      [Operand.integer 2, Operand.var "x"] rfl rfl).2.1
      [Operand.integer 2] (Operand.var "x") [] rfl
      (by
        intro it h
        simp only [List.mem_singleton] at h
        subst h
        rfl)
      rfl).1⟩

theorem multiplicative_match_shape (S : Simplifier) (base target : Operand)
    (sctx : simplification_context) :
    multiplicative_constant_factor_match S op_exp base target sctx
      = (cmp (base_of base).1 (base_of target).1 >>= fun same =>
          if !same then Except.ok (Operand.blank, sctx)
          else exponent_match (base_of base).2 (base_of target).2 >>= fun exp =>
            if exp.is_blank then Except.ok (Operand.blank, sctx) else S exp sctx) := by
  have hid : (op_exp.id == op_exp.id) = true := rfl
  simp only [multiplicative_constant_factor_match, hid, if_true]

/-- C26: matching the base `b ^ 0` against the target `b ^ k` makes the
multiplicative-level matcher compute the remainder of `k` by `0`: for every operand `b`
that is structurally equal to itself and every `k` the call ends in the fatal fault of a
division by zero instead of "no match", and `simplify` of `x ^ 3 * x ^ 0` ends the same
way. -/
theorem zero_exponent_divides_by_zero :
    (∀ (S : Simplifier) (b : Operand) (k : Int) (sctx : simplification_context),
      cmp b b = Except.ok true →
      multiplicative_constant_factor_match S op_exp
        (Operand.grouping (some op_exp) b (Operand.integer 0))
        (Operand.grouping (some op_exp) b (Operand.integer k)) sctx
        = Except.error Fault.fatal) ∧
    cmp (Operand.var "x") (Operand.var "x") = Except.ok true ∧
    (∀ (ev : Evaluator) (n : Nat),
      simplify_top ev (n + 6)
        (Operand.grouping (some op_mul)
          (Operand.grouping (some op_exp) (Operand.var "x") (Operand.integer 3))
          (Operand.grouping (some op_exp) (Operand.var "x") (Operand.integer 0)))
        = Except.error Fault.fatal) := by
  refine ⟨?_, rfl, fun _ _ => rfl⟩
  intro S b k sctx hb
  rw [multiplicative_match_shape]
  have e1 : base_of (Operand.grouping (some op_exp) b (Operand.integer 0))
      = (b, Operand.integer 0) := rfl
  have e2 : base_of (Operand.grouping (some op_exp) b (Operand.integer k))
      = (b, Operand.integer k) := rfl
  rw [e1, e2]
  simp only [hb, bind, Except.bind]
  rfl

/-! ## The term gatherer -/

theorem cached_result_eq_find (hash_bg : ExpressionHash) :
    ∀ results : List Operand, (∀ opd ∈ results, ∃ t, hash opd = Except.ok t) →
      cached_result hash_bg results = Except.ok (results.find? (at_distance_zero hash_bg))
  | [], _ => rfl
  | opd :: rest, h => by
    obtain ⟨t, ht⟩ := h opd (by simp)
    have ih := cached_result_eq_find hash_bg rest (fun o ho => h o (by simp [ho]))
    by_cases hd : (cmp_hash hash_bg t == 0) = true
    · simp [cached_result, ht, hd, at_distance_zero, bind, Except.bind]
    · simp [cached_result, ht, hd, at_distance_zero, bind, Except.bind, ih]

theorem cache_lookup_eq_reference (hash_bg : ExpressionHash) (sctx : simplification_context)
    (index : Nat) (entry : ExpressionHash × List Operand)
    (hf : sctx.find hash_bg = some index) (hg : sctx.cache.get? index = some entry)
    (hh : ∀ opd ∈ entry.2, ∃ t, hash opd = Except.ok t) (hne : entry.2 ≠ []) :
    ∃ chosen, lookup_reference hash_bg entry.2 = some chosen ∧
      cache_lookup hash_bg sctx = Except.ok (some chosen) := by
  have hc := cached_result_eq_find hash_bg entry.2 hh
  cases hfind : entry.2.find? (at_distance_zero hash_bg) with
  | some opd =>
    refine ⟨opd, by simp [lookup_reference, hfind], ?_⟩
    rw [hfind] at hc
    simp only [cache_lookup, hf, hg, hc]
  | none =>
    rw [hfind] at hc
    cases hl : entry.2 with
    | nil => exact absurd hl hne
    | cons first rest =>
      refine ⟨first, ?_, ?_⟩
      · rw [hl] at hfind
        simp only [lookup_reference, hfind, List.head?]
      · rw [hl] at hc
        simp only [cache_lookup, hf, hg, hl, hc]

/-- C29, as amended: for a non-degenerate grouping `g` and a cache that has a non-empty
bucket of hashable operands under `hash(g)`, `simplify(g)` returns the first entry of the
bucket whose hash is at distance `0` from `hash(g)` if there is one, otherwise the first
entry of the bucket; it rewrites nothing more and leaves the cache unchanged. -/
theorem simplify_returns_cached (ev : Evaluator) (n : Nat) (op : Operation) (a b : Operand)
    (sctx : simplification_context) (hash_bg : ExpressionHash) (index : Nat)
    (entry : ExpressionHash × List Operand)
    (hb : hash (Operand.grouping (some op) a b) = Except.ok hash_bg)
    (hf : sctx.find hash_bg = some index) (hg : sctx.cache.get? index = some entry)
    (hh : ∀ opd ∈ entry.2, ∃ t, hash opd = Except.ok t) (hne : entry.2 ≠ []) :
    (∃ chosen, lookup_reference hash_bg entry.2 = some chosen) ∧
    ∀ chosen : Operand, lookup_reference hash_bg entry.2 = some chosen →
      simplify ev (n + 1) (Operand.grouping (some op) a b) sctx = Except.ok (chosen, sctx) := by
  obtain ⟨chosen, h1, h2⟩ := cache_lookup_eq_reference hash_bg sctx index entry hf hg hh hne
  refine ⟨⟨chosen, h1⟩, ?_⟩
  intro other ho
  rw [h1] at ho
  cases ho
  simp only [simplify_succ, simplify_operand, simplify_grouping, hb, h2, bind, Except.bind]

theorem simplify_returns_cached_witness :
    cmp_hash [0, 120, 121] [0, 121, 120] = 2 ∧
    simplify no_evaluator 1 (Operand.grouping (some op_add) (Operand.var "x") (Operand.var "y"))
      ⟨[([0, 120, 121], [Operand.grouping (some op_add) (Operand.var "y") (Operand.var "x")])]⟩
      = Except.ok (Operand.grouping (some op_add) (Operand.var "y") (Operand.var "x"),
          ⟨[([0, 120, 121],
            [Operand.grouping (some op_add) (Operand.var "y") (Operand.var "x")])]⟩) :=
  ⟨by decide,
    (simplify_returns_cached no_evaluator 0 op_add (Operand.var "x") (Operand.var "y")
      ⟨[([0, 120, 121], [Operand.grouping (some op_add) (Operand.var "y") (Operand.var "x")])]⟩
      [0, 120, 121] 0
      ([0, 120, 121], [Operand.grouping (some op_add) (Operand.var "y") (Operand.var "x")])
      rfl rfl rfl
      (by
        intro opd h
        simp only [List.mem_singleton] at h
        subst h
        exact ⟨[0, 121, 120], rfl⟩)
      (by simp)).2 _ rfl⟩

/-- The bucket under the hash of `x - 120` holds `120 - x` and then `x - 120`: the lookup
returns `120 - x`, whose hash is at distance `0`, not the entry `x - 120` that is
structurally equal to the grouping. -/
theorem lookup_prefers_equal_hash :
    hash (Operand.grouping (some op_sub) (Operand.var "x") (Operand.integer 120))
      = Except.ok [1, 120, 120] ∧
    hash (Operand.grouping (some op_sub) (Operand.integer 120) (Operand.var "x"))
      = Except.ok [1, 120, 120] ∧
    cmp (Operand.grouping (some op_sub) (Operand.var "x") (Operand.integer 120))
      (Operand.grouping (some op_sub) (Operand.integer 120) (Operand.var "x"))
      = Except.ok false ∧
    cmp (Operand.grouping (some op_sub) (Operand.var "x") (Operand.integer 120))
      (Operand.grouping (some op_sub) (Operand.var "x") (Operand.integer 120))
      = Except.ok true ∧
    (∀ (ev : Evaluator) (n : Nat),
      simplify ev (n + 1) (Operand.grouping (some op_sub) (Operand.var "x") (Operand.integer 120))
        ⟨[([1, 120, 120],
          [Operand.grouping (some op_sub) (Operand.integer 120) (Operand.var "x"),
            Operand.grouping (some op_sub) (Operand.var "x") (Operand.integer 120)])]⟩
        = Except.ok
            (Operand.grouping (some op_sub) (Operand.integer 120) (Operand.var "x"),
              ⟨[([1, 120, 120],
                [Operand.grouping (some op_sub) (Operand.integer 120) (Operand.var "x"),
                  Operand.grouping (some op_sub) (Operand.var "x") (Operand.integer 120)])]⟩)) :=
  ⟨rfl, rfl, rfl, rfl, fun _ _ => rfl⟩

/-! ## Growth of the cache -/

theorem cache_grows_refl (c : simplification_context) : cache_grows c c :=
  fun _ entry h => ⟨entry, h, rfl, List.prefix_refl _⟩

theorem cache_grows_trans (a b c : simplification_context) (h1 : cache_grows a b)
    (h2 : cache_grows b c) : cache_grows a c := by
  intro i entry h
  obtain ⟨e1, g1, k1, p1⟩ := h1 i entry h
  obtain ⟨e2, g2, k2, p2⟩ := h2 i e1 g1
  exact ⟨e2, g2, k2.trans k1, p1.trans p2⟩

theorem cache_grows_append (c : simplification_context)
    (extra : List (ExpressionHash × List Operand)) : cache_grows c ⟨c.cache ++ extra⟩ := by
  intro i entry h
  refine ⟨entry, ?_, rfl, List.prefix_refl _⟩
  have hi : i < c.cache.length := by
    by_contra hn
    rw [List.get?_eq_none.mpr (by omega)] at h
    cases h
  show (c.cache ++ extra).get? i = some entry
  rw [List.get?_eq_getElem?] at h ⊢
  rw [List.getElem?_append_left hi]
  exact h

theorem push_at_grows (opd : Operand) :
    ∀ (cache : List (ExpressionHash × List Operand)) (index i : Nat)
      (entry : ExpressionHash × List Operand), cache.get? i = some entry →
      ∃ later, (push_at opd cache index).get? i = some later ∧ later.1 = entry.1 ∧
        entry.2 <+: later.2
  | [], _, _, _, h => by simp at h
  | e :: rest, 0, 0, entry, h => by
    simp only [List.get?_cons_zero, Option.some.injEq] at h
    subst h
    exact ⟨(e.1, e.2 ++ [opd]), rfl, rfl, List.prefix_append _ _⟩
  | e :: rest, 0, i + 1, entry, h => ⟨entry, h, rfl, List.prefix_refl _⟩
  | e :: rest, index + 1, 0, entry, h => ⟨entry, h, rfl, List.prefix_refl _⟩
  | e :: rest, index + 1, i + 1, entry, h => by
    simp only [List.get?_cons_succ] at h
    exact push_at_grows opd rest index i entry h

theorem cache_grows_insert (c : simplification_context) (hash : ExpressionHash)
    (opd : Operand) : cache_grows c (c.insert hash opd) := by
  unfold simplification_context.insert
  split
  · exact cache_grows_append c _
  · exact fun i entry h => push_at_grows opd c.cache _ i entry h

theorem multiplicative_match_grows (S : Simplifier) (hS : simplifier_grows S)
    (prop : Operation) (base target : Operand) (sctx : simplification_context)
    (r : Operand × simplification_context)
    (h : multiplicative_constant_factor_match S prop base target sctx = Except.ok r) :
    cache_grows sctx r.2 := by
  unfold multiplicative_constant_factor_match at h
  split at h
  · obtain ⟨b, _, h⟩ := bind_ok _ _ _ h
    cases b with
    | false =>
      simp only [Bool.not_false, if_true, Except.ok.injEq] at h
      subst h
      exact cache_grows_refl sctx
    | true =>
      simp only [Bool.not_true, Bool.false_eq_true, if_false] at h
      obtain ⟨exp, _, h⟩ := bind_ok _ _ _ h
      split at h
      · cases h
        exact cache_grows_refl sctx
      · exact hS exp sctx r h
  · simp at h

theorem constant_factor_match_grows (ev : Evaluator) (fuel : Nat) (S : Simplifier)
    (hS : simplifier_grows S) (prop : Operation) (base target : Operand)
    (sctx : simplification_context) (r : Operand × simplification_context)
    (h : constant_factor_match ev fuel S prop base target sctx = Except.ok r) :
    cache_grows sctx r.2 := by
  unfold constant_factor_match at h
  split at h
  · obtain ⟨f, _, h⟩ := bind_ok _ _ _ h
    cases h
    exact cache_grows_refl sctx
  · split at h
    · exact multiplicative_match_grows S hS prop base target sctx r h
    · cases h
      exact cache_grows_refl sctx

theorem gather_scan_grows (ev : Evaluator) (fuel : Nat) (S : Simplifier)
    (hS : simplifier_grows S) (prop : Operation) (base : Operand) :
    ∀ (items : List Operand) (ticked : List Bool) (acc : Operand)
      (sctx : simplification_context) (r : Operand × List Bool × simplification_context),
      gather_scan ev fuel S prop base items ticked acc sctx = Except.ok r →
      cache_grows sctx r.2.2
  | [], ticked, acc, sctx, r, h => by
    simp only [gather_scan, Except.ok.injEq] at h
    subst h
    exact cache_grows_refl sctx
  | item :: rest, ticked, acc, sctx, r, h => by
    simp only [gather_scan] at h
    obtain ⟨fm, hfm, h⟩ := bind_ok _ _ _ h
    have g1 := constant_factor_match_grows ev fuel S hS prop base item sctx fm hfm
    split at h
    · obtain ⟨r2, hr2, h⟩ := bind_ok _ _ _ h
      simp only [Except.ok.injEq] at h
      subst h
      exact cache_grows_trans _ _ _ g1
        (gather_scan_grows ev fuel S hS prop base rest _ acc fm.2 r2 hr2)
    · obtain ⟨acc1, _, h⟩ := bind_ok _ _ _ h
      obtain ⟨r2, hr2, h⟩ := bind_ok _ _ _ h
      simp only [Except.ok.injEq] at h
      subst h
      exact cache_grows_trans _ _ _ g1
        (gather_scan_grows ev fuel S hS prop base rest _ acc1 fm.2 r2 hr2)

theorem gather_sweep_grows (ev : Evaluator) (fuel : Nat) (S : Simplifier)
    (hS : simplifier_grows S) (prop : Operation) :
    ∀ (items : List Operand) (ticked : List Bool) (sctx : simplification_context)
      (r : List Operand × simplification_context),
      gather_sweep ev fuel S prop items ticked sctx = Except.ok r → cache_grows sctx r.2
  | [], ticked, sctx, r, h => by
    simp only [gather_sweep, Except.ok.injEq] at h
    subst h
    exact cache_grows_refl sctx
  | item :: rest, ticked, sctx, r, h => by
    simp only [gather_sweep] at h
    split at h
    · obtain ⟨r2, hr2, h⟩ := bind_ok _ _ _ h
      simp only [Except.ok.injEq] at h
      subst h
      exact gather_sweep_grows ev fuel S hS prop rest _ sctx r2 hr2
    · obtain ⟨sc, hsc, h⟩ := bind_ok _ _ _ h
      obtain ⟨r2, hr2, h⟩ := bind_ok _ _ _ h
      simp only [Except.ok.injEq] at h
      subst h
      exact cache_grows_trans _ _ _
        (gather_scan_grows ev fuel S hS prop item rest _ _ sctx sc hsc)
        (gather_sweep_grows ev fuel S hS prop rest _ sc.2.2 r2 hr2)

theorem simplification_gather_grows (ev : Evaluator) (fuel : Nat) (S : Simplifier)
    (hS : simplifier_grows S) (focus : Operation) (unordered_items : List Operand)
    (sctx : simplification_context) (r : List Operand × simplification_context)
    (h : simplification_gather ev fuel S focus unordered_items sctx = Except.ok r) :
    cache_grows sctx r.2 := by
  unfold simplification_gather at h
  split at h
  · simp at h
  · obtain ⟨hashed, _, h⟩ := bind_ok _ _ _ h
    obtain ⟨prop, _, h⟩ := bind_ok _ _ _ h
    obtain ⟨sw, hsw, h⟩ := bind_ok _ _ _ h
    have g := gather_sweep_grows ev fuel S hS prop _ [] sctx sw hsw
    dsimp only at h
    split at h
    · obtain ⟨e, _, h⟩ := bind_ok _ _ _ h
      simp only [Except.ok.injEq] at h
      subst h
      exact g
    · simp only [Except.ok.injEq] at h
      subst h
      exact g

theorem fold_constants_grows (ev : Evaluator) (S : Simplifier) (hS : simplifier_grows S)
    (focus : Operation) :
    ∀ (l : List Operand) (constant : Operand) (sctx : simplification_context)
      (r : Operand × simplification_context),
      fold_constants ev S focus l constant sctx = Except.ok r → cache_grows sctx r.2
  | [], constant, sctx, r, h => by
    simp only [fold_constants, Except.ok.injEq] at h
    subst h
    exact cache_grows_refl sctx
  | c :: rest, constant, sctx, r, h => by
    simp only [fold_constants] at h
    obtain ⟨r1, hr1, h⟩ := bind_ok _ _ _ h
    split at h
    · obtain ⟨k1, _, h⟩ := bind_ok _ _ _ h
      exact cache_grows_trans _ _ _ (hS c sctx r1 hr1)
        (fold_constants_grows ev S hS focus rest k1 r1.2 r h)
    · simp at h

theorem simplification_fold_grows (ev : Evaluator) (fuel : Nat) (S : Simplifier)
    (hS : simplifier_grows S) (focus : Operation) (bg : Operand)
    (sctx : simplification_context) (r : Operand × simplification_context)
    (h : simplification_fold ev fuel S focus bg sctx = Except.ok r) :
    cache_grows sctx r.2 := by
  unfold simplification_fold at h
  split at h
  · obtain ⟨items, _, h⟩ := bind_ok _ _ _ h
    dsimp only at h
    obtain ⟨u, hu, h⟩ := bind_ok _ _ _ h
    have hu2 : cache_grows sctx u.2.2 := by
      split at hu
      · cases hu
        exact cache_grows_refl sctx
      · rename_i opd heq
        obtain ⟨r1, hr1, hu⟩ := bind_ok _ _ _ hu
        cases hu
        exact hS opd sctx r1 hr1
      · obtain ⟨g, hg, hu⟩ := bind_ok _ _ _ hu
        obtain ⟨folded, _, hu⟩ := bind_ok _ _ _ hu
        have hgw := simplification_gather_grows ev fuel S hS focus _ sctx g hg
        split at hu <;> cases hu <;> exact hgw
    obtain ⟨c, hcc, h⟩ := bind_ok _ _ _ h
    have hc2 : cache_grows u.2.2 c.2 := by
      split at hcc
      · cases hcc
        exact cache_grows_refl _
      · rename_i c0 rest heq
        obtain ⟨r1, hr1, hcc⟩ := bind_ok _ _ _ hcc
        split at hcc
        · exact cache_grows_trans _ _ _ (hS c0 u.2.2 r1 hr1)
            (fold_constants_grows ev S hS focus rest r1.1 r1.2 c hcc)
        · simp at hcc
    have hall := cache_grows_trans _ _ _ hu2 hc2
    split at h
    · simp at h
    · split at h
      · cases h; exact hall
      · split at h <;> cases h <;> exact hall
  · simp at h

theorem simplification_aggressive_grows (S : Simplifier) (hS : simplifier_grows S)
    (op : Operation) (a b : Operand) (sctx : simplification_context)
    (r : Operand × simplification_context)
    (h : simplification_aggressive S op a b sctx = Except.ok r) : cache_grows sctx r.2 := by
  unfold simplification_aggressive at h
  split at h
  · rename_i nop na nb heq
    dsimp only at h
    split at h
    · obtain ⟨ra, hra, h⟩ := bind_ok _ _ _ h
      have h1 := hS na sctx ra hra
      split at h
      · obtain ⟨rb, hrb, h⟩ := bind_ok _ _ _ h
        cases h
        exact cache_grows_trans _ _ _ h1 (hS nb ra.2 rb hrb)
      · obtain ⟨rb, hrb, h⟩ := bind_ok _ _ _ h
        cases hrb
        cases h
        exact h1
    · obtain ⟨ra, hra, h⟩ := bind_ok _ _ _ h
      cases hra
      split at h
      · obtain ⟨rb, hrb, h⟩ := bind_ok _ _ _ h
        cases h
        exact hS nb sctx rb hrb
      · obtain ⟨rb, hrb, h⟩ := bind_ok _ _ _ h
        cases hrb
        cases h
        exact cache_grows_refl sctx
  · cases h
    exact cache_grows_refl sctx

theorem simplify_branches_grows (ev : Evaluator) (fuel : Nat) (S : Simplifier)
    (hS : simplifier_grows S) (focus op : Operation) (a b : Operand)
    (sctx : simplification_context) :
    (∀ r : Operand × simplification_context,
      simplify_branches ev fuel S focus op a b sctx = Except.ok (Sum.inl r) →
      cache_grows sctx r.2) ∧
    (∀ (oop : Operation) (x y : Operand) (sctx1 : simplification_context),
      simplify_branches ev fuel S focus op a b sctx = Except.ok (Sum.inr (oop, x, y, sctx1)) →
      cache_grows sctx sctx1) := by
  constructor
  · intro r h
    unfold simplify_branches at h
    split at h
    · obtain ⟨sf, hsf, h⟩ := bind_ok _ _ _ h
      have w := simplification_fold_grows ev fuel S hS focus _ sctx sf hsf
      split at h
      · obtain ⟨r1, hr1, h⟩ := bind_ok _ _ _ h
        cases h
        exact cache_grows_trans _ _ _ w (hS _ sf.2 _ hr1)
      · obtain ⟨ra, _, h⟩ := bind_ok _ _ _ h
        obtain ⟨rb, _, h⟩ := bind_ok _ _ _ h
        cases h
      · obtain ⟨r1, hr1, h⟩ := bind_ok _ _ _ h
        cases h
        exact cache_grows_trans _ _ _ w (hS _ sf.2 _ hr1)
    · obtain ⟨ra, _, h⟩ := bind_ok _ _ _ h
      obtain ⟨rb, _, h⟩ := bind_ok _ _ _ h
      cases h
  · intro oop x y sctx1 h
    unfold simplify_branches at h
    split at h
    · obtain ⟨sf, hsf, h⟩ := bind_ok _ _ _ h
      have w := simplification_fold_grows ev fuel S hS focus _ sctx sf hsf
      split at h
      · obtain ⟨r1, _, h⟩ := bind_ok _ _ _ h
        cases h
      · obtain ⟨ra, hra, h⟩ := bind_ok _ _ _ h
        obtain ⟨rb, hrb, h⟩ := bind_ok _ _ _ h
        cases h
        exact cache_grows_trans _ _ _ w
          (cache_grows_trans _ _ _ (hS _ sf.2 ra hra) (hS _ ra.2 rb hrb))
      · obtain ⟨r1, _, h⟩ := bind_ok _ _ _ h
        cases h
    · obtain ⟨ra, hra, h⟩ := bind_ok _ _ _ h
      obtain ⟨rb, hrb, h⟩ := bind_ok _ _ _ h
      cases h
      exact cache_grows_trans _ _ _ (hS a sctx ra hra) (hS b ra.2 rb hrb)

theorem resimplify_grows (S : Simplifier) (ihasha ihashb : ExpressionHash) (result : Operand)
    (sctx : simplification_context) (r : Operand × simplification_context)
    (h : resimplify S ihasha ihashb result sctx = Except.ok r) : cache_grows sctx r.2 := by
  unfold resimplify at h
  split at h
  · obtain ⟨fa, _, h⟩ := bind_ok _ _ _ h
    obtain ⟨fb, _, h⟩ := bind_ok _ _ _ h
    split at h
    · obtain ⟨hn, _, h⟩ := bind_ok _ _ _ h
      split at h
      · split at h
        · simp at h
        · obtain ⟨seen, _, h⟩ := bind_ok _ _ _ h
          split at h
          · cases h
            exact cache_grows_refl sctx
          · obtain ⟨r1, _, h⟩ := bind_ok _ _ _ h
            cases h
            exact cache_grows_refl sctx
      · obtain ⟨r1, _, h⟩ := bind_ok _ _ _ h
        cases h
        exact cache_grows_append sctx _
    · cases h
      exact cache_grows_refl sctx
  · cases h
    exact cache_grows_refl sctx

theorem simplify_grouping_grows (ev : Evaluator) (fuel : Nat) (S : Simplifier)
    (hS : simplifier_grows S) (op : Operation) (a b : Operand)
    (sctx : simplification_context) (r : Operand × simplification_context)
    (h : simplify_grouping ev fuel S op a b sctx = Except.ok r) : cache_grows sctx r.2 := by
  unfold simplify_grouping at h
  obtain ⟨hash_bg, _, h⟩ := bind_ok _ _ _ h
  obtain ⟨look, _, h⟩ := bind_ok _ _ _ h
  split at h
  · cases h
    exact cache_grows_refl sctx
  · dsimp only at h
    obtain ⟨ia, _, h⟩ := bind_ok _ _ _ h
    obtain ⟨ib, _, h⟩ := bind_ok _ _ _ h
    obtain ⟨br, hbr, h⟩ := bind_ok _ _ _ h
    obtain ⟨b1, b2⟩ := simplify_branches_grows ev fuel S hS
      ((find_base op commutative_inverses).getD op) op a b sctx
    split at h
    · cases h
      exact b1 _ hbr
    · rename_i oop x y sctx1
      have g1 := b2 oop x y sctx1 hbr
      split at h
      · obtain ⟨res, _, h⟩ := bind_ok _ _ _ h
        cases h
        exact g1
      · obtain ⟨ag, hag, h⟩ := bind_ok _ _ _ h
        have g2 := cache_grows_insert sctx1 hash_bg (Operand.grouping (some oop) x y)
        have g3 := simplification_aggressive_grows S hS oop x y _ ag hag
        have g4 := resimplify_grows S ia ib ag.1 ag.2 r h
        exact cache_grows_trans _ _ _ g1
          (cache_grows_trans _ _ _ g2 (cache_grows_trans _ _ _ g3 g4))

theorem simplify_grows (ev : Evaluator) : ∀ fuel : Nat, simplifier_grows (simplify ev fuel) := by
  intro fuel
  induction fuel with
  | zero =>
    intro e sctx r h
    simp [simplify] at h
  | succ fuel ih =>
    intro e sctx r h
    simp only [simplify, simplify_operand] at h
    cases e with
    | blank => cases h; exact cache_grows_refl sctx
    | integer i => cases h; exact cache_grows_refl sctx
    | real x => cases h; exact cache_grows_refl sctx
    | var v => cases h; exact cache_grows_refl sctx
    | grouping op a b =>
      cases op with
      | none => exact ih a sctx r h
      | some o => exact simplify_grouping_grows ev fuel _ ih o a b sctx r h

/-- C30: when `simplify` returns, on any operand and any cache, every bucket of the cache
before the call is still at its position under its key, with the results it held as a
prefix of the results it holds now; in particular every key present before is present
afterwards. -/
theorem cache_only_grows (ev : Evaluator) (fuel : Nat) (e : Operand)
    (sctx : simplification_context) (r : Operand × simplification_context)
    (h : simplify ev fuel e sctx = Except.ok r) :
    (∀ (i : Nat) (entry : ExpressionHash × List Operand), sctx.cache.get? i = some entry →
      ∃ later, r.2.cache.get? i = some later ∧ later.1 = entry.1 ∧ entry.2 <+: later.2) ∧
    (∀ entry ∈ sctx.cache, ∃ later ∈ r.2.cache, later.1 = entry.1 ∧ entry.2 <+: later.2) := by
  have g := simplify_grows ev fuel e sctx r h
  refine ⟨g, ?_⟩
  intro entry he
  obtain ⟨i, hi⟩ := List.mem_iff_get?.mp he
  obtain ⟨later, h1, h2, h3⟩ := g i entry hi
  exact ⟨later, List.get?_mem h1, h2, h3⟩

theorem cache_only_grows_witness :
    simplify no_evaluator 8 (Operand.grouping (some op_add) (Operand.var "x") (Operand.var "x"))
        ⟨[([7], [Operand.integer 1])]⟩
      = Except.ok
          (Operand.grouping (some op_mul) (Operand.var "x") (Operand.integer 2),
            ⟨[([7], [Operand.integer 1]),
              ([0, 120, 120],
                [Operand.grouping (some op_mul) (Operand.var "x") (Operand.integer 2)]),
              ([2, 120, 2],
                [Operand.grouping (some op_mul) (Operand.var "x") (Operand.integer 2)])]⟩) ∧
    ∀ entry ∈ [(([7] : ExpressionHash), [Operand.integer 1])],
      ∃ later ∈
        [(([7] : ExpressionHash), [Operand.integer 1]),
          ([0, 120, 120],
            [Operand.grouping (some op_mul) (Operand.var "x") (Operand.integer 2)]),
          ([2, 120, 2],
            [Operand.grouping (some op_mul) (Operand.var "x") (Operand.integer 2)])],
        later.1 = entry.1 ∧ entry.2 <+: later.2 :=
  have h : simplify no_evaluator 8
      (Operand.grouping (some op_add) (Operand.var "x") (Operand.var "x"))
        ⟨[([7], [Operand.integer 1])]⟩
      = Except.ok
          (Operand.grouping (some op_mul) (Operand.var "x") (Operand.integer 2),
            ⟨[([7], [Operand.integer 1]),
              ([0, 120, 120],
                [Operand.grouping (some op_mul) (Operand.var "x") (Operand.integer 2)]),
              ([2, 120, 2],
                [Operand.grouping (some op_mul) (Operand.var "x") (Operand.integer 2)])]⟩) := rfl
  ⟨h, (cache_only_grows no_evaluator 8
    (Operand.grouping (some op_add) (Operand.var "x") (Operand.var "x"))
    ⟨[([7], [Operand.integer 1])]⟩ _ h).2⟩

/-! ## Termination of unfold -/

/-- C39: the explicit-stack loop of `unfold` terminates.  For every tree `e`, every focus
and every registered inverse `ci` whose transform returns only inert operands (a leaf,
or a grouping over an operation that is neither the focus nor the inverse), the loop
started on `e` returns the finite list `flat focus ci e` for every step budget from
`unfold_cost focus ci e` on, whatever the budget is beyond that; with no inverse
registered the same holds with no assumption and `flat focus none e` is the ordinary
flattening; and for every commutative focus of the standard registry (whose transforms
`negate` and `reciprocal` are inert) `unfold` returns with such a budget. -/
theorem unfold_terminates (focus : Operation) (ci : Option CommutativeInverse)
    (hci : ∀ inv, ci = some inv → ∀ opd, inert focus inv.id (inv.transformation opd) = true)
    (e : Operand) :
    (∀ fuel, unfold_cost focus ci e ≤ fuel →
      unfold_loop focus ci fuel [⟨e, true⟩] [] = Except.ok (flat focus ci e)) ∧
    (∀ fuel, unfold_cost focus none e ≤ fuel →
      unfold_loop focus none fuel [⟨e, true⟩] [] = Except.ok (flat focus none e)) ∧
    (∀ op a b, flat focus none (Operand.grouping (some op) a b)
      = if op.id == focus.id then flat focus none b ++ flat focus none a
        else [Operand.grouping (some op) a b]) ∧
    (focus.commutative = true →
      ∀ fuel, unfold_cost focus (find_inverse focus.id commutative_inverses) e ≤ fuel →
        unfold fuel focus e
          = Except.ok (flat focus (find_inverse focus.id commutative_inverses) e)) ∧
    (∀ opd, inert op_add op_sub.id (negate opd) = true) ∧
    (∀ opd, inert op_mul op_div.id (reciprocal opd) = true) := by
  have key : ∀ (ci : Option CommutativeInverse),
      (∀ inv, ci = some inv → ∀ opd, inert focus inv.id (inv.transformation opd) = true) →
      ∀ fuel, unfold_cost focus ci e ≤ fuel →
        unfold_loop focus ci fuel [⟨e, true⟩] [] = Except.ok (flat focus ci e) := by
    intro ci hci fuel hfuel
    obtain ⟨k, rfl⟩ := Nat.exists_eq_add_of_le hfuel
    rw [Nat.add_comm, unfold_loop_flat focus ci hci e k [] [], unfold_loop_nil]
    simp
  refine ⟨key ci hci, key none (fun inv h => by cases h), ?_, ?_, inert_negate, inert_reciprocal⟩
  · intro op a b
    simp only [flat]
  · intro hc fuel hfuel
    exact unfold_eq_flat_registry focus e fuel hc hfuel

/-- Witness of C39: the focus add with the inverse sub and the transform `negate`, on the
tree `x - (y - 3)`, with a budget of `7` steps. -/
theorem unfold_terminates_witness :
    (∀ inv, some (⟨op_sub.id, negate⟩ : CommutativeInverse) = some inv →
      ∀ opd, inert op_add inv.id (inv.transformation opd) = true) ∧
    unfold_loop op_add (some ⟨op_sub.id, negate⟩) 7
        [⟨Operand.grouping (some op_sub) (Operand.var "x")
          (Operand.grouping (some op_sub) (Operand.var "y") (Operand.integer 3)), true⟩] []
      = Except.ok [Operand.grouping (some op_mul) (Operand.integer (-1))
          (Operand.grouping (some op_sub) (Operand.var "y") (Operand.integer 3)),
          Operand.var "x"] :=
  ⟨fun inv h opd => by cases h; exact inert_negate opd,
   (unfold_terminates op_add (some ⟨op_sub.id, negate⟩)
      (fun inv h opd => by cases h; exact inert_negate opd)
      (Operand.grouping (some op_sub) (Operand.var "x")
        (Operand.grouping (some op_sub) (Operand.var "y") (Operand.integer 3)))).1 7 (by decide)⟩

/-! ## The list handed from the gatherer to fold -/

theorem sort_insert_length (x : Operand × Nat) :
    ∀ l : List (Operand × Nat), (sort_insert x l).length = l.length + 1
  | [] => rfl
  | y :: ys => by
    simp only [sort_insert]
    split
    · rfl
    · simp [sort_insert_length x ys]

theorem sort_by_hash_length_length :
    ∀ l : List (Operand × Nat), (sort_by_hash_length l).length = l.length
  | [] => rfl
  | x :: xs => by
    simp [sort_by_hash_length, sort_insert_length, sort_by_hash_length_length xs]

theorem gather_emit_length (op : Operation) :
    ∀ (items gathered : List Operand), (gather_emit op items gathered).length ≤ items.length
  | [], _ => by simp [gather_emit]
  | _ :: _, [] => by simp [gather_emit]
  | item :: items, factor :: gathered => by
    have ih := gather_emit_length op items gathered
    simp only [gather_emit]
    split
    · simp only [List.length_cons]; omega
    · split <;> simp only [List.length_cons] <;> omega

/-- C38: `fold` is never reached with an empty list inside `simplify`.  Whatever the
evaluator, the recursion handle and the cache, a list returned by
`simplification_gather` is not empty and has at most as many elements as the input
(which was itself not empty), and the focus is commutative; so the call of `fold` that
follows does not take its fatal empty-list branch: it is the pairing loop on a
non-empty list, which returns a tree whenever the evaluator of constants does.  The
gatherer does return a list as soon as its input is not empty, its items can be
hashed, the focus is commutative and the sweep over the items returns: the emission
and the identity element never fail. -/
theorem gather_result_not_empty (ev : Evaluator) (fuel : Nat) (S : Simplifier)
    (focus : Operation) (unordered_items : List Operand) (sctx : simplification_context)
    (r : List Operand × simplification_context)
    (h : simplification_gather ev fuel S focus unordered_items sctx = Except.ok r) :
    r.1 ≠ [] ∧ r.1.length ≤ unordered_items.length ∧ unordered_items ≠ [] ∧
    focus.commutative = true ∧
    (∀ ev2, fold ev2 focus r.1 = fold_loop ev2 focus r.1.length r.1) ∧
    (∀ ev2, (∀ a b : Operand, a.is_constant = true → b.is_constant = true →
        ∃ v, opftn ev2 focus a b = Except.ok v) →
      ∃ t, fold ev2 focus r.1 = Except.ok t) ∧
    (∀ (ev2 : Evaluator) (fuel2 : Nat) (S2 : Simplifier) (items : List Operand)
        (c : simplification_context) (hashed : List (Operand × Nat)) (p : Operation)
        (sw : List Operand × simplification_context),
      items ≠ [] → hash_lengths items = Except.ok hashed → promote focus = Except.ok p →
      gather_sweep ev2 fuel2 S2 p ((sort_by_hash_length hashed).map Prod.fst) [] c
        = Except.ok sw →
      ∃ out, simplification_gather ev2 fuel2 S2 focus items c = Except.ok out) := by
  have hc : focus.commutative = true := by
    unfold simplification_gather at h
    split at h
    · cases h
    · obtain ⟨_, _, h⟩ := bind_ok _ _ _ h
      obtain ⟨p, hp, _⟩ := bind_ok _ _ _ h
      unfold promote at hp
      split at hp
      · assumption
      · cases hp
  have hne : r.1 ≠ [] ∧ r.1.length ≤ unordered_items.length ∧ unordered_items ≠ [] := by
    unfold simplification_gather at h
    split at h
    · cases h
    · rename_i x xs
      obtain ⟨hashed, hh, h⟩ := bind_ok _ _ _ h
      obtain ⟨p, _, h⟩ := bind_ok _ _ _ h
      obtain ⟨sw, _, h⟩ := bind_ok _ _ _ h
      have hlen : ((sort_by_hash_length hashed).map Prod.fst).length = (x :: xs).length := by
        rw [List.length_map, sort_by_hash_length_length, ← hash_lengths_fst _ _ hh,
          List.length_map]
      have hemit := gather_emit_length p ((sort_by_hash_length hashed).map Prod.fst) sw.1
      dsimp only at h
      split at h
      · obtain ⟨e, _, h⟩ := bind_ok _ _ _ h
        cases h
        refine ⟨by simp, by simp, by simp⟩
      · rename_i g gs hg
        cases h
        refine ⟨?_, ?_, by simp⟩
        · show gather_emit p ((sort_by_hash_length hashed).map Prod.fst) sw.1 ≠ []
          rw [hg]; simp
        · show (gather_emit p ((sort_by_hash_length hashed).map Prod.fst) sw.1).length
            ≤ (x :: xs).length
          omega
  have hfold : ∀ ev2, fold ev2 focus r.1 = fold_loop ev2 focus r.1.length r.1 := by
    intro ev2
    unfold fold
    split
    · rename_i he
      exact absurd he hne.1
    · rw [if_pos hc]
  refine ⟨hne.1, hne.2.1, hne.2.2, hc, hfold, ?_, ?_⟩
  · intro ev2 hev
    rw [hfold ev2]
    exact fold_loop_total ev2 focus hev _ _ hne.1 (Nat.le_succ _)
  · intro ev2 fuel2 S2 items c hashed p sw hi hh hp hs
    cases items with
    | nil => exact absurd rfl hi
    | cons x xs =>
      have hid : ∃ e, identity focus = Except.ok e := by
        unfold identity
        rw [if_pos hc]
        split
        · exact ⟨_, rfl⟩
        · split
          · exact ⟨_, rfl⟩
          · exact ⟨_, rfl⟩
      obtain ⟨e, he⟩ := hid
      simp only [simplification_gather, hh, hp, hs, bind, Except.bind]
      split
      · simp only [he]
        exact ⟨_, rfl⟩
      · exact ⟨_, rfl⟩

/-- Witness of C38: the terms `-1 * x` and `x` under the focus add; the gatherer returns
the one-element list `[0]`. -/
theorem gather_result_not_empty_witness :
    simplification_gather no_evaluator 4 (simplify no_evaluator 1) op_add
        [Operand.grouping (some op_mul) (Operand.integer (-1)) (Operand.var "x"),
          Operand.var "x"] ⟨[]⟩ = Except.ok ([Operand.integer 0], ⟨[]⟩) ∧
    [Operand.integer 0] ≠ [] ∧ [Operand.integer 0].length ≤ 2 :=
  have h := gather_sub_self no_evaluator (simplify no_evaluator 1) 0 "x" ⟨[]⟩
  ⟨h, (gather_result_not_empty _ _ _ _ _ _ _ h).1, (gather_result_not_empty _ _ _ _ _ _ _ h).2.1⟩

/-! ## The re-simplification branch -/

theorem resimplify_congr (S S2 : Simplifier) (ia ib : ExpressionHash) (result : Operand)
    (sctx : simplification_context)
    (hS : ∀ e c, Except.map Prod.fst (S2 e c) = Except.map Prod.fst (S e c)) :
    resimplify S2 ia ib result sctx = resimplify S ia ib result sctx := by
  have key : ∀ (e : Operand) (c c2 : simplification_context),
      (S2 e c >>= fun r => (Except.ok (r.1, c2) : Except Fault (Operand × simplification_context)))
        = (S e c >>= fun r => Except.ok (r.1, c2)) := by
    intro e c c2
    have := hS e c
    cases h2 : S2 e c <;> cases h1 : S e c <;> simp [h1, h2, Except.map] at this <;>
      simp [bind, Except.bind, this]
  unfold resimplify
  cases result with
  | grouping nop na nb =>
    dsimp only
    cases hash na with
    | error e => rfl
    | ok fa =>
      cases hash nb with
      | error e => rfl
      | ok fb =>
        simp only [bind, Except.bind]
        split
        · cases hash (Operand.grouping nop na nb) with
          | error e => rfl
          | ok hn =>
            dsimp only
            split
            · split
              · rfl
              · cases seen_result _ _ with
                | error e => rfl
                | ok seen =>
                  dsimp only
                  split
                  · rfl
                  · exact key _ _ _
            · exact key _ _ _
        · rfl
  | _ => rfl

/-- C31: cache isolation of the re-simplification branch.  The cache that `resimplify`
hands back to the caller is the cache at the moment the copy was taken: the incoming
cache, or the incoming cache with the one new bucket of the candidate stored before
the copy; and it does not depend on what the recursive call does to its copy: a
recursion handle that returns the same operands with any other caches gives the same
result and the same caller cache. -/
theorem resimplify_cache_isolated (S : Simplifier) (ia ib : ExpressionHash) (result : Operand)
    (sctx : simplification_context) (r : Operand × simplification_context)
    (h : resimplify S ia ib result sctx = Except.ok r) :
    (r.2 = sctx ∨
      ∃ hash_new, hash result = Except.ok hash_new ∧ sctx.find hash_new = none ∧
        r.2 = ⟨sctx.cache ++ [(hash_new, [result])]⟩) ∧
    (∀ S2 : Simplifier,
      (∀ e c, Except.map Prod.fst (S2 e c) = Except.map Prod.fst (S e c)) →
      resimplify S2 ia ib result sctx = Except.ok r) := by
  refine ⟨?_, fun S2 hS => by rw [resimplify_congr S S2 ia ib result sctx hS]; exact h⟩
  unfold resimplify at h
  split at h
  · rename_i nop na nb
    obtain ⟨fa, _, h⟩ := bind_ok _ _ _ h
    obtain ⟨fb, _, h⟩ := bind_ok _ _ _ h
    split at h
    · obtain ⟨hn, hhn, h⟩ := bind_ok _ _ _ h
      dsimp only at h
      split at h
      · split at h
        · cases h
        · obtain ⟨seen, _, h⟩ := bind_ok _ _ _ h
          split at h
          · cases h; exact Or.inl rfl
          · obtain ⟨r1, _, h⟩ := bind_ok _ _ _ h
            cases h; exact Or.inl rfl
      · rename_i hfind
        obtain ⟨r1, _, h⟩ := bind_ok _ _ _ h
        cases h
        exact Or.inr ⟨hn, hhn, hfind, rfl⟩
    · cases h; exact Or.inl rfl
  · cases h; exact Or.inl rfl

/-- Witness of C31: the candidate `x * 2` of `simplify(x + x)`, with the cache that holds
the bucket of `x + x`; the caller keeps that bucket and the new bucket of the candidate. -/
theorem resimplify_cache_isolated_witness :
    resimplify (simplify no_evaluator 1) [120] [120]
        (Operand.grouping (some op_mul) (Operand.var "x") (Operand.integer 2))
        ⟨[([0, 120, 120], [Operand.grouping (some op_mul) (Operand.var "x") (Operand.integer 2)])]⟩
      = Except.ok (Operand.grouping (some op_mul) (Operand.var "x") (Operand.integer 2),
          ⟨[([0, 120, 120], [Operand.grouping (some op_mul) (Operand.var "x") (Operand.integer 2)]),
            ([2, 120, 2], [Operand.grouping (some op_mul) (Operand.var "x") (Operand.integer 2)])]⟩) ∧
    ∀ S2 : Simplifier,
      (∀ e c, Except.map Prod.fst (S2 e c) = Except.map Prod.fst (simplify no_evaluator 1 e c)) →
      resimplify S2 [120] [120]
        (Operand.grouping (some op_mul) (Operand.var "x") (Operand.integer 2))
        ⟨[([0, 120, 120], [Operand.grouping (some op_mul) (Operand.var "x") (Operand.integer 2)])]⟩
      = Except.ok (Operand.grouping (some op_mul) (Operand.var "x") (Operand.integer 2),
          ⟨[([0, 120, 120], [Operand.grouping (some op_mul) (Operand.var "x") (Operand.integer 2)]),
            ([2, 120, 2], [Operand.grouping (some op_mul) (Operand.var "x") (Operand.integer 2)])]⟩) :=
  have h : resimplify (simplify no_evaluator 1) [120] [120]
        (Operand.grouping (some op_mul) (Operand.var "x") (Operand.integer 2))
        ⟨[([0, 120, 120], [Operand.grouping (some op_mul) (Operand.var "x") (Operand.integer 2)])]⟩
      = Except.ok (Operand.grouping (some op_mul) (Operand.var "x") (Operand.integer 2),
          ⟨[([0, 120, 120], [Operand.grouping (some op_mul) (Operand.var "x") (Operand.integer 2)]),
            ([2, 120, 2], [Operand.grouping (some op_mul) (Operand.var "x") (Operand.integer 2)])]⟩) := by
    decide!
  ⟨h, (resimplify_cache_isolated _ _ _ _ _ _ h).2⟩

/-! ## The recursion on the new candidate -/

/-- C36: the re-simplification recursion is a one-step cache hit.  When the operand
hashes of the candidate moved away from the initial ones (a rewrite is detected) and
the cache has no bucket for the hash of the candidate, `resimplify` with any recursion
handle `S` is the call of `S` on the candidate with the cache extended by the bucket
`(hash, [candidate])`; the entry lookup of that call finds the bucket and the
candidate in it, so `simplify` with any positive budget returns the candidate itself
and leaves the cache alone, and so does the whole re-simplification. -/
theorem resimplification_is_cache_hit (ev : Evaluator) (n : Nat) (ia ib fa fb h : ExpressionHash)
    (op : Operation) (a b : Operand) (c : simplification_context)
    (ha : hash a = Except.ok fa) (hb : hash b = Except.ok fb)
    (hh : hash (Operand.grouping (some op) a b) = Except.ok h)
    (hrw : wrap64 (cmp_hash fa ia + cmp_hash fb ib) ≠ 0)
    (hf : c.find h = none) :
    (∀ S : Simplifier, resimplify S ia ib (Operand.grouping (some op) a b) c
      = (S (Operand.grouping (some op) a b) ⟨c.cache ++ [(h, [Operand.grouping (some op) a b])]⟩
          >>= fun r => Except.ok (r.1, ⟨c.cache ++ [(h, [Operand.grouping (some op) a b])]⟩))) ∧
    cache_lookup h ⟨c.cache ++ [(h, [Operand.grouping (some op) a b])]⟩
      = Except.ok (some (Operand.grouping (some op) a b)) ∧
    simplify ev (n + 1) (Operand.grouping (some op) a b)
        ⟨c.cache ++ [(h, [Operand.grouping (some op) a b])]⟩
      = Except.ok (Operand.grouping (some op) a b,
          ⟨c.cache ++ [(h, [Operand.grouping (some op) a b])]⟩) ∧
    resimplify (simplify ev (n + 1)) ia ib (Operand.grouping (some op) a b) c
      = Except.ok (Operand.grouping (some op) a b,
          ⟨c.cache ++ [(h, [Operand.grouping (some op) a b])]⟩) := by
  have hl := cache_lookup_new h _ c hh hf
  have hne : (wrap64 (cmp_hash fa ia + cmp_hash fb ib) != 0) = true := by simpa using hrw
  have hs : simplify ev (n + 1) (Operand.grouping (some op) a b)
        ⟨c.cache ++ [(h, [Operand.grouping (some op) a b])]⟩
      = Except.ok (Operand.grouping (some op) a b,
          ⟨c.cache ++ [(h, [Operand.grouping (some op) a b])]⟩) := by
    simp only [simplify_succ, simplify_operand, simplify_grouping, hh, bind, Except.bind, hl]
  have hr : ∀ S : Simplifier, resimplify S ia ib (Operand.grouping (some op) a b) c
      = (S (Operand.grouping (some op) a b) ⟨c.cache ++ [(h, [Operand.grouping (some op) a b])]⟩
          >>= fun r => Except.ok (r.1, ⟨c.cache ++ [(h, [Operand.grouping (some op) a b])]⟩)) := by
    intro S
    simp only [resimplify, ha, hb, hh, hf, bind, Except.bind, hne, if_true]
  refine ⟨hr, hl, hs, ?_⟩
  rw [hr, hs]
  rfl

/-- Witness of C36: the candidate `2 * x` of `simplify(x * 2)`, with the cache that holds
the bucket of `x * 2`. -/
theorem resimplification_is_cache_hit_witness :
    wrap64 (cmp_hash [2] [120] + cmp_hash [120] [2]) ≠ 0 ∧
    simplify no_evaluator 1 (Operand.grouping (some op_mul) (Operand.integer 2) (Operand.var "x"))
        ⟨[([2, 120, 2], [Operand.grouping (some op_mul) (Operand.integer 2) (Operand.var "x")]),
          ([2, 2, 120], [Operand.grouping (some op_mul) (Operand.integer 2) (Operand.var "x")])]⟩
      = Except.ok (Operand.grouping (some op_mul) (Operand.integer 2) (Operand.var "x"),
        ⟨[([2, 120, 2], [Operand.grouping (some op_mul) (Operand.integer 2) (Operand.var "x")]),
          ([2, 2, 120], [Operand.grouping (some op_mul) (Operand.integer 2) (Operand.var "x")])]⟩) :=
  ⟨by decide!,
   (resimplification_is_cache_hit no_evaluator 0 [120] [2] [2] [120] [2, 2, 120] op_mul
      (Operand.integer 2) (Operand.var "x")
      ⟨[([2, 120, 2], [Operand.grouping (some op_mul) (Operand.integer 2) (Operand.var "x")])]⟩
      rfl rfl rfl (by decide!) rfl).2.2.1⟩

/-! ## A variable and a constant under addition and subtraction -/

theorem find_singleton_ne (h1 h2 : ExpressionHash) (l : List Operand) (hne : h1 ≠ h2) :
    (⟨[(h1, l)]⟩ : simplification_context).find h2 = none := by
  simp [simplification_context.find, find_from, hne]

theorem power_unchanged (ev : Evaluator) (k : Nat) (v : String) (n : Int) (hn : 2 ≤ n)
    (c : simplification_context)
    (hf : c.find (4 :: (lexicon_tokens v ++ [n])) = none) :
    simplify ev (k + 2) (Operand.grouping (some op_exp) (Operand.var v) (Operand.integer n)) c
      = Except.ok (Operand.grouping (some op_exp) (Operand.var v) (Operand.integer n),
          ⟨c.cache ++ [(4 :: (lexicon_tokens v ++ [n]),
            [Operand.grouping (some op_exp) (Operand.var v) (Operand.integer n)])]⟩) := by
  have hb : find_base op_exp commutative_inverses = none := rfl
  have hc : op_exp.commutative = false := rfl
  have hid : op_exp.id = 4 := rfl
  have h0 : n ≠ 0 := by omega
  have h1 : n ≠ 1 := by omega
  have h2 : ¬ n < 0 := by omega
  have hr : aggressive_rules op_exp (Operand.var v) (Operand.integer n)
      = Operand.grouping (some op_exp) (Operand.var v) (Operand.integer n) := by
    simp [aggressive_rules, hc, Operand.is_zero, Operand.is_one, h0, h1, h2]
  have hag : ∀ (S : Simplifier) (c : simplification_context),
      simplification_aggressive S op_exp (Operand.var v) (Operand.integer n) c
        = Except.ok (Operand.grouping (some op_exp) (Operand.var v) (Operand.integer n), c) := by
    intro S c
    simp [simplification_aggressive, hr, Operand.is_binary_grouping, bind, Except.bind]
  have hw : wrap64 0 = 0 := by decide
  have hre : ∀ (S : Simplifier) (c : simplification_context),
      resimplify S (lexicon_tokens v) [n]
        (Operand.grouping (some op_exp) (Operand.var v) (Operand.integer n)) c
        = Except.ok (Operand.grouping (some op_exp) (Operand.var v) (Operand.integer n), c) := by
    intro S c
    simp [resimplify, hash, cmp_hash_self, hw, bind, Except.bind]
  simp only [simplify_succ, simplify_operand, simplify_grouping]
  simp [hash, hid, cache_lookup, hf, hb, hc, simplify_branches, simplify_succ, simplify_operand,
    Operand.is_constant, hag, hre, simplification_context.insert, bind, Except.bind]

theorem power_one (ev : Evaluator) (k : Nat) (v : String) (c : simplification_context)
    (hf : c.find (4 :: (lexicon_tokens v ++ [1])) = none) :
    simplify ev (k + 2) (Operand.grouping (some op_exp) (Operand.var v) (Operand.integer 1)) c
      = Except.ok (Operand.var v,
          ⟨c.cache ++ [(4 :: (lexicon_tokens v ++ [1]),
            [Operand.grouping (some op_exp) (Operand.var v) (Operand.integer 1)])]⟩) := by
  have hb : find_base op_exp commutative_inverses = none := rfl
  have hc : op_exp.commutative = false := rfl
  have hid : op_exp.id = 4 := rfl
  have hag : ∀ (S : Simplifier) (c : simplification_context),
      simplification_aggressive S op_exp (Operand.var v) (Operand.integer 1) c
        = Except.ok (Operand.var v, c) := fun _ _ => rfl
  simp only [simplify_succ, simplify_operand, simplify_grouping]
  simp [hash, hid, cache_lookup, hf, hb, hc, simplify_branches, simplify_succ, simplify_operand,
    Operand.is_constant, hag, resimplify, simplification_context.insert, bind, Except.bind]

theorem negative_power (ev : Evaluator) (k : Nat) (v : String) (n : Int) (hn : 2 ≤ n)
    (hr : n < 2 ^ 63) :
    simplify_top ev (k + 3)
        (Operand.grouping (some op_exp) (Operand.var v) (Operand.integer (-n)))
      = Except.ok (Operand.grouping (some op_div) (Operand.integer 1)
          (Operand.grouping (some op_exp) (Operand.var v) (Operand.integer n))) := by
  have hb : find_base op_exp commutative_inverses = none := rfl
  have hc : op_exp.commutative = false := rfl
  have hid : op_exp.id = 4 := rfl
  have h0 : n ≠ 0 := by omega
  have h1 : -n ≠ 1 := by omega
  have h2 : 0 < n := by omega
  have hw : wrap64 n = n := wrap64_of_range n (by omega) hr
  have hru : aggressive_rules op_exp (Operand.var v) (Operand.integer (-n))
      = Operand.grouping (some op_div) (Operand.integer 1)
          (Operand.grouping (some op_exp) (Operand.var v) (Operand.integer n)) := by
    simp [aggressive_rules, hc, Operand.is_zero, Operand.is_one, h0, h1, h2, one_over_power, hw]
  have hne : (4 :: (lexicon_tokens v ++ [-n])) ≠ (4 :: (lexicon_tokens v ++ [n])) := by
    simp; omega
  have hp := power_unchanged ev k v n hn
    ⟨[(4 :: (lexicon_tokens v ++ [-n]),
      [Operand.grouping (some op_exp) (Operand.var v) (Operand.integer (-n))])]⟩
    (find_singleton_ne _ _ _ hne)
  have hag : simplification_aggressive (simplify ev (k + 2)) op_exp (Operand.var v)
        (Operand.integer (-n))
        ⟨[(4 :: (lexicon_tokens v ++ [-n]),
          [Operand.grouping (some op_exp) (Operand.var v) (Operand.integer (-n))])]⟩
      = Except.ok (Operand.grouping (some op_div) (Operand.integer 1)
          (Operand.grouping (some op_exp) (Operand.var v) (Operand.integer n)),
        ⟨[(4 :: (lexicon_tokens v ++ [-n]),
          [Operand.grouping (some op_exp) (Operand.var v) (Operand.integer (-n))]),
          (4 :: (lexicon_tokens v ++ [n]),
          [Operand.grouping (some op_exp) (Operand.var v) (Operand.integer n)])]⟩) := by
    simp [simplification_aggressive, hru, Operand.is_binary_grouping, hp, bind, Except.bind]
  have hre := resimplify_new ev (k + 1) (lexicon_tokens v) [-n] [1]
    (4 :: (lexicon_tokens v ++ [n])) (3 :: ([1] ++ (4 :: (lexicon_tokens v ++ [n])))) op_div
    (Operand.integer 1) (Operand.grouping (some op_exp) (Operand.var v) (Operand.integer n))
    ⟨[(4 :: (lexicon_tokens v ++ [-n]),
          [Operand.grouping (some op_exp) (Operand.var v) (Operand.integer (-n))]),
          (4 :: (lexicon_tokens v ++ [n]),
          [Operand.grouping (some op_exp) (Operand.var v) (Operand.integer n)])]⟩
    rfl rfl rfl (by simp [simplification_context.find, find_from])
  simp only [simplify_top, simplify_succ, simplify_operand, simplify_grouping]
  simp [hash, hid, cache_lookup, simplification_context.find, find_from, hb, hc, simplify_branches,
    simplify_succ, simplify_operand, Operand.is_constant, hag, hre, simplification_context.insert,
    bind, Except.bind]

theorem negative_one_power (ev : Evaluator) (k : Nat) (v : String) :
    simplify_top ev (k + 3)
        (Operand.grouping (some op_exp) (Operand.var v) (Operand.integer (-1)))
      = Except.ok (Operand.grouping (some op_div) (Operand.integer 1) (Operand.var v)) := by
  have hb : find_base op_exp commutative_inverses = none := rfl
  have hc : op_exp.commutative = false := rfl
  have hid : op_exp.id = 4 := rfl
  have hru : aggressive_rules op_exp (Operand.var v) (Operand.integer (-1))
      = Operand.grouping (some op_div) (Operand.integer 1)
          (Operand.grouping (some op_exp) (Operand.var v) (Operand.integer 1)) := rfl
  have hne : (4 :: (lexicon_tokens v ++ [-1])) ≠ (4 :: (lexicon_tokens v ++ [1])) := by
    simp
  have hp := power_one ev k v
    ⟨[(4 :: (lexicon_tokens v ++ [-1]),
      [Operand.grouping (some op_exp) (Operand.var v) (Operand.integer (-1))])]⟩
    (find_singleton_ne _ _ _ hne)
  have hag : simplification_aggressive (simplify ev (k + 2)) op_exp (Operand.var v)
        (Operand.integer (-1))
        ⟨[(4 :: (lexicon_tokens v ++ [-1]),
          [Operand.grouping (some op_exp) (Operand.var v) (Operand.integer (-1))])]⟩
      = Except.ok (Operand.grouping (some op_div) (Operand.integer 1) (Operand.var v),
        ⟨[(4 :: (lexicon_tokens v ++ [-1]),
          [Operand.grouping (some op_exp) (Operand.var v) (Operand.integer (-1))]),
          (4 :: (lexicon_tokens v ++ [1]),
          [Operand.grouping (some op_exp) (Operand.var v) (Operand.integer 1)])]⟩) := by
    simp [simplification_aggressive, hru, Operand.is_binary_grouping, hp, bind, Except.bind]
  have hre := resimplify_new ev (k + 1) (lexicon_tokens v) [-1] [1]
    (lexicon_tokens v) (3 :: ([1] ++ lexicon_tokens v)) op_div
    (Operand.integer 1) (Operand.var v)
    ⟨[(4 :: (lexicon_tokens v ++ [-1]),
          [Operand.grouping (some op_exp) (Operand.var v) (Operand.integer (-1))]),
          (4 :: (lexicon_tokens v ++ [1]),
          [Operand.grouping (some op_exp) (Operand.var v) (Operand.integer 1)])]⟩
    rfl rfl rfl (by simp [simplification_context.find, find_from])
  simp only [simplify_top, simplify_succ, simplify_operand, simplify_grouping]
  simp [hash, hid, cache_lookup, simplification_context.find, find_from, hb, hc, simplify_branches,
    simplify_succ, simplify_operand, Operand.is_constant, hag, hre, simplification_context.insert,
    bind, Except.bind]

/-- C33: negative exponents move to the denominator.  For every variable `x`, every
evaluator and every step budget of at least `3`, `simplify` from an empty cache turns
`x ^ (-n)` into the grouping `1 / (x ^ n)` for every `Integer` `n ≥ 2`, turns `x ^ (-1)`
into the grouping `1 / x`, and returns `x ^ n` itself for every `Integer` exponent
`n ≥ 2`. -/
theorem simplify_negative_exponent (ev : Evaluator) (v : String) (k : Nat) (n : Int)
    (hn : 2 ≤ n) (hr : n < 2 ^ 63) :
    simplify_top ev (k + 3)
        (Operand.grouping (some op_exp) (Operand.var v) (Operand.integer (-n)))
      = Except.ok (Operand.grouping (some op_div) (Operand.integer 1)
          (Operand.grouping (some op_exp) (Operand.var v) (Operand.integer n))) ∧
    simplify_top ev (k + 3)
        (Operand.grouping (some op_exp) (Operand.var v) (Operand.integer (-1)))
      = Except.ok (Operand.grouping (some op_div) (Operand.integer 1) (Operand.var v)) ∧
    simplify_top ev (k + 3)
        (Operand.grouping (some op_exp) (Operand.var v) (Operand.integer n))
      = Except.ok (Operand.grouping (some op_exp) (Operand.var v) (Operand.integer n)) := by
  refine ⟨negative_power ev k v n hn hr, negative_one_power ev k v, ?_⟩
  have hp := power_unchanged ev (k + 1) v n hn ⟨[]⟩ rfl
  simp only [simplify_top, hp]

/-- Witness of C33: the variable `x` and the exponent `5`, with a budget of `3` steps. -/
theorem simplify_negative_exponent_witness :
    (2 : Int) ≤ 5 ∧ (5 : Int) < 2 ^ 63 ∧
    simplify_top no_evaluator 3
        (Operand.grouping (some op_exp) (Operand.var "x") (Operand.integer (-5)))
      = Except.ok (Operand.grouping (some op_div) (Operand.integer 1)
          (Operand.grouping (some op_exp) (Operand.var "x") (Operand.integer 5))) ∧
    simplify_top no_evaluator 3
        (Operand.grouping (some op_exp) (Operand.var "x") (Operand.integer (-1)))
      = Except.ok (Operand.grouping (some op_div) (Operand.integer 1) (Operand.var "x")) ∧
    simplify_top no_evaluator 3
        (Operand.grouping (some op_exp) (Operand.var "x") (Operand.integer 5))
      = Except.ok (Operand.grouping (some op_exp) (Operand.var "x") (Operand.integer 5)) :=
  ⟨by decide, by decide, simplify_negative_exponent no_evaluator "x" 0 5 (by decide) (by decide)⟩

/-! ## Value of the delivered tree -/

set_option maxRecDepth 100000 in
/-- C37 (code at the failing input): an assertion of `simplification_fold` fails on
`x * 2 + 120 * 2`.  The term `120 * 2` is variable-free, so the recursive `is_constant`
puts it among the constants; its hash is the hash of `x * 2`, because the variable `x`
hashes to the code `120` of its character.  `simplification_fold` first simplifies the
unresolved term `x * 2`, which stores `2 * x` under that hash, and the call of
`simplify` on the constant term is answered from the cache with `2 * x`, which is not
a constant: the assertion on the simplified constant fails, for every evaluator and
every budget from `6` on.  From an empty cache the same term simplifies to `240`. -/
theorem constant_term_assertion_fails :
    is_constant (Operand.grouping (some op_mul) (Operand.integer 120) (Operand.integer 2)) = true ∧
    hash (Operand.grouping (some op_mul) (Operand.integer 120) (Operand.integer 2))
      = hash (Operand.grouping (some op_mul) (Operand.var "x") (Operand.integer 2)) ∧
    (∀ (ev : Evaluator) (n : Nat),
      unfold (n + 4) op_add
          (Operand.grouping (some op_add)
            (Operand.grouping (some op_mul) (Operand.var "x") (Operand.integer 2))
            (Operand.grouping (some op_mul) (Operand.integer 120) (Operand.integer 2)))
        = Except.ok [Operand.grouping (some op_mul) (Operand.integer 120) (Operand.integer 2),
            Operand.grouping (some op_mul) (Operand.var "x") (Operand.integer 2)] ∧
      simplify ev (n + 5)
          (Operand.grouping (some op_mul) (Operand.var "x") (Operand.integer 2)) ⟨[]⟩
        = Except.ok (Operand.grouping (some op_mul) (Operand.integer 2) (Operand.var "x"),
            ⟨[([2, 120, 2],
                [Operand.grouping (some op_mul) (Operand.integer 2) (Operand.var "x")]),
              ([2, 2, 120],
                [Operand.grouping (some op_mul) (Operand.integer 2) (Operand.var "x")])]⟩) ∧
      simplify ev (n + 5)
          (Operand.grouping (some op_mul) (Operand.integer 120) (Operand.integer 2))
          ⟨[([2, 120, 2],
                [Operand.grouping (some op_mul) (Operand.integer 2) (Operand.var "x")]),
              ([2, 2, 120],
                [Operand.grouping (some op_mul) (Operand.integer 2) (Operand.var "x")])]⟩
        = Except.ok (Operand.grouping (some op_mul) (Operand.integer 2) (Operand.var "x"),
            ⟨[([2, 120, 2],
                [Operand.grouping (some op_mul) (Operand.integer 2) (Operand.var "x")]),
              ([2, 2, 120],
                [Operand.grouping (some op_mul) (Operand.integer 2) (Operand.var "x")])]⟩) ∧
      simplify ev (n + 5)
          (Operand.grouping (some op_mul) (Operand.integer 120) (Operand.integer 2)) ⟨[]⟩
        = Except.ok (Operand.integer 240, ⟨[]⟩) ∧
      simplification_fold ev (n + 5) (simplify ev (n + 5)) op_add
          (Operand.grouping (some op_add)
            (Operand.grouping (some op_mul) (Operand.var "x") (Operand.integer 2))
            (Operand.grouping (some op_mul) (Operand.integer 120) (Operand.integer 2))) ⟨[]⟩
        = Except.error Fault.assertion ∧
      simplify_top ev (n + 6)
          (Operand.grouping (some op_add)
            (Operand.grouping (some op_mul) (Operand.var "x") (Operand.integer 2))
            (Operand.grouping (some op_mul) (Operand.integer 120) (Operand.integer 2)))
        = Except.error Fault.assertion) ∧
    (Operand.grouping (some op_mul) (Operand.integer 2) (Operand.var "x")).is_constant = false :=
by
  refine ⟨?_, ?_, fun ev n => ⟨?_, ?_, ?_, ?_, ?_, ?_⟩, ?_⟩
  · rfl
  · rfl
  · rfl
  · rfl
  · rfl
  · rfl
  · rfl
  · rfl
  · rfl

end fermat
